import Mathlib

/-!
# Maze solver (mopsolver.c): shallow embedding and verification

The C program keeps a maze as a `char **` with its dimensions, a pool of
search nodes linked by two kinds of pointers (`previousPath`, `nextQueue`),
and an intrusive FIFO queue.  Pointers to nodes are modelled as indices into
the list of nodes created so far (which is also the order of the `nodes`
table of `stepCount`); a null pointer is `none`.  Undefined behaviour of the
C program (out-of-range reads, null dereferences, failed assertions, signed
overflow) is an explicit `Fault`.
-/

namespace Mopsolver

/-! ## Machine integers -/

/-- Ways an execution can go wrong. `fuel` is reported by the bounded loops of
the model when their iteration budget is exhausted. -/
inductive Fault where
  | outOfBounds
  | nullDeref
  | assertion
  | overflow
  | fuel
  deriving DecidableEq, Repr

/-- Largest value of a C `int` (32 bits). -/
def INT_MAX : Int := 2147483647

/-- Smallest value of a C `int` (32 bits). -/
def INT_MIN : Int := -2147483648

/-- The conversion `(int)n` of a `size_t` value: reduction modulo `2^32`
into the signed range. -/
def toInt (n : Nat) : Int :=
  if n % 4294967296 < 2147483648 then ((n % 4294967296 : Nat) : Int)
  else ((n % 4294967296 : Nat) : Int) - 4294967296

/-- Signed `int` addition; overflow is undefined behaviour. -/
def addInt (a b : Int) : Except Fault Int :=
  if INT_MIN ≤ a + b ∧ a + b ≤ INT_MAX then .ok (a + b) else .error .overflow

/-- Unsigned `size_t` subtraction `a - 1` (64 bits, wrapping). -/
def pred64 (a : Nat) : Nat := (a + 18446744073709551615) % 18446744073709551616

instance instDecidableEqExcept {ε α : Type} [DecidableEq ε] [DecidableEq α] :
    DecidableEq (Except ε α)
  | .ok a, .ok b => if h : a = b then isTrue (by rw [h]) else isFalse (fun e => h (by cases e; rfl))
  | .error a, .error b =>
    if h : a = b then isTrue (by rw [h]) else isFalse (fun e => h (by cases e; rfl))
  | .ok _, .error _ => isFalse (fun e => by cases e)
  | .error _, .ok _ => isFalse (fun e => by cases e)

/-! ## Data model -/

/-- The `struct Maze_S`: dimensions and the cell storage.  `array r c` is
`none` where row `r` / column `c` lies outside the allocated storage. -/
structure Maze where
  rows : Nat
  columns : Nat
  array : Nat → Nat → Option Char

/-- The `struct Node_S`; pointers are indices into the node pool. -/
structure Node where
  row : Nat
  column : Nat
  previousPath : Option Nat
  nextQueue : Option Nat
  distance : Int
  deriving DecidableEq, Repr

/-- The `struct Queue_S`. -/
structure Queue where
  size : Nat
  front : Option Nat
  rear : Option Nat
  deriving DecidableEq, Repr

/-- The pool of all nodes allocated so far; a node pointer is its index. -/
abbrev Heap := List Node

/-- Dereference of a node pointer. -/
def getNode (heap : Heap) (p : Nat) : Except Fault Node :=
  match heap[p]? with
  | some n => .ok n
  | none => .error .outOfBounds

/-- Allocation of a node by `createNode`: the new node is appended to the
pool and its pointer returned. -/
def createNode (heap : Heap) (row column : Nat) (distance : Int)
    (previous : Option Nat) : Heap × Nat :=
  (heap ++ [{ row := row, column := column, previousPath := previous,
              nextQueue := none, distance := distance }], heap.length)

/-- The empty queue of `createQueue`. -/
def createQueue : Queue := { size := 0, front := none, rear := none }

/-- The test `isEmpty`: looks at `front` only. -/
def isEmpty (queue : Queue) : Bool :=
  match queue.front with
  | some _ => false
  | none => true

/-- The operation `enQueue(queue, node)`. -/
def enQueue (heap : Heap) (queue : Queue) (node : Nat) : Except Fault (Heap × Queue) :=
  if queue.size = 0 then
    .ok (heap, { size := queue.size + 1, front := some node, rear := some node })
  else
    match queue.rear with
    | none => .error .nullDeref
    | some temp =>
      match heap[temp]? with
      | none => .error .outOfBounds
      | some t =>
        .ok (heap.set temp { t with nextQueue := some node },
             { size := queue.size + 1, front := queue.front, rear := some node })

/-- The operation `deQueue(queue)`: the assertion, then the removal of the
front node.  The result is the new queue and the returned pointer. -/
def deQueue (heap : Heap) (queue : Queue) : Except Fault (Queue × Option Nat) :=
  if queue.size > 0 then
    match queue.front with
    | some temp =>
      match heap[temp]? with
      | none => .error .outOfBounds
      | some t =>
        let size := queue.size - 1
        .ok ({ size := size, front := t.nextQueue,
               rear := if size = 0 then none else queue.rear }, some temp)
    | none => .ok ({ queue with rear := none }, none)
  else .error .assertion

/-- Read of `maze->array[r][c]`. -/
def readCell (maze : Maze) (r c : Nat) : Except Fault Char :=
  match maze.array r c with
  | some ch => .ok ch
  | none => .error .outOfBounds

/-- Write of `maze->array[r][c] = ch`. -/
def writeCell (maze : Maze) (r c : Nat) (ch : Char) : Except Fault Maze :=
  match maze.array r c with
  | some _ =>
    .ok { maze with array := fun r1 c1 => if r1 = r ∧ c1 = c then some ch else maze.array r1 c1 }
  | none => .error .outOfBounds

/-- The function `validPoint(maze, row, column)`. -/
def validPoint (maze : Maze) (row column : Int) : Except Fault Bool :=
  if row < 0 ∨ column < 0 ∨ row ≥ toInt maze.rows ∨ column ≥ toInt maze.columns then
    .ok false
  else
    match maze.array row.toNat column.toNat with
    | none => .error .outOfBounds
    | some ch => .ok (decide (ch = '0'))

/-! ## The breadth-first search of stepCount -/

/-- The mutable state of the search loop: the node pool (in creation order,
so that `nodes.length` is `nodesCreated`), the `visited` matrix and the queue. -/
structure Search where
  nodes : Heap
  visited : Nat → Nat → Bool
  queue : Queue

/-- Read of `visited[r][c]`; the matrix has `rows` rows of `columns` flags. -/
def readVisited (maze : Maze) (visited : Nat → Nat → Bool) (r c : Nat) : Except Fault Bool :=
  if r < maze.rows ∧ c < maze.columns then .ok (visited r c) else .error .outOfBounds

/-- Write `visited[r][c] = true`. -/
def setVisited (maze : Maze) (visited : Nat → Nat → Bool) (r c : Nat) :
    Except Fault (Nat → Nat → Bool) :=
  if r < maze.rows ∧ c < maze.columns then
    .ok (fun r1 c1 => if r1 = r ∧ c1 = c then true else visited r1 c1)
  else .error .outOfBounds

/-- Creation of a search node for cell `(row, column)`, its entry in the
`nodes` table (which has room for at least `rows * columns` pointers) and
its insertion into the queue. -/
def pushNode (maze : Maze) (s : Search) (row column : Nat) (distance : Int)
    (previous : Option Nat) : Except Fault Search :=
  if s.nodes.length < maze.rows * maze.columns then
    match enQueue (createNode s.nodes row column distance previous).1 s.queue
        (createNode s.nodes row column distance previous).2 with
    | .ok (heap, queue) => .ok { nodes := heap, visited := s.visited, queue := queue }
    | .error e => .error e
  else .error .outOfBounds

/-- One iteration of the `for (i = 0; i < 4; i++)` loop, for the offset
`(dRow, dCol) = (rowNum[i], colNum[i])`. -/
def visitNeighbor (maze : Maze) (current : Nat) (s : Search) (dRow dCol : Int) :
    Except Fault Search :=
  match getNode s.nodes current with
  | .error e => .error e
  | .ok cur =>
    match addInt (toInt cur.row) dRow with
    | .error e => .error e
    | .ok row =>
      match addInt (toInt cur.column) dCol with
      | .error e => .error e
      | .ok column =>
        match validPoint maze row column with
        | .error e => .error e
        | .ok false => .ok s
        | .ok true =>
          match readVisited maze s.visited row.toNat column.toNat with
          | .error e => .error e
          | .ok true => .ok s
          | .ok false =>
            match setVisited maze s.visited row.toNat column.toNat with
            | .error e => .error e
            | .ok visited =>
              match addInt cur.distance 1 with
              | .error e => .error e
              | .ok distance =>
                pushNode maze { s with visited := visited } row.toNat column.toNat
                  distance (some current)

/-- The offsets `rowNum[i]`, `colNum[i]` in loop order: up, left, right, down. -/
def offsets : List (Int × Int) := [(-1, 0), (0, -1), (0, 1), (1, 0)]

/-- The whole `for` loop over the four neighbours of `current`. -/
def visitNeighbors (maze : Maze) (current : Nat) (s : Search) :
    List (Int × Int) → Except Fault Search
  | [] => .ok s
  | d :: ds =>
    match visitNeighbor maze current s d.1 d.2 with
    | .error e => .error e
    | .ok s1 => visitNeighbors maze current s1 ds

/-- The `while (isEmpty(queue) == false)` loop, bounded by `fuel` iterations.
The result is the final state and the goal node when `solution` is true. -/
def bfsLoop (maze : Maze) : Nat → Search → Except Fault (Search × Option Nat)
  | 0, _ => .error .fuel
  | fuel + 1, s =>
    if isEmpty s.queue then .ok (s, none)
    else
      match deQueue s.nodes s.queue with
      | .error e => .error e
      | .ok (_, none) => .error .nullDeref
      | .ok (queue, some current) =>
        match getNode s.nodes current with
        | .error e => .error e
        | .ok cur =>
          if cur.row = pred64 maze.rows ∧ cur.column = pred64 maze.columns then
            .ok ({ s with queue := queue }, some current)
          else
            match visitNeighbors maze current { s with queue := queue } offsets with
            | .error e => .error e
            | .ok s1 => bfsLoop maze fuel s1

/-- The loop `while (current != NULL)` that writes the path marks, bounded
by `fuel` iterations. -/
def markPath (nodes : Heap) : Nat → Maze → Option Nat → Except Fault Maze
  | _, maze, none => .ok maze
  | 0, _, some _ => .error .fuel
  | fuel + 1, maze, some current =>
    match getNode nodes current with
    | .error e => .error e
    | .ok cur =>
      match writeCell maze cur.row cur.column '+' with
      | .error e => .error e
      | .ok maze1 => markPath nodes fuel maze1 cur.previousPath

/-- The initial search state: start cell visited, its node created with
distance 1 and queued. -/
def initSearch (maze : Maze) (sRow sColumn : Nat) : Except Fault Search :=
  match setVisited maze (fun _ _ => false) sRow sColumn with
  | .error e => .error e
  | .ok visited =>
    pushNode maze { nodes := [], visited := visited, queue := createQueue } sRow sColumn 1 none

/-- The part of `stepCount` after the endpoint test. -/
def search (fuel : Nat) (maze : Maze) (sRow sColumn : Nat) (optimalPath : Bool) :
    Except Fault (Int × Maze) :=
  match initSearch maze sRow sColumn with
  | .error e => .error e
  | .ok s0 =>
    match bfsLoop maze fuel s0 with
    | .error e => .error e
    | .ok (_, none) => .ok (0, maze)
    | .ok (s, some current) =>
      match getNode s.nodes current with
      | .error e => .error e
      | .ok cur =>
        if optimalPath then
          match markPath s.nodes s.nodes.length maze (some current) with
          | .error e => .error e
          | .ok maze1 => .ok (cur.distance, maze1)
        else .ok (cur.distance, maze)

/-- The function `stepCount` with an explicit bound on the iterations of the
main loop.  The result is the returned distance and the maze after the call. -/
def stepCountFuel (fuel : Nat) (maze : Maze) (sRow sColumn : Nat) (optimalPath : Bool) :
    Except Fault (Int × Maze) :=
  match readCell maze sRow sColumn with
  | .error e => .error e
  | .ok startCell =>
    if startCell ≠ '0' then .ok (0, maze)
    else
      match readCell maze (pred64 maze.rows) (pred64 maze.columns) with
      | .error e => .error e
      | .ok goalCell =>
        if goalCell ≠ '0' then .ok (0, maze)
        else search fuel maze sRow sColumn optimalPath

/-- The function `stepCount(maze, sRow, sColumn, optimalPath)`.  The main
loop removes one node per iteration and every cell gets at most one node, so
`rows * columns + 1` iterations are enough (see `stepCount_total`). -/
def stepCount (maze : Maze) (sRow sColumn : Nat) (optimalPath : Bool) :
    Except Fault (Int × Maze) :=
  stepCountFuel (maze.rows * maze.columns + 1) maze sRow sColumn optimalPath

/-- A maze given by its rows of cells (used for concrete examples). -/
def Maze.ofRows (cells : List (List Char)) : Maze :=
  { rows := cells.length,
    columns := (cells.headD []).length,
    array := fun r c => (cells.getD r []).get? c }

/-- A well-formed maze value: the dimensions are `size_t` values and the
cells inside the declared dimensions are backed by storage. -/
def Maze.WF (m : Maze) : Prop :=
  m.rows < 18446744073709551616 ∧ m.columns < 18446744073709551616 ∧
    ∀ r < m.rows, ∀ c < m.columns, (m.array r c).isSome = true

/-- The cell `(r, c)` lies inside the grid and holds the character `0`. -/
def Maze.OpenAt (m : Maze) (r c : Nat) : Prop :=
  r < m.rows ∧ c < m.columns ∧ m.array r c = some '0'

instance instDecidableWF (m : Maze) : Decidable m.WF :=
  inferInstanceAs (Decidable
    (m.rows < 18446744073709551616 ∧ m.columns < 18446744073709551616 ∧
      ∀ r < m.rows, ∀ c < m.columns, (m.array r c).isSome = true))

instance instDecidableOpenAt (m : Maze) (r c : Nat) : Decidable (m.OpenAt r c) :=
  inferInstanceAs (Decidable (r < m.rows ∧ c < m.columns ∧ m.array r c = some '0'))

/-- A grid of `2^31` rows and one column, every cell open. -/
def tallMaze : Maze :=
  { rows := 2147483648, columns := 1,
    array := fun r c => if r < 2147483648 ∧ c < 1 then some '0' else none }

/-! ## Queue clients and the list specification -/

/-- A call made on the queue by a client. -/
inductive QueueOp where
  | enq (node : Nat)
  | deq
  deriving DecidableEq, Repr

/-- Execution of a sequence of calls on the implementation; the pointers
returned by the `deQueue` calls are collected in call order. -/
def runQueue : Heap → Queue → List QueueOp →
    Except Fault (Heap × Queue × List (Option Nat))
  | heap, queue, [] => .ok (heap, queue, [])
  | heap, queue, .enq node :: ops =>
    match enQueue heap queue node with
    | .error e => .error e
    | .ok (heap1, queue1) => runQueue heap1 queue1 ops
  | heap, queue, .deq :: ops =>
    match deQueue heap queue with
    | .error e => .error e
    | .ok (queue1, out) =>
      match runQueue heap queue1 ops with
      | .error e => .error e
      | .ok (heap2, queue2, outs) => .ok (heap2, queue2, out :: outs)

/-- The list specification of the queue: `enq` appends at the rear, `deq`
removes and returns the head; `none` when `deq` meets the empty list. -/
def runList : List Nat → List QueueOp → Option (List Nat × List Nat)
  | l, [] => some (l, [])
  | l, .enq node :: ops => runList (l ++ [node]) ops
  | [], .deq :: _ => none
  | x :: l, .deq :: ops =>
    match runList l ops with
    | none => none
    | some (l1, outs) => some (l1, x :: outs)

/-- The nodes passed to `enQueue`, in call order. -/
def enqueued : List QueueOp → List Nat
  | [] => []
  | .enq node :: ops => node :: enqueued ops
  | .deq :: ops => enqueued ops

/-- The number of `deQueue` calls. -/
def countDeq : List QueueOp → Nat
  | [] => 0
  | .enq _ :: ops => countDeq ops
  | .deq :: ops => countDeq ops + 1

/-- Every `deq` of the sequence is made while the queue holds an entry,
when the sequence starts on a queue holding `n` entries. -/
def guarded : Nat → List QueueOp → Bool
  | _, [] => true
  | n, .enq _ :: ops => guarded (n + 1) ops
  | 0, .deq :: _ => false
  | n + 1, .deq :: ops => guarded n ops

/-- The fields of a node that are fixed at creation: the node with its
`nextQueue` link erased. -/
def Node.payload (n : Node) : Node := { n with nextQueue := none }

/-- The `nextQueue` chain starting at `front` runs through exactly the nodes
of `l` and ends with a null pointer. -/
def Linked (heap : Heap) : Option Nat → List Nat → Prop
  | front, [] => front = none
  | front, p :: l => front = some p ∧ ∃ t, heap[p]? = some t ∧ Linked heap t.nextQueue l

/-- The queue structure `q` over `heap` represents the list `l` of node
pointers, front first. -/
def QueueRep (heap : Heap) (q : Queue) (l : List Nat) : Prop :=
  q.size = l.length ∧ l.Nodup ∧ Linked heap q.front l ∧ (l ≠ [] → q.rear = l.getLast?)

/-- Three freshly created nodes (pointers 0, 1, 2), as `createNode` leaves them. -/
def demoHeap : Heap :=
  (createNode (createNode (createNode [] 0 0 1 none).1 0 1 2 (some 0)).1 1 1 3 (some 1)).1

/-- A client run with interleaved calls on distinct nodes. -/
def demoOps : List QueueOp := [.enq 0, .enq 1, .deq, .enq 2, .deq]

/-- A client run that queues node 0 a second time while it is still queued. -/
def twiceOps : List QueueOp := [.enq 0, .enq 1, .enq 0, .enq 2, .deq, .deq]

/-! ## Paths in the grid -/

/-- Two coordinates differ by exactly 1 in exactly one axis. -/
def Adj (a b : Nat × Nat) : Prop :=
  (a.1 = b.1 ∧ (a.2 + 1 = b.2 ∨ b.2 + 1 = a.2)) ∨
    (a.2 = b.2 ∧ (a.1 + 1 = b.1 ∨ b.1 + 1 = a.1))

instance instDecidableAdj (a b : Nat × Nat) : Decidable (Adj a b) :=
  inferInstanceAs (Decidable
    ((a.1 = b.1 ∧ (a.2 + 1 = b.2 ∨ b.2 + 1 = a.2)) ∨
      (a.2 = b.2 ∧ (a.1 + 1 = b.1 ∨ b.1 + 1 = a.1))))

/-- The list `p` is a 4-directionally connected sequence of open cells of
`m` that begins at `start` and ends at `goal`. -/
def IsPath (m : Maze) (start goal : Nat × Nat) (p : List (Nat × Nat)) : Prop :=
  p.head? = some start ∧ p.getLast? = some goal ∧ (∀ x ∈ p, m.OpenAt x.1 x.2) ∧
    p.Chain' Adj

/-- Decision procedure for connectedness of a list of coordinates. -/
def decideConnected : (l : List (Nat × Nat)) → Decidable (l.Chain' Adj)
  | [] => isTrue List.chain'_nil
  | [a] => isTrue (List.chain'_singleton a)
  | a :: b :: l =>
    match instDecidableAdj a b, decideConnected (b :: l) with
    | isTrue h1, isTrue h2 => isTrue (List.chain'_cons.mpr ⟨h1, h2⟩)
    | isFalse h1, _ => isFalse (fun h => h1 (List.chain'_cons.mp h).1)
    | _, isFalse h2 => isFalse (fun h => h2 (List.chain'_cons.mp h).2)

instance instDecidableConnected (l : List (Nat × Nat)) : Decidable (l.Chain' Adj) :=
  decideConnected l

instance instDecidableIsPath (m : Maze) (start goal : Nat × Nat) (p : List (Nat × Nat)) :
    Decidable (IsPath m start goal p) :=
  inferInstanceAs (Decidable
    (p.head? = some start ∧ p.getLast? = some goal ∧ (∀ x ∈ p, m.OpenAt x.1 x.2) ∧
      p.Chain' Adj))

/-- The grid `m` with the cells of `p` overwritten by the path mark. -/
def markCells (m : Maze) (p : List (Nat × Nat)) : Maze :=
  { m with array := fun r c => if (r, c) ∈ p then some '+' else m.array r c }

/-- The `visited` matrix after `visited[r][c] = true`. -/
def markVisited (visited : Nat → Nat → Bool) (r c : Nat) : Nat → Nat → Bool :=
  fun r1 c1 => if r1 = r ∧ c1 = c then true else visited r1 c1

/-- The node that `createNode(row, column, distance, previous)` initialises. -/
def newNode (row column : Nat) (distance : Int) (previous : Option Nat) : Node :=
  { row := row, column := column, previousPath := previous, nextQueue := none,
    distance := distance }

/-! ## Invariants of the search -/

/-- The created nodes in creation order, without their queue links. -/
def Search.info (s : Search) : List Node := s.nodes.map Node.payload

/-- Both dimensions of the grid are representable as a (positive) `int`. -/
def Fits (m : Maze) : Prop := m.rows ≤ 2147483647 ∧ m.columns ≤ 2147483647

/-- The node lies on the goal cell `(rows-1, columns-1)`. -/
def AtGoal (m : Maze) (t : Node) : Prop :=
  t.row = pred64 m.rows ∧ t.column = pred64 m.columns

/-- Facts about the created nodes that hold throughout the search started at
`(sr, sc)`: node 0 is the start node; every node lies on an open cell marked
visited and has a distance between 1 and the number of nodes; every later
node was discovered from an earlier one, one step further; a visited cell
has a node; no two nodes share a cell; distances do not decrease in creation
order. -/
structure Core (m : Maze) (sr sc : Nat) (s : Search) : Prop where
  start : s.info[0]? = some (newNode sr sc 1 none)
  cell : ∀ (i : Nat) (t : Node), s.info[i]? = some t →
    m.OpenAt t.row t.column ∧ s.visited t.row t.column = true ∧ 1 ≤ t.distance ∧
      t.distance ≤ (s.nodes.length : Int)
  later : ∀ (i : Nat) (t : Node), 0 < i → s.info[i]? = some t →
    (t.row : Int) < toInt m.rows ∧ (t.column : Int) < toInt m.columns ∧
      ∃ (j : Nat) (tj : Node), t.previousPath = some j ∧ j < i ∧ s.info[j]? = some tj ∧
        t.distance = tj.distance + 1 ∧
        (tj.row ≤ 2147483647 → tj.column ≤ 2147483647 →
          Adj (tj.row, tj.column) (t.row, t.column))
  vis : ∀ r c, s.visited r c = true → ∃ (i : Nat) (t : Node), s.info[i]? = some t ∧ t.row = r ∧ t.column = c
  inj : ∀ (i j : Nat) (ti tj : Node), s.info[i]? = some ti → s.info[j]? = some tj →
    ti.row = tj.row → ti.column = tj.column → i = j
  mono : ∀ (i j : Nat) (ti tj : Node), i ≤ j → s.info[i]? = some ti → s.info[j]? = some tj →
    ti.distance ≤ tj.distance

/-- The neighbour of node `t` at offset `d`, when it is an open cell of the
grid, has a node at most one step further than `t`. -/
def Covered (m : Maze) (s : Search) (t : Node) (d : Int × Int) : Prop :=
  ∀ r c : Nat, (r : Int) = t.row + d.1 → (c : Int) = t.column + d.2 → m.OpenAt r c →
    ∃ (j : Nat) (tj : Node), s.info[j]? = some tj ∧ tj.row = r ∧ tj.column = c ∧
      tj.distance ≤ t.distance + 1

/-- The first `k` nodes have been taken from the queue and expanded: none of
them is on the goal cell and (on a grid that fits `int`) all their open
neighbours have nodes. -/
def Done (m : Maze) (s : Search) (k : Nat) : Prop :=
  ∀ (i : Nat) (t : Node), i < k → s.info[i]? = some t →
    ¬ AtGoal m t ∧ (Fits m → ∀ d ∈ offsets, Covered m s t d)

/-- No node is more than one step further than node `k`. -/
def Bound (s : Search) (k : Nat) : Prop :=
  ∀ (j : Nat) (tj tk : Node), s.info[k]? = some tk → s.info[j]? = some tj → tj.distance ≤ tk.distance + 1

/-- The invariant at the head of the main loop: `k` nodes have been dequeued
and the queue holds the nodes `k, k+1, ...` in creation order. -/
structure Head (m : Maze) (sr sc : Nat) (s : Search) (k : Nat) : Prop where
  core : Core m sr sc s
  queue : QueueRep s.nodes s.queue (List.range' k (s.nodes.length - k))
  kle : k ≤ s.nodes.length
  bound : Bound s k
  done : Done m s k

/-- The invariant inside the neighbour loop while node `k` is expanded and
the offsets in `ds` have been handled. -/
structure Mid (m : Maze) (sr sc : Nat) (s : Search) (k : Nat) (ds : List (Int × Int)) :
    Prop where
  core : Core m sr sc s
  queue : QueueRep s.nodes s.queue (List.range' (k + 1) (s.nodes.length - (k + 1)))
  klt : k < s.nodes.length
  bound : Bound s k
  done : Done m s k
  notGoal : ∀ (t : Node), s.info[k]? = some t → ¬ AtGoal m t
  covered : Fits m → ∀ (t : Node), s.info[k]? = some t → ∀ d ∈ ds, Covered m s t d

/-- What holds when the main loop has ended with the state `s` and the
goal node `found` (none when the queue ran empty): the node facts, and the
first `k` nodes expanded, where `k` is the goal node, or the number of all
nodes when there is none. -/
def Final (m : Maze) (sr sc : Nat) (s : Search) (found : Option Nat) : Prop :=
  Core m sr sc s ∧ ∃ k, Done m s k ∧ (found = none → k = s.nodes.length) ∧
    ∀ g, found = some g → g = k ∧ ∃ (t : Node), s.info[g]? = some t ∧ AtGoal m t

/-- The 3x3 grid with rows 001, 101, 000. -/
def demoMaze : Maze :=
  Maze.ofRows [['0', '0', '1'], ['1', '0', '1'], ['0', '0', '0']]

/-- The grid that `stepCount` leaves behind on `demoMaze` from (0, 0) when the
path is requested. -/
def demoMarked : Maze :=
  match stepCount demoMaze 0 0 true with
  | .ok (_, m1) => m1
  | .error _ => demoMaze

/-- A grid of one row and `2^31` columns, every cell open. -/
def wideMaze : Maze :=
  { rows := 1, columns := 2147483648,
    array := fun r c => if r < 1 ∧ c < 2147483648 then some '0' else none }

/-- The fully open 2x2 grid. -/
def openMaze2 : Maze := Maze.ofRows [['0', '0'], ['0', '0']]

/-- The grid that `stepCount` leaves behind on `openMaze2` from (0, 0) when
the path is requested. -/
def openMarked2 : Maze :=
  match stepCount openMaze2 0 0 true with
  | .ok (_, m1) => m1
  | .error _ => openMaze2

/-- The test made on a node before it is queued: the pointer is valid, the
node's `nextQueue` link is null, and the node is not the rear of a non-empty
queue (a node with a null link that is in the queue can only be its rear). -/
def enqOk (heap : Heap) (q : Queue) (node : Nat) : Bool :=
  match heap[node]? with
  | none => false
  | some t => t.nextQueue.isNone && (decide (q.size = 0) || decide (q.rear ≠ some node))

/-- A client run in which every `enq` passes `enqOk` at the time of the call
and every `deq` is made while `size > 0`. -/
def admissible : Heap → Queue → List QueueOp → Bool
  | _, _, [] => true
  | heap, q, .enq node :: ops =>
    enqOk heap q node &&
      (match enQueue heap q node with
       | .ok (heap1, q1) => admissible heap1 q1 ops
       | .error _ => false)
  | heap, q, .deq :: ops =>
    decide (q.size > 0) &&
      (match deQueue heap q with
       | .ok (q1, _) => admissible heap q1 ops
       | .error _ => false)

/-- A client run that queues node 0 again after it has been dequeued, while
node 1, queued behind it earlier, is still in the queue. -/
def reuseOps : List QueueOp := [.enq 0, .enq 1, .deq, .enq 0, .deq, .deq]

/-! ## The points of an execution of stepCount -/

/-- The loop of `stepCount(m, sr, sc, _)` is entered with the state `s0`: the
endpoint test has passed and the start node has been created and queued. -/
def Started (m : Maze) (sr sc : Nat) (s0 : Search) : Prop :=
  m.array sr sc = some '0' ∧ m.array (pred64 m.rows) (pred64 m.columns) = some '0' ∧
    initSearch m sr sc = .ok s0

/-- At the loop head `s` the guard `isEmpty(queue) == false` holds and
`deQueue` returns the node `cur`, leaving the queue `q`. -/
def Dequeued (s : Search) (q : Queue) (cur : Nat) : Prop :=
  isEmpty s.queue = false ∧ deQueue s.nodes s.queue = .ok (q, some cur)

/-- The node `cur` dequeued at the loop head `s` is not on the goal cell, so
its neighbours are visited. -/
def Expanding (m : Maze) (s : Search) (q : Queue) (cur : Nat) : Prop :=
  Dequeued s q cur ∧ ∃ node, getNode s.nodes cur = .ok node ∧ ¬ AtGoal m node

/-- One complete iteration of the main loop leads from the loop head `s` to
the loop head `s1`. -/
def Iteration (m : Maze) (s s1 : Search) : Prop :=
  ∃ q cur, Expanding m s q cur ∧
    visitNeighbors m cur { s with queue := q } offsets = .ok s1

/-- The states at the head of the `while` loop of `stepCount(m, sr, sc, _)`:
`LoopHead m sr sc k s` holds when `s` is the state after `k` complete
iterations. -/
inductive LoopHead (m : Maze) (sr sc : Nat) : Nat → Search → Prop
  | init {s0 : Search} : Started m sr sc s0 → LoopHead m sr sc 0 s0
  | iter {k : Nat} {s s1 : Search} :
      LoopHead m sr sc k s → Iteration m s s1 → LoopHead m sr sc (k + 1) s1

/-- The states an execution of `stepCount(m, sr, sc, _)` passes through: the
heads of the main loop, the state right after a dequeue, and the states
inside the neighbour loop after the offsets `ds`, a leading part of the four
offsets, have been handled. -/
def Point (m : Maze) (sr sc : Nat) (s1 : Search) : Prop :=
  ∃ k s, LoopHead m sr sc k s ∧
    (s1 = s ∨
     (∃ q cur, Dequeued s q cur ∧ s1 = { s with queue := q }) ∨
     (∃ q cur ds rest, Expanding m s q cur ∧ ds ++ rest = offsets ∧
        visitNeighbors m cur { s with queue := q } ds = .ok s1))

/-- The node reached from node `i` after following `n` `previousPath` links;
`none` when a null link (or an invalid pointer) is met before. -/
def followLinks (nodes : Heap) : Nat → Nat → Option Nat
  | 0, i => some i
  | n + 1, i =>
    match nodes[i]? with
    | none => none
    | some t =>
      match t.previousPath with
      | none => none
      | some j => followLinks nodes n j

/-- A grid of `2^32 + 3` rows and one column, every cell open. -/
def hugeMaze : Maze :=
  { rows := 4294967299, columns := 1,
    array := fun r c => if r < 4294967299 ∧ c < 1 then some '0' else none }

/-- One complete iteration of the main loop on a state whose dequeued node is
not on the goal cell: the dequeue followed by the neighbour loop. -/
def iteration (m : Maze) (s : Search) : Except Fault Search :=
  match deQueue s.nodes s.queue with
  | .error e => .error e
  | .ok (_, none) => .error .nullDeref
  | .ok (q, some cur) => visitNeighbors m cur { s with queue := q } offsets

/-- The state of the search on `demoMaze` from (0, 0) at the loop head after
two iterations. -/
def demoState : Search :=
  match initSearch demoMaze 0 0 with
  | .error _ => { nodes := [], visited := fun _ _ => false, queue := createQueue }
  | .ok s0 =>
    match iteration demoMaze s0 with
    | .error _ => s0
    | .ok s1 =>
      match iteration demoMaze s1 with
      | .error _ => s1
      | .ok s2 => s2

/-- The state of the search on `hugeMaze` from `(2^32 + 1, 0)` inside the
first iteration, after the first offset (up) has been handled. -/
def hugeState : Search :=
  match initSearch hugeMaze 4294967297 0 with
  | .error _ => { nodes := [], visited := fun _ _ => false, queue := createQueue }
  | .ok s0 =>
    match deQueue s0.nodes s0.queue with
    | .error _ => s0
    | .ok (q, _) =>
      match visitNeighbors hugeMaze 0 { s0 with queue := q } [(-1, 0)] with
      | .error _ => s0
      | .ok s1 => s1

/-! ## parseMaze -/

/-- The cell storage built by `parseMaze`: `none` outside the allocations. -/
abbrev Storage := Nat → Nat → Option Char

/-- The allocations made while the first line is handled: a row table of
`columns` pointers, each row a block of `columns * sizeof(char*)` bytes
(8 bytes per pointer); `junk` is the indeterminate content of fresh memory. -/
def allocArray (junk : Nat → Nat → Char) (columns : Nat) : Storage :=
  fun r c => if r < columns ∧ c < columns * 8 then some (junk r c) else none

/-- The number of digit characters of a line (the count made on the first
line). -/
def countDigits (line : List Char) : Nat := (line.filter Char.isDigit).length

/-- The loop over the characters of one line, from the character list still
to read and the current value of `column`: a digit is stored at
`array[currentLine][column]` and `column` advances; after each character the
loop ends when `column == columns`. -/
def scanLine (currentLine columns : Nat) : Storage → Nat → List Char → Except Fault Storage
  | array, _, [] => .ok array
  | array, column, ch :: rest =>
    if ch.isDigit = true then
      match array currentLine column with
      | none => .error .outOfBounds
      | some _ =>
        if column + 1 = columns then
          .ok (fun r c => if r = currentLine ∧ c = column then some ch else array r c)
        else
          scanLine currentLine columns
            (fun r c => if r = currentLine ∧ c = column then some ch else array r c)
            (column + 1) rest
    else if column = columns then .ok array
    else scanLine currentLine columns array column rest

/-- The `while (getline(...) != -1)` loop over the lines still to read, from
the current values of `currentLine`, `columns` and `array`. -/
def readLines (junk : Nat → Nat → Char) :
    Nat → Nat → Storage → List (List Char) → Except Fault (Nat × Nat × Storage)
  | currentLine, columns, array, [] => .ok (currentLine, columns, array)
  | currentLine, columns, array, line :: rest =>
    if currentLine = 0 then
      match scanLine 0 (columns + countDigits line)
          (allocArray junk (columns + countDigits line)) 0 line with
      | .error e => .error e
      | .ok array1 => readLines junk 1 (columns + countDigits line) array1 rest
    else
      match scanLine currentLine columns array 0 line with
      | .error e => .error e
      | .ok array1 => readLines junk (currentLine + 1) columns array1 rest

/-- The function `parseMaze` on an input given as the list of its lines (the
successive results of `getline`, newline characters included). -/
def parseMaze (junk : Nat → Nat → Char) (input : List (List Char)) : Except Fault Maze :=
  match readLines junk 0 0 (fun _ _ => none) input with
  | .error e => .error e
  | .ok (rows, columns, array) => .ok { rows := rows, columns := columns, array := array }

/-! # Theorems -/

/-! ## validPoint -/

theorem toInt_of_lt {n : Nat} (h : n < 2147483648) : toInt n = (n : Int) := by
  unfold toInt
  have h1 : n % 4294967296 = n := Nat.mod_eq_of_lt (by omega)
  rw [h1, if_pos h]

theorem toInt_le (n : Nat) : toInt n ≤ (n : Int) := by
  unfold toInt
  have h1 : n % 4294967296 ≤ n := Nat.mod_le _ _
  split <;> omega

/-- C8 as stated fails: on the grid of `2^31` rows the cell `(0, 0)` is in
range and open, yet `validPoint` answers false, because `(int)rows` is
negative. -/
theorem validPoint_tallMaze_false :
    validPoint tallMaze 0 0 = .ok false ∧
      (0 : Int) ≤ 0 ∧ (0 : Int) < tallMaze.rows ∧ (0 : Int) < tallMaze.columns ∧
      tallMaze.array (0 : Int).toNat (0 : Int).toNat = some '0' := by
  refine ⟨by decide, by decide, by decide, by decide, by decide⟩

/-- C8 (amended): on a grid whose dimensions fit in an `int`, for all integers
`row` and `column`, `validPoint` returns true exactly when
`0 <= row < rows`, `0 <= column < columns` and the cell is `0`, it returns
false in every other case, and for out-of-range coordinates the answer false
does not depend on the cell storage (no cell is read). -/
theorem validPoint_spec (m : Maze) (row column : Int) (hwf : m.WF)
    (hr : m.rows ≤ 2147483647) (hc : m.columns ≤ 2147483647) :
    (validPoint m row column = .ok true ↔
        0 ≤ row ∧ row < m.rows ∧ 0 ≤ column ∧ column < m.columns ∧
          m.array row.toNat column.toNat = some '0') ∧
    (validPoint m row column = .ok true ∨ validPoint m row column = .ok false) ∧
    (¬ (0 ≤ row ∧ row < m.rows ∧ 0 ≤ column ∧ column < m.columns) →
        ∀ cells, validPoint { m with array := cells } row column = .ok false) := by
  have e1 : toInt m.rows = (m.rows : Int) := toInt_of_lt (by omega)
  have e2 : toInt m.columns = (m.columns : Int) := toInt_of_lt (by omega)
  by_cases hin : 0 ≤ row ∧ row < m.rows ∧ 0 ≤ column ∧ column < m.columns
  · obtain ⟨h1, h2, h3, h4⟩ := hin
    have hcond : ¬ (row < 0 ∨ column < 0 ∨ row ≥ toInt m.rows ∨ column ≥ toInt m.columns) := by
      rw [e1, e2]; omega
    have hsome := hwf.2.2 row.toNat (by omega) column.toNat (by omega)
    obtain ⟨ch, hch⟩ := Option.isSome_iff_exists.mp hsome
    have hv : validPoint m row column = .ok (decide (ch = '0')) := by
      simp only [validPoint, if_neg hcond, hch]
    refine ⟨?_, ?_, ?_⟩
    · rw [hv, hch]
      constructor
      · intro h
        have : ch = '0' := by simpa using h
        exact ⟨h1, h2, h3, h4, by rw [this]⟩
      · rintro ⟨_, _, _, _, h⟩
        have : ch = '0' := by simpa using h
        simp [this]
    · rw [hv]
      by_cases h0 : ch = '0' <;> simp [h0]
    · intro hn
      exact absurd ⟨h1, h2, h3, h4⟩ hn
  · have hcond : row < 0 ∨ column < 0 ∨ row ≥ toInt m.rows ∨ column ≥ toInt m.columns := by
      rw [e1, e2]; omega
    have hv : ∀ cells, validPoint { m with array := cells } row column = .ok false := by
      intro cells
      simp only [validPoint, if_pos hcond]
    refine ⟨?_, Or.inr (hv m.array), fun _ => hv⟩
    constructor
    · intro h
      have := hv m.array
      rw [h] at this
      cases this
    · rintro ⟨h1, h2, h3, h4, _⟩
      exact absurd ⟨h1, h2, h3, h4⟩ hin

/-- Witness for `validPoint_spec`: the open 1x1 grid at `(0, 0)`. -/
theorem validPoint_spec_witness :
    (validPoint (Maze.ofRows [['0']]) 0 0 = .ok true ↔
        (0 : Int) ≤ 0 ∧ (0 : Int) < (Maze.ofRows [['0']]).rows ∧ (0 : Int) ≤ 0 ∧
          (0 : Int) < (Maze.ofRows [['0']]).columns ∧
          (Maze.ofRows [['0']]).array (0 : Int).toNat (0 : Int).toNat = some '0') ∧
    (validPoint (Maze.ofRows [['0']]) 0 0 = .ok true ∨
      validPoint (Maze.ofRows [['0']]) 0 0 = .ok false) ∧
    (¬ ((0 : Int) ≤ 0 ∧ (0 : Int) < (Maze.ofRows [['0']]).rows ∧ (0 : Int) ≤ 0 ∧
          (0 : Int) < (Maze.ofRows [['0']]).columns) →
        ∀ cells, validPoint { Maze.ofRows [['0']] with array := cells } 0 0 = .ok false) :=
  validPoint_spec (Maze.ofRows [['0']]) 0 0 (by decide) (by decide) (by decide)

/-! ## The queue -/

theorem Linked_congr {heap heap1 : Heap} {l : List Nat} :
    ∀ {front : Option Nat}, Linked heap front l → (∀ p ∈ l, heap1[p]? = heap[p]?) →
      Linked heap1 front l := by
  induction l with
  | nil => intro front h _; exact h
  | cons p l ih =>
    intro front h hsame
    obtain ⟨hf, t, ht, hl⟩ := h
    refine ⟨hf, t, ?_, ih hl (fun x hx => hsame x (List.mem_cons_of_mem _ hx))⟩
    rw [hsame p (List.mem_cons_self _ _)]; exact ht

theorem Linked_lt {heap : Heap} {l : List Nat} :
    ∀ {front : Option Nat}, Linked heap front l → ∀ p ∈ l, p < heap.length := by
  induction l with
  | nil => intro front _ p hp; cases hp
  | cons x l ih =>
    intro front h p hp
    obtain ⟨_, t, ht, hl⟩ := h
    rcases List.mem_cons.mp hp with rfl | hp
    · exact (List.getElem?_eq_some.mp ht).1
    · exact ih hl p hp

theorem Linked_snoc {heap : Heap} {node : Nat} {tn : Node} (hget : heap[node]? = some tn)
    (hnext : tn.nextQueue = none) {l : List Nat} :
    ∀ {front : Option Nat} {r : Nat} {t : Node}, Linked heap front (l ++ [r]) →
      (l ++ [r]).Nodup → node ∉ l ++ [r] → heap[r]? = some t →
      Linked (heap.set r { t with nextQueue := some node }) front (l ++ [r] ++ [node]) := by
  induction l with
  | nil =>
    intro front r t h _ hnot hr
    obtain ⟨hf, t1, ht1, _⟩ := h
    have hne : r ≠ node := fun e => hnot (by simp [e])
    have hlt : r < heap.length := (List.getElem?_eq_some.mp hr).1
    refine ⟨hf, { t with nextQueue := some node }, ?_, rfl, tn, ?_, hnext⟩
    · rw [List.getElem?_set, if_pos rfl, if_pos hlt]
    · rw [List.getElem?_set_ne hne]; exact hget
  | cons p l ih =>
    intro front r t h hnd hnot hr
    obtain ⟨hf, t1, ht1, hl⟩ := h
    have hnd1 : (l ++ [r]).Nodup := (List.nodup_cons.mp hnd).2
    have hpr : r ≠ p := by
      intro e
      exact (List.nodup_cons.mp hnd).1 (by simp [e])
    have hnot1 : node ∉ l ++ [r] := fun hm => hnot (List.mem_cons_of_mem _ hm)
    refine ⟨hf, t1, ?_, ih hl hnd1 hnot1 hr⟩
    rw [List.getElem?_set_ne hpr]; exact ht1

theorem QueueRep_create (heap : Heap) : QueueRep heap createQueue [] :=
  ⟨rfl, List.nodup_nil, rfl, fun h => absurd rfl h⟩

theorem QueueRep_congr {heap heap1 : Heap} {q : Queue} {l : List Nat}
    (h : QueueRep heap q l) (hsame : ∀ p ∈ l, heap1[p]? = heap[p]?) : QueueRep heap1 q l :=
  ⟨h.1, h.2.1, Linked_congr h.2.2.1 hsame, h.2.2.2⟩

theorem QueueRep_append {heap : Heap} {q : Queue} {l : List Nat} (h : QueueRep heap q l)
    (ext : List Node) : QueueRep (heap ++ ext) q l :=
  QueueRep_congr h (fun p hp => List.getElem?_append_left (Linked_lt h.2.2.1 p hp))

theorem map_payload_set {heap : Heap} {r : Nat} {t : Node} (hr : heap[r]? = some t)
    (nxt : Option Nat) :
    (heap.set r { t with nextQueue := nxt }).map Node.payload = heap.map Node.payload := by
  apply List.ext_getElem?
  intro i
  rw [List.map_set, List.getElem?_set]
  split
  · rename_i h
    subst h
    obtain ⟨hlt, hval⟩ := List.getElem?_eq_some.mp hr
    simp [hlt, ← hval, Node.payload]
  · rfl

/-- Effect of `enQueue` on a represented queue: a node that is not queued and
whose `nextQueue` is null is appended at the rear. -/
theorem enQueue_rep {heap : Heap} {q : Queue} {l : List Nat} {node : Nat} {tn : Node}
    (h : QueueRep heap q l) (hn : node ∉ l) (hget : heap[node]? = some tn)
    (hnext : tn.nextQueue = none) :
    ∃ heap1 q1, enQueue heap q node = .ok (heap1, q1) ∧ QueueRep heap1 q1 (l ++ [node]) ∧
      heap1.map Node.payload = heap.map Node.payload ∧
      (∀ i, i ∉ l → heap1[i]? = heap[i]?) := by
  obtain ⟨hsize, hnd, hlink, hrear⟩ := h
  rcases List.eq_nil_or_concat l with rfl | ⟨l0, r, rfl⟩
  · refine ⟨heap, { size := q.size + 1, front := some node, rear := some node },
      ?_, ⟨?_, ?_, ?_, ?_⟩, rfl, fun _ _ => rfl⟩
    · simp only [enQueue, hsize, List.length_nil, if_true]
    · simp [hsize]
    · simp
    · exact ⟨rfl, tn, hget, hnext⟩
    · intro _; simp
  · have hl : l0.concat r = l0 ++ [r] := List.concat_eq_append _ _
    rw [hl] at hsize hnd hlink hrear hn ⊢
    have hr : q.rear = some r := by
      rw [hrear (by simp)]; simp
    have hrl : r < heap.length := Linked_lt hlink r (by simp)
    obtain ⟨t, ht⟩ : ∃ t, heap[r]? = some t := ⟨heap[r], List.getElem?_eq_getElem hrl⟩
    have hsz : q.size ≠ 0 := by rw [hsize]; simp
    refine ⟨heap.set r { t with nextQueue := some node },
      { size := q.size + 1, front := q.front, rear := some node },
      ?_, ⟨?_, ?_, ?_, ?_⟩, ?_, ?_⟩
    · simp only [enQueue, if_neg hsz, hr, ht]
    · simp [hsize]
    · rw [List.nodup_append]
      refine ⟨hnd, by simp, ?_⟩
      intro a ha hb
      rw [List.mem_singleton] at hb
      subst hb
      exact hn ha
    · exact Linked_snoc hget hnext hlink hnd hn ht
    · intro _; simp
    · exact map_payload_set ht _
    · intro i hi
      have : r ≠ i := fun e => hi (by simp [e])
      rw [List.getElem?_set_ne this]

/-- Effect of `deQueue` on a represented non-empty queue: the head pointer is
returned and removed. -/
theorem deQueue_rep {heap : Heap} {q : Queue} {p : Nat} {l : List Nat}
    (h : QueueRep heap q (p :: l)) :
    ∃ q1, deQueue heap q = .ok (q1, some p) ∧ QueueRep heap q1 l ∧ q1.size + 1 = q.size := by
  obtain ⟨hsize, hnd, ⟨hf, t, ht, hlink⟩, hrear⟩ := h
  have hpos : q.size > 0 := by rw [hsize]; simp
  refine ⟨{ size := q.size - 1, front := t.nextQueue,
            rear := if q.size - 1 = 0 then none else q.rear },
    ?_, ⟨?_, (List.nodup_cons.mp hnd).2, hlink, ?_⟩, ?_⟩
  · simp only [deQueue, if_pos hpos, hf, ht]
  · simp [hsize]
  · intro hne
    have h1 : q.size - 1 ≠ 0 := by
      rw [hsize]
      cases l with
      | nil => exact absurd rfl hne
      | cons x xs => simp
    simp only [if_neg h1]
    rw [hrear (by simp)]
    cases l with
    | nil => exact absurd rfl hne
    | cons x xs => simp [List.getLast?_cons_cons]
  · simp only [hsize, List.length_cons]; omega

theorem isEmpty_rep {heap : Heap} {q : Queue} {l : List Nat} (h : QueueRep heap q l) :
    isEmpty q = true ↔ l = [] := by
  obtain ⟨_, _, hlink, _⟩ := h
  cases l with
  | nil =>
    have : q.front = none := hlink
    simp [isEmpty, this]
  | cons p l =>
    have : q.front = some p := hlink.1
    simp [isEmpty, this]

theorem guarded_count : ∀ (ops : List QueueOp) (n : Nat), guarded n ops = true →
    countDeq ops ≤ n + (enqueued ops).length := by
  intro ops
  induction ops with
  | nil => intro n _; simp [countDeq]
  | cons op ops ih =>
    intro n h
    cases op with
    | enq node =>
      have := ih (n + 1) (by simpa [guarded] using h)
      simp only [countDeq, enqueued, List.length_cons]; omega
    | deq =>
      cases n with
      | zero => simp [guarded] at h
      | succ k =>
        have := ih k (by simpa [guarded] using h)
        simp only [countDeq, enqueued]; omega

theorem runQueue_refines : ∀ (ops : List QueueOp) (heap : Heap) (q : Queue) (l : List Nat),
    QueueRep heap q l →
    (∀ n ∈ enqueued ops, n ∉ l ∧ ∃ t, heap[n]? = some t ∧ t.nextQueue = none) →
    (enqueued ops).Nodup →
    guarded l.length ops = true →
    ∃ heap1 q1, runQueue heap q ops =
        .ok (heap1, q1, ((l ++ enqueued ops).take (countDeq ops)).map some) ∧
      runList l ops = some ((l ++ enqueued ops).drop (countDeq ops),
        (l ++ enqueued ops).take (countDeq ops)) ∧
      QueueRep heap1 q1 ((l ++ enqueued ops).drop (countDeq ops)) := by
  intro ops
  induction ops with
  | nil =>
    intro heap q l hrep _ _ _
    exact ⟨heap, q, by simp [runQueue, countDeq, enqueued],
      by simp [runList, countDeq, enqueued], by simpa [countDeq, enqueued] using hrep⟩
  | cons op ops ih =>
    intro heap q l hrep hfresh hnd hg
    cases op with
    | enq node =>
      have hnd1 : node ∉ enqueued ops ∧ (enqueued ops).Nodup := List.nodup_cons.mp hnd
      obtain ⟨hnl, tn, htn, hnone⟩ := hfresh node (List.mem_cons_self _ _)
      obtain ⟨heap1, q1, hen, hrep1, _, hsame⟩ := enQueue_rep hrep hnl htn hnone
      have hfresh1 : ∀ n ∈ enqueued ops,
          n ∉ l ++ [node] ∧ ∃ t, heap1[n]? = some t ∧ t.nextQueue = none := by
        intro n hn
        obtain ⟨h1, t, ht, hnx⟩ := hfresh n (List.mem_cons_of_mem _ hn)
        refine ⟨?_, t, ?_, hnx⟩
        · intro hm
          rcases List.mem_append.mp hm with hm | hm
          · exact h1 hm
          · rw [List.mem_singleton] at hm
            subst hm
            exact hnd1.1 hn
        · rw [hsame n h1]; exact ht
      have hg1 : guarded (l ++ [node]).length ops = true := by
        simpa [guarded] using hg
      obtain ⟨heap2, q2, hrun, hlist, hrep2⟩ := ih heap1 q1 (l ++ [node]) hrep1 hfresh1 hnd1.2 hg1
      refine ⟨heap2, q2, ?_, ?_, ?_⟩
      · simp only [runQueue, hen, hrun, countDeq, enqueued, List.append_assoc,
          List.singleton_append]
      · simp only [runList, hlist, countDeq, enqueued, List.append_assoc,
          List.singleton_append]
      · simpa only [countDeq, enqueued, List.append_assoc, List.singleton_append] using hrep2
    | deq =>
      cases l with
      | nil => simp [guarded] at hg
      | cons p l =>
        obtain ⟨q1, hde, hrep1, _⟩ := deQueue_rep hrep
        have hfresh1 : ∀ n ∈ enqueued ops,
            n ∉ l ∧ ∃ t, heap[n]? = some t ∧ t.nextQueue = none := by
          intro n hn
          obtain ⟨h1, ht⟩ := hfresh n hn
          exact ⟨fun hm => h1 (List.mem_cons_of_mem _ hm), ht⟩
        have hg1 : guarded l.length ops = true := by
          simpa [guarded] using hg
        obtain ⟨heap2, q2, hrun, hlist, hrep2⟩ := ih heap q1 l hrep1 hfresh1 hnd hg1
        refine ⟨heap2, q2, ?_, ?_, ?_⟩
        · simp only [runQueue, hde, hrun, countDeq, enqueued, List.cons_append,
            List.take_succ_cons, List.map_cons]
        · simp only [runList, hlist, countDeq, enqueued, List.cons_append,
            List.take_succ_cons, List.drop_succ_cons]
        · simpa only [countDeq, enqueued, List.cons_append, List.drop_succ_cons] using hrep2

/-- C9: the queue is strictly FIFO.  For every sequence of `enQueue` calls on
pairwise distinct freshly created nodes (valid pointers whose `nextQueue` is
null) interleaved with `deQueue` calls made only while the queue holds an
entry, starting from `createQueue()`: the run succeeds, the i-th `deQueue`
returns the i-th enqueued node (the returned pointers are the first
`countDeq ops` enqueued nodes, in order, none of them null), and the run
agrees with the list specification (append at the rear, remove the head),
whose remaining list the final queue represents. -/
theorem queue_fifo (heap : Heap) (ops : List QueueOp)
    (hfresh : ∀ n ∈ enqueued ops, ∃ t, heap[n]? = some t ∧ t.nextQueue = none)
    (hdistinct : (enqueued ops).Nodup) (hguard : guarded 0 ops = true) :
    ∃ heap1 q1,
      runQueue heap createQueue ops =
        .ok (heap1, q1, ((enqueued ops).take (countDeq ops)).map some) ∧
      runList [] ops =
        some ((enqueued ops).drop (countDeq ops), (enqueued ops).take (countDeq ops)) ∧
      QueueRep heap1 q1 ((enqueued ops).drop (countDeq ops)) ∧
      ((enqueued ops).take (countDeq ops)).length = countDeq ops := by
  have hcount := guarded_count ops 0 hguard
  obtain ⟨heap1, q1, h1, h2, h3⟩ := runQueue_refines ops heap createQueue []
    (QueueRep_create heap) (fun n hn => ⟨by simp, hfresh n hn⟩) hdistinct hguard
  refine ⟨heap1, q1, by simpa using h1, by simpa using h2, by simpa using h3, ?_⟩
  rw [List.length_take]; omega

/-- Witness for `queue_fifo`: three fresh nodes, calls enq 0, enq 1, deq,
enq 2, deq. -/
theorem queue_fifo_witness :
    ∃ heap1 q1,
      runQueue demoHeap createQueue demoOps =
        .ok (heap1, q1, ((enqueued demoOps).take (countDeq demoOps)).map some) ∧
      runList [] demoOps =
        some ((enqueued demoOps).drop (countDeq demoOps),
          (enqueued demoOps).take (countDeq demoOps)) ∧
      QueueRep heap1 q1 ((enqueued demoOps).drop (countDeq demoOps)) ∧
      ((enqueued demoOps).take (countDeq demoOps)).length = countDeq demoOps :=
  queue_fifo demoHeap demoOps
    (by
      intro n hn
      simp only [demoOps, enqueued, List.mem_cons, List.mem_singleton] at hn
      rcases hn with rfl | rfl | rfl | hn
      · exact ⟨_, rfl, rfl⟩
      · exact ⟨_, rfl, rfl⟩
      · exact ⟨_, rfl, rfl⟩
      · cases hn)
    (by decide) (by decide)

/-- C10 as stated fails: after the calls enq 0, enq 1, enq 0, enq 2, deq, deq
the queue has `size = 2` and a null `front`; `deQueue` then passes its
assertion, returns no node and leaves `size` at 2. -/
theorem deQueue_null_front :
    ∃ heap q, runQueue demoHeap createQueue twiceOps = .ok (heap, q, [some 0, some 2]) ∧
      q.size = 2 ∧
      deQueue heap q = .ok ({ size := 2, front := none, rear := none }, none) :=
  ⟨_, _, rfl, rfl, rfl⟩

/-- C10 (amended): `deQueue` fails its assertion exactly when `size = 0`.  On
a queue with `size > 0` whose `front` is a node, it succeeds, returns that
front node, moves `front` to the node's `nextQueue` and decreases `size` by
exactly 1; on a queue with `size > 0` whose `front` is null it returns null
and leaves `size` unchanged. -/
theorem deQueue_spec (heap : Heap) (q : Queue) :
    (deQueue heap q = .error .assertion ↔ q.size = 0) ∧
    (∀ p t, 0 < q.size → q.front = some p → heap[p]? = some t →
      ∃ q1, deQueue heap q = .ok (q1, some p) ∧ q1.size + 1 = q.size ∧
        q1.front = t.nextQueue) ∧
    (0 < q.size → q.front = none → deQueue heap q = .ok ({ q with rear := none }, none)) := by
  refine ⟨?_, ?_, ?_⟩
  · constructor
    · intro h
      by_contra h0
      have hpos : q.size > 0 := Nat.pos_of_ne_zero h0
      simp only [deQueue, if_pos hpos] at h
      split at h
      · split at h <;> cases h
      · cases h
    · intro h
      have : ¬ q.size > 0 := by omega
      simp only [deQueue, if_neg this]
  · intro p t hpos hf ht
    have hpos1 : q.size > 0 := hpos
    refine ⟨{ size := q.size - 1, front := t.nextQueue,
              rear := if q.size - 1 = 0 then none else q.rear }, ?_, ?_, rfl⟩
    · simp only [deQueue, if_pos hpos1, hf, ht]
    · show q.size - 1 + 1 = q.size
      omega
  · intro hpos hf
    have hpos1 : q.size > 0 := hpos
    simp only [deQueue, if_pos hpos1, hf]

/-! ## The endpoint test of stepCount -/

theorem pred64_eq {n : Nat} (h1 : 1 ≤ n) (h2 : n < 18446744073709551616) :
    pred64 n = n - 1 := by
  unfold pred64
  omega

/-- C5: on a well-formed grid with `rows >= 1`, `columns >= 1` and an in-range
start, if the start cell is not `0` or the goal cell `(rows-1, columns-1)` is
not `0`, then `stepCount` returns 0 and leaves the grid unchanged, whatever
`optimalPath` and the rest of the grid are; it does so before the search
starts (for every bound on the loop iterations, zero included). -/
theorem stepCount_blocked_endpoint (m : Maze) (sRow sColumn : Nat) (optimalPath : Bool)
    (hwf : m.WF) (hr : 1 ≤ m.rows) (hc : 1 ≤ m.columns)
    (hsr : sRow < m.rows) (hsc : sColumn < m.columns)
    (hblocked : m.array sRow sColumn ≠ some '0' ∨
      m.array (m.rows - 1) (m.columns - 1) ≠ some '0') :
    stepCount m sRow sColumn optimalPath = .ok (0, m) ∧
      ∀ fuel, stepCountFuel fuel m sRow sColumn optimalPath = .ok (0, m) := by
  have key : ∀ fuel, stepCountFuel fuel m sRow sColumn optimalPath = .ok (0, m) := by
    intro fuel
    obtain ⟨a, ha⟩ := Option.isSome_iff_exists.mp (hwf.2.2 sRow hsr sColumn hsc)
    obtain ⟨b, hb⟩ := Option.isSome_iff_exists.mp
      (hwf.2.2 (m.rows - 1) (by omega) (m.columns - 1) (by omega))
    have e1 : pred64 m.rows = m.rows - 1 := pred64_eq hr hwf.1
    have e2 : pred64 m.columns = m.columns - 1 := pred64_eq hc hwf.2.1
    simp only [stepCountFuel, readCell, ha, e1, e2, hb]
    by_cases h1 : a = '0'
    · have h2 : b ≠ '0' := by
        rcases hblocked with h | h
        · exact absurd (by rw [ha, h1]) h
        · intro e; exact h (by rw [hb, e])
      simp [h1, h2]
    · simp [h1]
  exact ⟨key _, key⟩

/-- Witness for `stepCount_blocked_endpoint`: the grid 01 / 00 has a blocked
cell at (0, 1); started there the call returns 0. -/
theorem stepCount_blocked_endpoint_witness :
    stepCount (Maze.ofRows [['0', '1'], ['0', '0']]) 0 1 true =
        .ok (0, Maze.ofRows [['0', '1'], ['0', '0']]) ∧
      ∀ fuel, stepCountFuel fuel (Maze.ofRows [['0', '1'], ['0', '0']]) 0 1 true =
        .ok (0, Maze.ofRows [['0', '1'], ['0', '0']]) :=
  stepCount_blocked_endpoint (Maze.ofRows [['0', '1'], ['0', '0']]) 0 1 true
    (by decide) (by decide) (by decide) (by decide) (by decide) (Or.inl (by decide))

/-- C6 (the code departs from the claim): on the zero-sized grids that
`parseMaze` builds from an empty input (no rows) and from an input whose first
line has no digit (one row, no columns), `stepCount` started at (0, 0) reads
`array[0][0]` outside the storage instead of returning 0. -/
theorem stepCount_zero_sized_faults (optimalPath : Bool) :
    stepCount (Maze.ofRows []) 0 0 optimalPath = .error .outOfBounds ∧
      stepCount (Maze.ofRows [[]]) 0 0 optimalPath = .error .outOfBounds :=
  ⟨rfl, rfl⟩

/-- C7 (the code departs from the claim): on the open 1x1 grid, `stepCount`
started at the out-of-range coordinate (1, 0) reads `array[1][0]` outside the
storage instead of returning 0. -/
theorem stepCount_start_out_of_range_faults (optimalPath : Bool) :
    stepCount (Maze.ofRows [['0']]) 1 0 optimalPath = .error .outOfBounds :=
  rfl

/-! ## Inversion of the search steps -/

theorem validPoint_true {m : Maze} {row column : Int}
    (h : validPoint m row column = .ok true) :
    0 ≤ row ∧ 0 ≤ column ∧ row < toInt m.rows ∧ column < toInt m.columns ∧
      m.array row.toNat column.toNat = some '0' := by
  unfold validPoint at h
  split at h
  · cases h
  · rename_i hc
    split at h
    · cases h
    · rename_i ch hch
      have h1 : decide (ch = '0') = true := by injection h
      have h2 : ch = '0' := of_decide_eq_true h1
      rw [hch, h2]
      refine ⟨?_, ?_, ?_, ?_, rfl⟩ <;> omega

theorem validPoint_false {m : Maze} {row column : Int}
    (h : validPoint m row column = .ok false) :
    (row < 0 ∨ column < 0 ∨ row ≥ toInt m.rows ∨ column ≥ toInt m.columns) ∨
      ∃ ch, m.array row.toNat column.toNat = some ch ∧ ch ≠ '0' := by
  unfold validPoint at h
  split at h
  · rename_i hc; exact Or.inl hc
  · split at h
    · cases h
    · rename_i ch hch
      have h1 : decide (ch = '0') = false := by injection h
      exact Or.inr ⟨ch, hch, of_decide_eq_false h1⟩

theorem enQueue_payload {heap heap1 : Heap} {q q1 : Queue} {node : Nat}
    (h : enQueue heap q node = .ok (heap1, q1)) :
    heap1.map Node.payload = heap.map Node.payload := by
  unfold enQueue at h
  split at h
  · injection h with h; injection h with h1 h2; rw [← h1]
  · split at h
    · cases h
    · split at h
      · cases h
      · rename_i temp _ t ht
        injection h with h; injection h with h1 h2
        rw [← h1]
        exact map_payload_set ht _

theorem pushNode_ok {m : Maze} {s s1 : Search} {r c : Nat} {d : Int} {prev : Option Nat}
    (h : pushNode m s r c d prev = .ok s1) :
    s.nodes.length < m.rows * m.columns ∧ s1.visited = s.visited ∧
      s1.nodes.map Node.payload = s.nodes.map Node.payload ++ [newNode r c d prev] ∧
      enQueue (s.nodes ++ [newNode r c d prev]) s.queue s.nodes.length =
        .ok (s1.nodes, s1.queue) := by
  unfold pushNode at h
  split at h
  · rename_i hlt
    split at h
    · rename_i heap queue hen
      injection h with h
      subst h
      have hen1 : enQueue (s.nodes ++ [newNode r c d prev]) s.queue s.nodes.length =
          .ok (heap, queue) := hen
      refine ⟨hlt, rfl, ?_, hen1⟩
      have := enQueue_payload hen1
      simpa [Node.payload, newNode] using this
    · cases h
  · cases h

theorem visitNeighbor_ok {m : Maze} {cur : Nat} {s s1 : Search} {dr dc : Int}
    (h : visitNeighbor m cur s dr dc = .ok s1) :
    ∃ t row col, s.nodes[cur]? = some t ∧ addInt (toInt t.row) dr = .ok row ∧
      addInt (toInt t.column) dc = .ok col ∧
      ((validPoint m row col = .ok false ∧ s1 = s) ∨
       (validPoint m row col = .ok true ∧ row.toNat < m.rows ∧ col.toNat < m.columns ∧
          s.visited row.toNat col.toNat = true ∧ s1 = s) ∨
       (validPoint m row col = .ok true ∧ row.toNat < m.rows ∧ col.toNat < m.columns ∧
          s.visited row.toNat col.toNat = false ∧
          ∃ dist, addInt t.distance 1 = .ok dist ∧
            pushNode m { s with visited := markVisited s.visited row.toNat col.toNat }
              row.toNat col.toNat dist (some cur) = .ok s1)) := by
  unfold visitNeighbor at h
  split at h
  · cases h
  · rename_i t ht
    have ht1 : s.nodes[cur]? = some t := by
      unfold getNode at ht
      split at ht
      · rename_i n hn; injection ht with ht; rw [hn, ht]
      · cases ht
    split at h
    · cases h
    · rename_i row hrow
      split at h
      · cases h
      · rename_i col hcol
        refine ⟨t, row, col, ht1, hrow, hcol, ?_⟩
        split at h
        · cases h
        · rename_i hv
          injection h with h
          exact Or.inl ⟨hv, h.symm⟩
        · rename_i hv
          split at h
          · cases h
          · rename_i hrv
            unfold readVisited at hrv
            split at hrv
            · rename_i hin
              injection hrv with hrv
              injection h with h
              exact Or.inr (Or.inl ⟨hv, hin.1, hin.2, hrv, h.symm⟩)
            · cases hrv
          · rename_i hrv
            unfold readVisited at hrv
            split at hrv
            · rename_i hin
              injection hrv with hrv
              split at h
              · cases h
              · rename_i visited hsv
                unfold setVisited at hsv
                rw [if_pos hin] at hsv
                injection hsv with hsv
                split at h
                · cases h
                · rename_i dist hdist
                  refine Or.inr (Or.inr ⟨hv, hin.1, hin.2, hrv, dist, hdist, ?_⟩)
                  rw [← hsv] at h
                  exact h
            · cases hrv

/-! ## Preservation of the invariants -/

theorem getElem?_snoc {α : Type} {l : List α} {x t : α} {i : Nat}
    (h : (l ++ [x])[i]? = some t) :
    (i < l.length ∧ l[i]? = some t) ∨ (i = l.length ∧ t = x) := by
  by_cases hi : i < l.length
  · rw [List.getElem?_append_left hi] at h
    exact Or.inl ⟨hi, h⟩
  · have hle : l.length ≤ i := Nat.le_of_not_lt hi
    rw [List.getElem?_append_right hle] at h
    have hlt := (List.getElem?_eq_some.mp h).1
    have hi0 : i - l.length = 0 := by simpa using hlt
    rw [hi0] at h
    have : x = t := by simpa using h
    exact Or.inr ⟨by omega, this.symm⟩

theorem getElem?_snoc_old {α : Type} {l : List α} {x t : α} {i : Nat}
    (h : l[i]? = some t) : (l ++ [x])[i]? = some t := by
  rw [List.getElem?_append_left (List.getElem?_eq_some.mp h).1]; exact h

theorem exists_getElem? {α : Type} {l : List α} {i : Nat} (h : i < l.length) :
    ∃ t, l[i]? = some t :=
  ⟨l[i], List.getElem?_eq_getElem h⟩

theorem info_length (s : Search) : s.info.length = s.nodes.length := by
  simp [Search.info]

theorem info_of_nodes {s : Search} {i : Nat} {t : Node} (h : s.nodes[i]? = some t) :
    s.info[i]? = some t.payload := by
  simp [Search.info, List.getElem?_map, h]

theorem info_lt {s : Search} {i : Nat} {t : Node} (h : s.info[i]? = some t) :
    i < s.nodes.length := by
  have := (List.getElem?_eq_some.mp h).1
  rwa [info_length] at this

theorem addInt_ok {a b c : Int} (h : addInt a b = .ok c) :
    c = a + b ∧ -2147483648 ≤ a + b ∧ a + b ≤ 2147483647 := by
  unfold addInt INT_MIN INT_MAX at h
  split at h
  · rename_i hb
    injection h with h
    exact ⟨h.symm, hb.1, hb.2⟩
  · cases h

theorem toInt_of_le {n : Nat} (h : n ≤ 2147483647) : toInt n = (n : Int) :=
  toInt_of_lt (by omega)

theorem adj_of_offset {a b r c : Nat} {d : Int × Int} (hd : d ∈ offsets)
    (hr : (r : Int) = a + d.1) (hc : (c : Int) = b + d.2) : Adj (a, b) (r, c) := by
  simp only [offsets, List.mem_cons, List.mem_singleton, List.not_mem_nil, or_false] at hd
  unfold Adj
  rcases hd with rfl | rfl | rfl | rfl <;> simp only at hr hc ⊢ <;> omega

theorem offset_of_adj {a b r c : Nat} (h : Adj (a, b) (r, c)) :
    ∃ d ∈ offsets, (r : Int) = a + d.1 ∧ (c : Int) = b + d.2 := by
  unfold Adj at h
  simp only at h
  rcases h with ⟨h1, h2 | h2⟩ | ⟨h1, h2 | h2⟩
  · exact ⟨(0, 1), by simp [offsets], by simp; omega, by simp; omega⟩
  · exact ⟨(0, -1), by simp [offsets], by simp; omega, by simp; omega⟩
  · exact ⟨(1, 0), by simp [offsets], by simp; omega, by simp; omega⟩
  · exact ⟨(-1, 0), by simp [offsets], by simp; omega, by simp; omega⟩

theorem Covered_mono {m : Maze} {s s1 : Search} {t : Node} {d : Int × Int} {x : Node}
    (hinfo : s1.info = s.info ++ [x]) (h : Covered m s t d) : Covered m s1 t d := by
  intro r c hr hc hopen
  obtain ⟨j, tj, hj, h1, h2, h3⟩ := h r c hr hc hopen
  exact ⟨j, tj, by rw [hinfo]; exact getElem?_snoc_old hj, h1, h2, h3⟩

theorem Core_push {m : Maze} {sr sc : Nat} {s s1 : Search} {k r c : Nat} {dist : Int}
    {tk : Node} (hc : Core m sr sc s) (hb : Bound s k)
    (hinfo : s1.info = s.info ++ [newNode r c dist (some k)])
    (hvis : s1.visited = markVisited s.visited r c)
    (hlen : s1.nodes.length = s.nodes.length + 1)
    (hopen : m.OpenAt r c) (hnv : s.visited r c = false)
    (hk : s.info[k]? = some tk) (hdist : dist = tk.distance + 1)
    (hrow : (r : Int) < toInt m.rows) (hcol : (c : Int) < toInt m.columns)
    (hadj : tk.row ≤ 2147483647 → tk.column ≤ 2147483647 →
      Adj (tk.row, tk.column) (r, c)) :
    Core m sr sc s1 := by
  have hkc := hc.cell k tk hk
  have hnew : ∀ {i : Nat} {t : Node}, s1.info[i]? = some t →
      (i < s.info.length ∧ s.info[i]? = some t) ∨
        (i = s.info.length ∧ t = newNode r c dist (some k)) := by
    intro i t hi
    rw [hinfo] at hi
    exact getElem?_snoc hi
  have hold : ∀ {i : Nat} {t : Node}, s.info[i]? = some t → s1.info[i]? = some t := by
    intro i t hi
    rw [hinfo]
    exact getElem?_snoc_old hi
  have hfresh : ∀ {i : Nat} {t : Node}, s.info[i]? = some t →
      ¬ (t.row = r ∧ t.column = c) := by
    intro i t hi hrc
    have := (hc.cell i t hi).2.1
    rw [hrc.1, hrc.2, hnv] at this
    cases this
  refine ⟨hold hc.start, ?_, ?_, ?_, ?_, ?_⟩
  · intro i t hi
    rcases hnew hi with ⟨_, ho⟩ | ⟨_, rfl⟩
    · obtain ⟨h1, h2, h3, h4⟩ := hc.cell i t ho
      refine ⟨h1, ?_, h3, ?_⟩
      · rw [hvis]; unfold markVisited; split
        · rfl
        · exact h2
      · rw [hlen]; push_cast; omega
    · refine ⟨hopen, ?_, ?_, ?_⟩
      · rw [hvis]; simp [markVisited, newNode]
      · show 1 ≤ dist
        omega
      · show dist ≤ (s1.nodes.length : Int)
        rw [hlen]; push_cast; omega
  · intro i t hpos hi
    rcases hnew hi with ⟨_, ho⟩ | ⟨_, rfl⟩
    · obtain ⟨h1, h2, j, tj, h3, h4, h5, h6⟩ := hc.later i t hpos ho
      exact ⟨h1, h2, j, tj, h3, h4, hold h5, h6⟩
    · rename_i hi0
      refine ⟨hrow, hcol, k, tk, rfl, ?_, hold hk, hdist, hadj⟩
      rw [hi0]
      exact (List.getElem?_eq_some.mp hk).1
  · intro r1 c1 hv
    rw [hvis] at hv
    unfold markVisited at hv
    split at hv
    · rename_i hrc
      refine ⟨s.info.length, newNode r c dist (some k), ?_, hrc.1.symm, hrc.2.symm⟩
      rw [hinfo]; exact List.getElem?_concat_length _ _
    · obtain ⟨i, t, hi, h1, h2⟩ := hc.vis r1 c1 hv
      exact ⟨i, t, hold hi, h1, h2⟩
  · intro i j ti tj hi hj hr hcc
    rcases hnew hi with ⟨_, hoi⟩ | ⟨hi0, rfl⟩
    · rcases hnew hj with ⟨_, hoj⟩ | ⟨_, rfl⟩
      · exact hc.inj i j ti tj hoi hoj hr hcc
      · exact absurd ⟨hr, hcc⟩ (hfresh hoi)
    · rcases hnew hj with ⟨_, hoj⟩ | ⟨hj0, _⟩
      · exact absurd ⟨hr.symm, hcc.symm⟩ (hfresh hoj)
      · rw [hi0, hj0]
  · intro i j ti tj hij hi hj
    rcases hnew hj with ⟨hjl, hoj⟩ | ⟨hj0, rfl⟩
    · rcases hnew hi with ⟨_, hoi⟩ | ⟨hi0, _⟩
      · exact hc.mono i j ti tj hij hoi hoj
      · omega
    · rcases hnew hi with ⟨_, hoi⟩ | ⟨_, rfl⟩
      · have := hb i ti tk hk hoi
        show ti.distance ≤ dist
        omega
      · exact le_refl _

theorem range'_snoc {k n : Nat} (h : k ≤ n) :
    List.range' k (n - k) ++ [n] = List.range' k (n + 1 - k) := by
  have e : n + 1 - k = (n - k) + 1 := by omega
  rw [e, List.range'_concat]
  congr 2
  omega

theorem QueueRep_push {m : Maze} {s s1 : Search} {r c : Nat} {d : Int} {prev : Option Nat}
    {k : Nat} (hq : QueueRep s.nodes s.queue (List.range' k (s.nodes.length - k)))
    (hk : k ≤ s.nodes.length) (h : pushNode m s r c d prev = .ok s1) :
    QueueRep s1.nodes s1.queue (List.range' k (s1.nodes.length - k)) ∧
      s1.nodes.length = s.nodes.length + 1 := by
  obtain ⟨_, _, hinfo, hen⟩ := pushNode_ok h
  have hlen : s1.nodes.length = s.nodes.length + 1 := by
    have := congrArg List.length hinfo
    simpa using this
  have hn : s.nodes.length ∉ List.range' k (s.nodes.length - k) := by
    rw [List.mem_range'_1]; omega
  obtain ⟨heap1, q1, hen1, hrep, _, _⟩ :=
    enQueue_rep (QueueRep_append hq [newNode r c d prev]) hn
      (List.getElem?_concat_length _ _) rfl
  rw [hen] at hen1
  injection hen1 with hen1
  injection hen1 with h1 h2
  rw [← h1, ← h2] at hrep
  rw [range'_snoc hk] at hrep
  rw [hlen]
  exact ⟨hrep, rfl⟩

theorem Mid_visitNeighbor {m : Maze} {sr sc : Nat} {s s1 : Search} {k : Nat}
    {ds : List (Int × Int)} {d : Int × Int} (hm : Mid m sr sc s k ds) (hd : d ∈ offsets)
    (h : visitNeighbor m k s d.1 d.2 = .ok s1) : Mid m sr sc s1 k (d :: ds) := by
  obtain ⟨t, row, col, ht, hrow, hcol, hcases⟩ := visitNeighbor_ok h
  have hk : s.info[k]? = some t.payload := info_of_nodes ht
  obtain ⟨hrow1, _, _⟩ := addInt_ok hrow
  obtain ⟨hcol1, _, _⟩ := addInt_ok hcol
  have hkc := hm.core.cell k t.payload hk
  have hkopen : m.OpenAt t.row t.column := hkc.1
  -- the coordinates of the neighbour when the grid fits `int`
  have hexact : Fits m → row = (t.row : Int) + d.1 ∧ col = (t.column : Int) + d.2 := by
    intro hf
    rw [hrow1, hcol1, toInt_of_le (by have := hkopen.1; have := hf.1; omega),
      toInt_of_le (by have := hkopen.2.1; have := hf.2; omega)]
    exact ⟨rfl, rfl⟩
  rcases hcases with ⟨hv, rfl⟩ | ⟨hv, _, _, hvis, rfl⟩ | ⟨hv, hr, hc, hvis, dist, hdist, hpush⟩
  · -- the neighbour is not a valid point
    refine ⟨hm.core, hm.queue, hm.klt, hm.bound, hm.done, hm.notGoal, ?_⟩
    intro hf t1 ht1 d1 hd1
    rcases List.mem_cons.mp hd1 with rfl | hd1
    · intro r c hr hc hopen
      rw [hk] at ht1
      injection ht1 with ht1
      subst ht1
      obtain ⟨e1, e2⟩ := hexact hf
      have e3 : row = (r : Int) := by rw [e1, hr]; rfl
      have e4 : col = (c : Int) := by rw [e2, hc]; rfl
      exfalso
      rcases validPoint_false hv with hb | ⟨ch, hch, hne⟩
      · rw [toInt_of_le hf.1, toInt_of_le hf.2, e3, e4] at hb
        have := hopen.1
        have := hopen.2.1
        omega
      · rw [e3, e4] at hch
        simp only [Int.toNat_ofNat] at hch
        rw [hopen.2.2] at hch
        injection hch with hch
        exact hne hch.symm
    · exact hm.covered hf t1 ht1 d1 hd1
  · -- the neighbour has been visited before
    refine ⟨hm.core, hm.queue, hm.klt, hm.bound, hm.done, hm.notGoal, ?_⟩
    intro hf t1 ht1 d1 hd1
    rcases List.mem_cons.mp hd1 with rfl | hd1
    · intro r c hr hc hopen
      rw [hk] at ht1
      injection ht1 with ht1
      subst ht1
      obtain ⟨e1, e2⟩ := hexact hf
      have e3 : row = (r : Int) := by rw [e1, hr]; rfl
      have e4 : col = (c : Int) := by rw [e2, hc]; rfl
      rw [e3, e4] at hvis
      simp only [Int.toNat_ofNat] at hvis
      obtain ⟨j, tj, hj, h1, h2⟩ := hm.core.vis r c hvis
      exact ⟨j, tj, hj, h1, h2, hm.bound j tj t.payload hk hj⟩
    · exact hm.covered hf t1 ht1 d1 hd1
  · -- a node is created for the neighbour
    obtain ⟨h0, h1, h2, h3, h4⟩ := validPoint_true hv
    obtain ⟨hdist1, _, _⟩ := addInt_ok hdist
    obtain ⟨_, hvis1, hinfo, _⟩ := pushNode_ok hpush
    have hinfo1 : s1.info = s.info ++ [newNode row.toNat col.toNat dist (some k)] := hinfo
    obtain ⟨hq, hlen⟩ := QueueRep_push
      (s := { s with visited := markVisited s.visited row.toNat col.toNat })
      hm.queue hm.klt hpush
    have hrn : ((row.toNat : Nat) : Int) = row := Int.toNat_of_nonneg h0
    have hcn : ((col.toNat : Nat) : Int) = col := Int.toNat_of_nonneg h1
    have hcore : Core m sr sc s1 := by
      refine Core_push hm.core hm.bound hinfo1 hvis1 hlen ⟨hr, hc, h4⟩ hvis hk hdist1
        (by rw [hrn]; exact h2) (by rw [hcn]; exact h3) ?_
      intro hb1 hb2
      have hb1 : t.row ≤ 2147483647 := hb1
      have hb2 : t.column ≤ 2147483647 := hb2
      refine adj_of_offset hd ?_ ?_
      · rw [hrn, hrow1, toInt_of_le hb1]; rfl
      · rw [hcn, hcol1, toInt_of_le hb2]; rfl
    have hold : ∀ {i : Nat} {x : Node}, s.info[i]? = some x → s1.info[i]? = some x := by
      intro i x hi
      rw [hinfo1]
      exact getElem?_snoc_old hi
    have hback : ∀ {x : Node}, s1.info[k]? = some x → s.info[k]? = some x := by
      intro x hx
      rw [hinfo1] at hx
      rcases getElem?_snoc hx with ⟨_, ho⟩ | ⟨hk0, _⟩
      · exact ho
      · have := hm.klt
        rw [info_length] at hk0
        omega
    refine ⟨hcore, hq, by rw [hlen]; exact Nat.lt_succ_of_lt hm.klt, ?_, ?_, ?_, ?_⟩
    · intro j tj tk hk1 hj
      have hk2 := hback hk1
      rw [hinfo1] at hj
      rcases getElem?_snoc hj with ⟨_, ho⟩ | ⟨_, rfl⟩
      · exact hm.bound j tj tk hk2 ho
      · rw [hk] at hk2
        injection hk2 with hk2
        subst hk2
        show dist ≤ t.distance + 1
        omega
    · intro i x hik hx
      rw [hinfo1] at hx
      rcases getElem?_snoc hx with ⟨_, ho⟩ | ⟨hi0, _⟩
      · obtain ⟨g1, g2⟩ := hm.done i x hik ho
        exact ⟨g1, fun hf d1 hd1 => Covered_mono hinfo1 (g2 hf d1 hd1)⟩
      · have := hm.klt
        rw [info_length] at hi0
        omega
    · intro x hx
      exact hm.notGoal x (hback hx)
    · intro hf t1 ht1 d1 hd1
      have ht2 := hback ht1
      rcases List.mem_cons.mp hd1 with rfl | hd1
      · intro r c hr1 hc1 _
        rw [hk] at ht2
        injection ht2 with ht2
        subst ht2
        obtain ⟨e1, e2⟩ := hexact hf
        have e3 : row = (r : Int) := by rw [e1, hr1]; rfl
        have e4 : col = (c : Int) := by rw [e2, hc1]; rfl
        refine ⟨s.info.length, newNode row.toNat col.toNat dist (some k), ?_, ?_, ?_, ?_⟩
        · rw [hinfo1]; exact List.getElem?_concat_length _ _
        · show row.toNat = r
          rw [e3]; rfl
        · show col.toNat = c
          rw [e4]; rfl
        · show dist ≤ t.distance + 1
          omega
      · exact Covered_mono hinfo1 (hm.covered hf t1 ht2 d1 hd1)

theorem Mid_visitNeighbors {m : Maze} {sr sc : Nat} {k : Nat} :
    ∀ (ds0 : List (Int × Int)) (s s1 : Search) (ds : List (Int × Int)),
      (∀ d ∈ ds0, d ∈ offsets) → Mid m sr sc s k ds →
      visitNeighbors m k s ds0 = .ok s1 → Mid m sr sc s1 k (ds0.reverse ++ ds) := by
  intro ds0
  induction ds0 with
  | nil =>
    intro s s1 ds _ hm h
    simp only [visitNeighbors] at h
    injection h with h
    subst h
    simpa using hm
  | cons d ds0 ih =>
    intro s s1 ds hsub hm h
    simp only [visitNeighbors] at h
    split at h
    · cases h
    · rename_i s2 hs2
      have hm2 := Mid_visitNeighbor hm (hsub d (List.mem_cons_self _ _)) hs2
      have := ih s2 s1 (d :: ds) (fun x hx => hsub x (List.mem_cons_of_mem _ hx)) hm2 h
      simpa using this

theorem Core_queue {m : Maze} {sr sc : Nat} {s : Search} (q : Queue)
    (h : Core m sr sc s) : Core m sr sc { s with queue := q } :=
  ⟨h.start, h.cell, h.later, h.vis, h.inj, h.mono⟩

theorem Head_of_Mid {m : Maze} {sr sc : Nat} {s : Search} {k : Nat}
    {ds : List (Int × Int)} (hm : Mid m sr sc s k ds) (hall : ∀ d ∈ offsets, d ∈ ds) :
    Head m sr sc s (k + 1) := by
  refine ⟨hm.core, hm.queue, hm.klt, ?_, ?_⟩
  · intro j tj tk1 hk1 hj
    obtain ⟨tk, htk⟩ : ∃ tk, s.info[k]? = some tk :=
      exists_getElem? (by rw [info_length]; exact hm.klt)
    have h1 := hm.bound j tj tk htk hj
    have h2 := hm.core.mono k (k + 1) tk tk1 (Nat.le_succ k) htk hk1
    omega
  · intro i t hi ht
    rcases Nat.lt_succ_iff_lt_or_eq.mp hi with hlt | rfl
    · exact hm.done i t hlt ht
    · exact ⟨hm.notGoal t ht, fun hf d hd => hm.covered hf t ht d (hall d hd)⟩

theorem bfsLoop_final {m : Maze} {sr sc : Nat} {s1 : Search} {found : Option Nat} :
    ∀ (fuel : Nat) (s : Search) (k : Nat), Head m sr sc s k →
      bfsLoop m fuel s = .ok (s1, found) → Final m sr sc s1 found := by
  intro fuel
  induction fuel with
  | zero => intro s k _ h; simp [bfsLoop] at h
  | succ fuel ih =>
    intro s k hh h
    simp only [bfsLoop] at h
    split at h
    · rename_i hemp
      injection h with h
      injection h with h1 h2
      subst h1; subst h2
      have hnil := (isEmpty_rep hh.queue).mp hemp
      have hk : k = s.nodes.length := by
        have := List.range'_eq_nil.mp hnil
        have := hh.kle
        omega
      exact ⟨hh.core, k, hh.done, fun _ => hk, fun g hg => by cases hg⟩
    · rename_i hemp
      have hne : List.range' k (s.nodes.length - k) ≠ [] :=
        fun e => hemp ((isEmpty_rep hh.queue).mpr e)
      have hpos : 0 < s.nodes.length - k := by
        rcases Nat.eq_zero_or_pos (s.nodes.length - k) with h0 | h0
        · exact absurd (List.range'_eq_nil.mpr h0) hne
        · exact h0
      have hcons : List.range' k (s.nodes.length - k) =
          k :: List.range' (k + 1) (s.nodes.length - (k + 1)) := by
        have e : s.nodes.length - k = (s.nodes.length - (k + 1)) + 1 := by omega
        rw [e, List.range'_succ]
      have hq := hh.queue
      rw [hcons] at hq
      obtain ⟨q1, hde, hq1, _⟩ := deQueue_rep hq
      rw [hde] at h
      simp only at h
      split at h
      · cases h
      · rename_i cur hcur
        have hcur1 : s.nodes[k]? = some cur := by
          unfold getNode at hcur
          split at hcur
          · rename_i n hn; injection hcur with hcur; rw [hn, hcur]
          · cases hcur
        have hinfo : s.info[k]? = some cur.payload := info_of_nodes hcur1
        split at h
        · rename_i hgoal
          injection h with h
          injection h with h1 h2
          subst h1; subst h2
          refine ⟨Core_queue q1 hh.core, k, hh.done, fun hn => (by cases hn), ?_⟩
          intro g hg
          injection hg with hg
          subst hg
          exact ⟨rfl, cur.payload, hinfo, hgoal⟩
        · rename_i hgoal
          split at h
          · cases h
          · rename_i s2 hs2
            have hmid : Mid m sr sc { s with queue := q1 } k [] := by
              have hklt : k < s.nodes.length := by omega
              refine ⟨Core_queue q1 hh.core, hq1, hklt, hh.bound, hh.done, ?_, ?_⟩
              · intro t ht
                have ht1 : s.info[k]? = some t := ht
                rw [hinfo] at ht1
                injection ht1 with ht1
                subst ht1
                exact hgoal
              · intro _ t _ d hd
                cases hd
            have hm2 := Mid_visitNeighbors offsets _ s2 [] (fun d hd => hd) hmid hs2
            have hh2 : Head m sr sc s2 (k + 1) :=
              Head_of_Mid hm2 (fun d hd => by simp [hd])
            exact ih s2 (k + 1) hh2 h

theorem Head_init {m : Maze} {sr sc : Nat} {s0 : Search}
    (hcell : m.array sr sc = some '0') (h : initSearch m sr sc = .ok s0) :
    Head m sr sc s0 0 ∧ sr < m.rows ∧ sc < m.columns := by
  unfold initSearch at h
  split at h
  · cases h
  · rename_i visited hsv
    unfold setVisited at hsv
    split at hsv
    · rename_i hin
      injection hsv with hsv
      obtain ⟨_, hvis, hinfo, _⟩ := pushNode_ok h
      have hq0 : QueueRep ([] : Heap) createQueue (List.range' 0 (([] : Heap).length - 0)) :=
        QueueRep_create []
      obtain ⟨hq, hlen⟩ := QueueRep_push
        (s := { nodes := [], visited := visited, queue := createQueue }) hq0 (Nat.le_refl _) h
      have hinfo1 : s0.info = [newNode sr sc 1 none] := hinfo
      have hlen1 : s0.nodes.length = 1 := hlen
      have hvis1 : s0.visited = markVisited (fun _ _ => false) sr sc := by
        rw [hvis, ← hsv]; rfl
      have hone : ∀ {i : Nat} {t : Node}, s0.info[i]? = some t →
          i = 0 ∧ t = newNode sr sc 1 none := by
        intro i t hi
        rw [hinfo1] at hi
        cases i with
        | zero =>
          have : newNode sr sc 1 none = t := by simpa using hi
          exact ⟨rfl, this.symm⟩
        | succ i => simp at hi
      refine ⟨⟨⟨?_, ?_, ?_, ?_, ?_, ?_⟩, hq, Nat.zero_le _, ?_, ?_⟩, hin.1, hin.2⟩
      · rw [hinfo1]; rfl
      · intro i t hi
        obtain ⟨_, rfl⟩ := hone hi
        refine ⟨⟨hin.1, hin.2, hcell⟩, ?_, ?_, ?_⟩
        · rw [hvis1]; simp [markVisited, newNode]
        · show (1 : Int) ≤ 1
          exact le_refl _
        · rw [hlen1]; show (1 : Int) ≤ ((1 : Nat) : Int)
          simp
      · intro i t hpos hi
        obtain ⟨h0, _⟩ := hone hi
        omega
      · intro r c hv
        rw [hvis1] at hv
        unfold markVisited at hv
        split at hv
        · rename_i hrc
          exact ⟨0, newNode sr sc 1 none, by rw [hinfo1]; rfl, hrc.1.symm, hrc.2.symm⟩
        · cases hv
      · intro i j ti tj hi hj _ _
        rw [(hone hi).1, (hone hj).1]
      · intro i j ti tj _ hi hj
        rw [(hone hi).2, (hone hj).2]
      · intro j tj tk hk hj
        rw [(hone hk).2, (hone hj).2]
        show (1 : Int) ≤ 1 + 1
        omega
      · intro i t hi _
        omega
    · cases hsv

theorem toInt_le_max (n : Nat) : toInt n ≤ 2147483647 := by
  unfold toInt
  split <;> omega

theorem fits_of_pred_lt {n : Nat} (h : (n : Int) - 1 < toInt n) : n ≤ 2147483647 := by
  unfold toInt at h
  split at h <;> omega

theorem nodes_of_info {s : Search} {i : Nat} {t : Node} (h : s.info[i]? = some t) :
    ∃ t1, s.nodes[i]? = some t1 ∧ t1.payload = t := by
  have h1 : (s.nodes.map Node.payload)[i]? = some t := h
  rw [List.getElem?_map] at h1
  cases hn : s.nodes[i]? with
  | none => rw [hn] at h1; cases h1
  | some t1 =>
    rw [hn] at h1
    exact ⟨t1, rfl, by simpa using h1⟩

/-! ## The path behind a node -/

theorem markCells_snoc (m0 : Maze) (L : List (Nat × Nat)) (r c : Nat) :
    markCells { m0 with array := fun r1 c1 =>
        if r1 = r ∧ c1 = c then some '+' else m0.array r1 c1 } L =
      markCells m0 (L ++ [(r, c)]) := by
  unfold markCells
  congr 1
  funext r1 c1
  by_cases h1 : (r1, c1) ∈ L
  · simp [h1]
  · by_cases h2 : r1 = r ∧ c1 = c
    · simp [h2]
    · have h3 : ¬ (r1 = r ∧ c1 = c) := h2
      simp [h1, h3]

theorem markPath_step {nodes : Heap} {i fuel : Nat} {t1 : Node} {m0 : Maze}
    (hn : nodes[i]? = some t1) (hs : (m0.array t1.row t1.column).isSome = true) :
    markPath nodes (fuel + 1) m0 (some i) =
      markPath nodes fuel { m0 with array := fun r1 c1 =>
        if r1 = t1.row ∧ c1 = t1.column then some '+' else m0.array r1 c1 }
        t1.previousPath := by
  obtain ⟨ch, hch⟩ := Option.isSome_iff_exists.mp hs
  simp only [markPath, getNode, hn, writeCell, hch]

theorem markPath_none (nodes : Heap) (fuel : Nat) (m0 : Maze) :
    markPath nodes fuel m0 none = .ok m0 := by
  cases fuel <;> rfl

theorem chain_path {m : Maze} {sr sc : Nat} {s : Search} (hc : Core m sr sc s) :
    ∀ (i : Nat) (t : Node), s.info[i]? = some t →
      (0 < i → sr ≤ 2147483647 ∧ sc ≤ 2147483647) →
      ∃ L : List (Nat × Nat), (L.length : Int) = t.distance ∧ L.head? = some (sr, sc) ∧
        L.getLast? = some (t.row, t.column) ∧ L.Chain' Adj ∧ L.Nodup ∧
        (∀ x ∈ L, ∃ (j : Nat) (tj : Node),
          j ≤ i ∧ s.info[j]? = some tj ∧ x = (tj.row, tj.column)) ∧
        ∀ (fuel : Nat) (m0 : Maze), i < fuel →
          (∀ x ∈ L, (m0.array x.1 x.2).isSome = true) →
          markPath s.nodes fuel m0 (some i) = .ok (markCells m0 L) := by
  intro i
  induction i using Nat.strong_induction_on with
  | _ i ih =>
    intro t ht hs
    obtain ⟨t1, hn, hp⟩ := nodes_of_info ht
    have er : t1.row = t.row := by rw [← hp]; rfl
    have ec : t1.column = t.column := by rw [← hp]; rfl
    have ep : t1.previousPath = t.previousPath := by rw [← hp]; rfl
    rcases Nat.eq_zero_or_pos i with rfl | hpos
    · have hst := hc.start
      rw [ht] at hst
      injection hst with hst
      subst hst
      refine ⟨[(sr, sc)], rfl, rfl, rfl, List.chain'_singleton _, List.nodup_singleton _, ?_, ?_⟩
      · intro x hx
        rw [List.mem_singleton] at hx
        exact ⟨0, _, Nat.le_refl _, ht, hx⟩
      · intro fuel m0 hf hsome
        obtain ⟨f, rfl⟩ : ∃ f, fuel = f + 1 := ⟨fuel - 1, by omega⟩
        have h1 : (m0.array t1.row t1.column).isSome = true := by
          rw [er, ec]; exact hsome (sr, sc) (List.mem_singleton_self _)
        rw [markPath_step hn h1, ep]
        show markPath s.nodes f _ none = _
        rw [markPath_none, er, ec]
        exact congrArg Except.ok (markCells_snoc m0 [] sr sc ▸ rfl)
    · obtain ⟨_, _, j, tj, hprev, hji, hj, hdist, hadj⟩ := hc.later i t hpos ht
      obtain ⟨Lj, h1, h2, h3, h4, h5, h6, h7⟩ := ih j hji tj hj (fun _ => hs hpos)
      have hfit : tj.row ≤ 2147483647 ∧ tj.column ≤ 2147483647 := by
        rcases Nat.eq_zero_or_pos j with rfl | hjpos
        · have hst := hc.start
          rw [hj] at hst
          injection hst with hst
          subst hst
          exact hs hpos
        · obtain ⟨g1, g2, _⟩ := hc.later j tj hjpos hj
          have := toInt_le_max m.rows
          have := toInt_le_max m.columns
          constructor <;> omega
      have hne : Lj ≠ [] := by
        intro e; rw [e] at h2; cases h2
      refine ⟨Lj ++ [(t.row, t.column)], ?_, ?_, ?_, ?_, ?_, ?_, ?_⟩
      · rw [List.length_append, List.length_singleton]; push_cast; omega
      · rw [List.head?_append_of_ne_nil _ hne]; exact h2
      · exact List.getLast?_concat _
      · refine List.Chain'.append h4 (List.chain'_singleton _) ?_
        intro x hx y hy
        rw [h3] at hx
        have hx1 : (tj.row, tj.column) = x := by simpa using hx
        have hy1 : (t.row, t.column) = y := by simpa using hy
        rw [← hx1, ← hy1]
        exact hadj hfit.1 hfit.2
      · rw [List.nodup_append]
        refine ⟨h5, List.nodup_singleton _, ?_⟩
        intro a ha hb
        rw [List.mem_singleton] at hb
        subst hb
        obtain ⟨j1, tj1, hle, hj1, hx⟩ := h6 _ ha
        have e1 : t.row = tj1.row := congrArg Prod.fst hx
        have e2 : t.column = tj1.column := congrArg Prod.snd hx
        have := hc.inj i j1 t tj1 ht hj1 e1 e2
        omega
      · intro x hx
        rcases List.mem_append.mp hx with hx | hx
        · obtain ⟨j1, tj1, hle, hj1, hx1⟩ := h6 x hx
          exact ⟨j1, tj1, by omega, hj1, hx1⟩
        · rw [List.mem_singleton] at hx
          exact ⟨i, t, Nat.le_refl _, ht, hx⟩
      · intro fuel m0 hf hsome
        obtain ⟨f, rfl⟩ : ∃ f, fuel = f + 1 := ⟨fuel - 1, by omega⟩
        have g1 : (m0.array t1.row t1.column).isSome = true := by
          rw [er, ec]
          exact hsome (t.row, t.column) (List.mem_append_right _ (List.mem_singleton_self _))
        rw [markPath_step hn g1, ep, hprev, er, ec]
        rw [h7 f _ (by omega) ?_, markCells_snoc]
        intro x hx
        have := hsome x (List.mem_append_left _ hx)
        show (if x.1 = t.row ∧ x.2 = t.column then some '+' else m0.array x.1 x.2).isSome = true
        split
        · rfl
        · exact this

/-! ## Every open walk from the start is covered by nodes -/

theorem Adj_symm {a b : Nat × Nat} (h : Adj a b) : Adj b a := by
  unfold Adj at h ⊢
  omega

theorem walk_covered {m : Maze} {sr sc : Nat} {s : Search} {k : Nat} {D : Int}
    (hc : Core m sr sc s) (hf : Fits m) (hdone : Done m s k)
    (hD : ∀ (j : Nat) (tj : Node), k ≤ j → s.info[j]? = some tj → D ≤ tj.distance) :
    ∀ (rest : List (Nat × Nat)) (x : Nat × Nat), (x :: rest).Chain' Adj →
      (∀ y ∈ x :: rest, m.OpenAt y.1 y.2) → (x :: rest).getLast? = some (sr, sc) →
      (∃ (j : Nat) (tj : Node), s.info[j]? = some tj ∧ tj.row = x.1 ∧ tj.column = x.2 ∧
          tj.distance ≤ ((x :: rest).length : Int)) ∨
        D ≤ ((x :: rest).length : Int) := by
  intro rest
  induction rest with
  | nil =>
    intro x _ _ hlast
    have hx : x = (sr, sc) := by simpa using hlast
    subst hx
    exact Or.inl ⟨0, newNode sr sc 1 none, hc.start, rfl, rfl, by
      show (1 : Int) ≤ (([(sr, sc)] : List (Nat × Nat)).length : Int)
      simp⟩
  | cons y rest ih =>
    intro x hchain hopen hlast
    rw [List.chain'_cons] at hchain
    have hlast1 : (y :: rest).getLast? = some (sr, sc) := by
      rw [List.getLast?_cons_cons] at hlast; exact hlast
    have hlen : (((x :: y :: rest).length : Nat) : Int) = ((y :: rest).length : Int) + 1 := by
      simp
    rcases ih y hchain.2 (fun z hz => hopen z (List.mem_cons_of_mem _ hz)) hlast1 with
      ⟨j, tj, hj, h1, h2, h3⟩ | hD1
    · by_cases hjk : j < k
      · obtain ⟨_, hcov⟩ := hdone j tj hjk hj
        have hadj : Adj (tj.row, tj.column) (x.1, x.2) := by
          rw [h1, h2]; exact Adj_symm hchain.1
        obtain ⟨d, hd, e1, e2⟩ := offset_of_adj hadj
        obtain ⟨j1, tj1, g1, g2, g3, g4⟩ :=
          hcov hf d hd x.1 x.2 e1 e2 (hopen x (List.mem_cons_self _ _))
        exact Or.inl ⟨j1, tj1, g1, g2, g3, by rw [hlen]; omega⟩
      · have := hD j tj (Nat.le_of_not_lt hjk) hj
        exact Or.inr (by rw [hlen]; omega)
    · exact Or.inr (by rw [hlen]; omega)

theorem path_covered {m : Maze} {sr sc : Nat} {s : Search} {k : Nat} {D : Int}
    (hc : Core m sr sc s) (hf : Fits m) (hdone : Done m s k)
    (hD : ∀ (j : Nat) (tj : Node), k ≤ j → s.info[j]? = some tj → D ≤ tj.distance)
    {goal : Nat × Nat} {q : List (Nat × Nat)} (hq : IsPath m (sr, sc) goal q) :
    (∃ (j : Nat) (tj : Node), s.info[j]? = some tj ∧ tj.row = goal.1 ∧
        tj.column = goal.2 ∧ tj.distance ≤ (q.length : Int)) ∨ D ≤ (q.length : Int) := by
  obtain ⟨hhead, hlast, hopen, hchain⟩ := hq
  have hrev : q.reverse.head? = some goal := by rw [List.head?_reverse]; exact hlast
  cases hr : q.reverse with
  | nil => rw [hr] at hrev; cases hrev
  | cons x rest =>
    rw [hr] at hrev
    have hx : x = goal := by simpa using hrev
    subst hx
    have hchain1 : (x :: rest).Chain' Adj := by
      rw [← hr, List.chain'_reverse]
      exact hchain.imp (fun a b h => Adj_symm h)
    have hopen1 : ∀ y ∈ x :: rest, m.OpenAt y.1 y.2 := by
      intro y hy
      rw [← hr] at hy
      exact hopen y (List.mem_reverse.mp hy)
    have hlast1 : (x :: rest).getLast? = some (sr, sc) := by
      rw [← hr, List.getLast?_reverse]; exact hhead
    have hlen : (x :: rest).length = q.length := by
      rw [← hr, List.length_reverse]
    have := walk_covered hc hf hdone hD rest x hchain1 hopen1 hlast1
    rw [hlen] at this
    exact this

/-! ## Correctness of the search -/

theorem getNode_ok {heap : Heap} {i : Nat} {t : Node} (h : getNode heap i = .ok t) :
    heap[i]? = some t := by
  unfold getNode at h
  split at h
  · rename_i n hn; injection h with h; rw [hn, h]
  · cases h

theorem search_correct {m : Maze} {sr sc fuel : Nat} {opt : Bool} {d : Int} {m1 : Maze}
    (hwf : m.WF) (hr : 1 ≤ m.rows) (hcl : 1 ≤ m.columns)
    (hstart : m.array sr sc = some '0')
    (h : search fuel m sr sc opt = .ok (d, m1)) :
    sr < m.rows ∧ sc < m.columns ∧
    ((d = 0 ∧ m1 = m ∧
        (Fits m → ∀ q, ¬ IsPath m (sr, sc) (m.rows - 1, m.columns - 1) q)) ∨
     (∃ L : List (Nat × Nat), (L.length : Int) = d ∧
        IsPath m (sr, sc) (m.rows - 1, m.columns - 1) L ∧ L.Nodup ∧
        m1 = (if opt = true then markCells m L else m) ∧
        (Fits m → ∀ q, IsPath m (sr, sc) (m.rows - 1, m.columns - 1) q →
          L.length ≤ q.length))) := by
  have e1 : pred64 m.rows = m.rows - 1 := pred64_eq hr hwf.1
  have e2 : pred64 m.columns = m.columns - 1 := pred64_eq hcl hwf.2.1
  unfold search at h
  split at h
  · cases h
  · rename_i s0 hs0
    obtain ⟨hh, hsr, hsc⟩ := Head_init hstart hs0
    refine ⟨hsr, hsc, ?_⟩
    split at h
    · cases h
    · rename_i s1 hloop
      obtain ⟨hc, k, hdone, hk, _⟩ := bfsLoop_final fuel s0 0 hh hloop
      have hk1 := hk rfl
      injection h with h
      injection h with h1 h2
      refine Or.inl ⟨h1.symm, h2.symm, ?_⟩
      intro hf q hq
      have hD : ∀ (j : Nat) (tj : Node), k ≤ j → s1.info[j]? = some tj →
          (q.length : Int) + 1 ≤ tj.distance := by
        intro j tj hj htj
        have := info_lt htj
        omega
      rcases path_covered hc hf hdone hD hq with ⟨j, tj, hj, g1, g2, _⟩ | hbad
      · have hjk : j < k := by rw [hk1]; exact info_lt hj
        exact (hdone j tj hjk hj).1 ⟨by rw [e1]; exact g1, by rw [e2]; exact g2⟩
      · omega
    · rename_i s1 g hloop
      obtain ⟨hc, k, hdone, _, hg⟩ := bfsLoop_final fuel s0 0 hh hloop
      obtain ⟨hgk, tg, htg, hgoal⟩ := hg g rfl
      subst hgk
      split at h
      · cases h
      · rename_i cur hcur
        have hcur1 := info_of_nodes (getNode_ok hcur)
        rw [htg] at hcur1
        injection hcur1 with hcur1
        have hdist : cur.distance = tg.distance := by rw [hcur1]; rfl
        have hgr : tg.row = m.rows - 1 := by rw [← e1]; exact hgoal.1
        have hgc : tg.column = m.columns - 1 := by rw [← e2]; exact hgoal.2
        have hs : 0 < g → sr ≤ 2147483647 ∧ sc ≤ 2147483647 := by
          intro hpos
          obtain ⟨g1, g2, _⟩ := hc.later g tg hpos htg
          have f1 : m.rows ≤ 2147483647 := fits_of_pred_lt (by rw [hgr] at g1; omega)
          have f2 : m.columns ≤ 2147483647 := fits_of_pred_lt (by rw [hgc] at g2; omega)
          constructor <;> omega
        obtain ⟨L, l1, l2, l3, l4, l5, l6, l7⟩ := chain_path hc g tg htg hs
        have lopen : ∀ x ∈ L, m.OpenAt x.1 x.2 := by
          intro x hx
          obtain ⟨j, tj, _, hj, hxj⟩ := l6 x hx
          rw [hxj]
          exact (hc.cell j tj hj).1
        have lmark : markPath s1.nodes s1.nodes.length m (some g) = .ok (markCells m L) :=
          l7 _ m (info_lt htg) (fun x hx => by rw [(lopen x hx).2.2]; rfl)
        have lpath : IsPath m (sr, sc) (m.rows - 1, m.columns - 1) L :=
          ⟨l2, by rw [l3, hgr, hgc], lopen, l4⟩
        have lshort : Fits m → ∀ q, IsPath m (sr, sc) (m.rows - 1, m.columns - 1) q →
            L.length ≤ q.length := by
          intro hf q hq
          have hD : ∀ (j : Nat) (tj : Node), g ≤ j → s1.info[j]? = some tj →
              tg.distance ≤ tj.distance := fun j tj hj htj => hc.mono g j tg tj hj htg htj
          rcases path_covered hc hf hdone hD hq with ⟨j, tj, hj, g1, g2, g3⟩ | hle
          · have hjg : j = g := hc.inj j g tj tg hj htg (by rw [g1, hgr]) (by rw [g2, hgc])
            subst hjg
            rw [htg] at hj
            injection hj with hj
            subst hj
            omega
          · omega
        refine Or.inr ⟨L, ?_, lpath, l5, ?_, lshort⟩
        · cases opt with
          | false =>
            simp only [Bool.false_eq_true, if_false] at h
            obtain ⟨h1, h2⟩ := Prod.mk.inj (Except.ok.inj h)
            rw [← h1, l1, hdist]
          | true =>
            simp only [if_true] at h
            rw [lmark] at h
            obtain ⟨h1, h2⟩ := Prod.mk.inj (Except.ok.inj h)
            rw [← h1, l1, hdist]
        · cases opt with
          | false =>
            simp only [Bool.false_eq_true, if_false] at h ⊢
            obtain ⟨h1, h2⟩ := Prod.mk.inj (Except.ok.inj h)
            exact h2.symm
          | true =>
            simp only [if_true] at h ⊢
            rw [lmark] at h
            obtain ⟨h1, h2⟩ := Prod.mk.inj (Except.ok.inj h)
            exact h2.symm

/-! ## Totality: the search never faults and ends within the iteration bound -/

theorem cells_bound {R C : Nat} (L : List (Nat × Nat)) (hnd : L.Nodup)
    (hin : ∀ x ∈ L, x.1 < R ∧ x.2 < C) : L.length ≤ R * C := by
  have hsub : L.toFinset ⊆ Finset.range R ×ˢ Finset.range C := by
    intro x hx
    have := hin x (List.mem_toFinset.mp hx)
    simp only [Finset.mem_product, Finset.mem_range]
    exact this
  have h1 := Finset.card_le_card hsub
  rw [List.toFinset_card_of_nodup hnd, Finset.card_product, Finset.card_range,
    Finset.card_range] at h1
  exact h1

theorem Core_cells {m : Maze} {sr sc : Nat} {s : Search} (hc : Core m sr sc s) :
    (s.info.map (fun t => (t.row, t.column))).Nodup ∧
      ∀ x ∈ s.info.map (fun t => (t.row, t.column)),
        x.1 < m.rows ∧ x.2 < m.columns ∧ s.visited x.1 x.2 = true := by
  constructor
  · rw [List.nodup_iff_getElem?_ne_getElem?]
    intro i j hij hj heq
    rw [List.length_map] at hj
    have hi : i < s.info.length := by omega
    rw [List.getElem?_map, List.getElem?_map, List.getElem?_eq_getElem hi,
      List.getElem?_eq_getElem hj] at heq
    simp only [Option.map_some', Option.some.injEq, Prod.mk.injEq] at heq
    have := hc.inj i j _ _ (List.getElem?_eq_getElem hi) (List.getElem?_eq_getElem hj)
      heq.1 heq.2
    omega
  · intro x hx
    obtain ⟨t, ht, rfl⟩ := List.mem_map.mp hx
    obtain ⟨i, hi⟩ := List.getElem?_of_mem ht
    obtain ⟨h1, h2, _⟩ := hc.cell i t hi
    exact ⟨h1.1, h1.2.1, h2⟩

theorem Core_length_le {m : Maze} {sr sc : Nat} {s : Search} (hc : Core m sr sc s) :
    s.nodes.length ≤ m.rows * m.columns := by
  obtain ⟨h1, h2⟩ := Core_cells hc
  have := cells_bound _ h1 (fun x hx => ⟨(h2 x hx).1, (h2 x hx).2.1⟩)
  simpa [Search.info] using this

theorem Core_length_lt {m : Maze} {sr sc : Nat} {s : Search} (hc : Core m sr sc s)
    {r c : Nat} (hr : r < m.rows) (hcl : c < m.columns) (hv : s.visited r c = false) :
    s.nodes.length < m.rows * m.columns := by
  obtain ⟨h1, h2⟩ := Core_cells hc
  have hnd : ((r, c) :: s.info.map (fun t => (t.row, t.column))).Nodup := by
    rw [List.nodup_cons]
    refine ⟨?_, h1⟩
    intro hmem
    have := (h2 _ hmem).2.2
    rw [hv] at this
    cases this
  have := cells_bound (R := m.rows) (C := m.columns) _ hnd (by
    intro x hx
    rcases List.mem_cons.mp hx with rfl | hx
    · exact ⟨hr, hcl⟩
    · exact ⟨(h2 x hx).1, (h2 x hx).2.1⟩)
  simp only [List.length_cons, List.length_map, info_length] at this
  omega

theorem pushNode_total {m : Maze} {s : Search} {k r c : Nat} {d : Int} {prev : Option Nat}
    (hq : QueueRep s.nodes s.queue (List.range' k (s.nodes.length - k)))
    (hlt : s.nodes.length < m.rows * m.columns) :
    ∃ s1, pushNode m s r c d prev = .ok s1 := by
  have hn : s.nodes.length ∉ List.range' k (s.nodes.length - k) := by
    rw [List.mem_range'_1]; omega
  obtain ⟨heap1, q1, hen, _⟩ :=
    enQueue_rep (QueueRep_append hq [newNode r c d prev]) hn
      (List.getElem?_concat_length _ _) rfl
  have hen1 : enQueue (createNode s.nodes r c d prev).1 s.queue
      (createNode s.nodes r c d prev).2 = .ok (heap1, q1) := hen
  refine ⟨{ nodes := heap1, visited := s.visited, queue := q1 }, ?_⟩
  unfold pushNode
  rw [if_pos hlt, hen1]

theorem validPoint_total {m : Maze} (hwf : m.WF) (hf : Fits m) (row col : Int) :
    ∃ b, validPoint m row col = .ok b := by
  unfold validPoint
  split
  · exact ⟨false, rfl⟩
  · rename_i hc
    rw [toInt_of_le hf.1, toInt_of_le hf.2] at hc
    obtain ⟨ch, hch⟩ := Option.isSome_iff_exists.mp
      (hwf.2.2 row.toNat (by omega) col.toNat (by omega))
    rw [hch]
    exact ⟨_, rfl⟩

theorem visitNeighbor_total {m : Maze} {sr sc : Nat} {s : Search} {k : Nat}
    {ds : List (Int × Int)} {d : Int × Int} (hwf : m.WF)
    (hsz : m.rows * m.columns ≤ 2147483647) (hm : Mid m sr sc s k ds) (hd : d ∈ offsets) :
    ∃ s1, visitNeighbor m k s d.1 d.2 = .ok s1 := by
  obtain ⟨t, ht⟩ : ∃ t, s.nodes[k]? = some t := exists_getElem? hm.klt
  obtain ⟨hopen, _, hd1, hdn⟩ := hm.core.cell k t.payload (info_of_nodes ht)
  have hopen1 : m.OpenAt t.row t.column := hopen
  have hdn1 : t.distance ≤ (s.nodes.length : Int) := hdn
  have hd2 : 1 ≤ t.distance := hd1
  have hrp : 0 < m.rows := by have := hopen1.1; omega
  have hcp : 0 < m.columns := by have := hopen1.2.1; omega
  have hf : Fits m :=
    ⟨le_trans (Nat.le_mul_of_pos_right _ hcp) hsz, le_trans (Nat.le_mul_of_pos_left _ hrp) hsz⟩
  have hdb : -1 ≤ d.1 ∧ d.1 ≤ 1 ∧ -1 ≤ d.2 ∧ d.2 ≤ 1 := by
    simp only [offsets, List.mem_cons, List.mem_singleton, List.not_mem_nil, or_false] at hd
    rcases hd with rfl | rfl | rfl | rfl <;> simp
  have haddr : addInt (toInt t.row) d.1 = .ok ((t.row : Int) + d.1) := by
    have := hopen1.1
    have := hf.1
    unfold addInt INT_MIN INT_MAX
    rw [toInt_of_le (by omega), if_pos (by omega)]
  have haddc : addInt (toInt t.column) d.2 = .ok ((t.column : Int) + d.2) := by
    have := hopen1.2.1
    have := hf.2
    unfold addInt INT_MIN INT_MAX
    rw [toInt_of_le (by omega), if_pos (by omega)]
  obtain ⟨b, hb⟩ := validPoint_total hwf hf ((t.row : Int) + d.1) ((t.column : Int) + d.2)
  unfold visitNeighbor
  simp only [getNode, ht, haddr, haddc, hb]
  cases b with
  | false => exact ⟨s, rfl⟩
  | true =>
    obtain ⟨v0, v1, v2, v3, _⟩ := validPoint_true hb
    have hin : ((t.row : Int) + d.1).toNat < m.rows ∧
        ((t.column : Int) + d.2).toNat < m.columns := by
      have := toInt_le m.rows
      have := toInt_le m.columns
      constructor <;> omega
    simp only [readVisited, if_pos hin]
    cases hvis : s.visited ((t.row : Int) + d.1).toNat ((t.column : Int) + d.2).toNat with
    | true => exact ⟨s, rfl⟩
    | false =>
      have hlt := Core_length_lt hm.core hin.1 hin.2 hvis
      have haddd : addInt t.distance 1 = .ok (t.distance + 1) := by
        unfold addInt INT_MIN INT_MAX
        rw [if_pos (by omega)]
      simp only [setVisited, if_pos hin, haddd]
      exact pushNode_total (k := k + 1) hm.queue hlt

theorem visitNeighbors_total {m : Maze} {sr sc : Nat} {k : Nat} (hwf : m.WF)
    (hsz : m.rows * m.columns ≤ 2147483647) :
    ∀ (ds0 : List (Int × Int)) (s : Search) (ds : List (Int × Int)),
      (∀ d ∈ ds0, d ∈ offsets) → Mid m sr sc s k ds →
      ∃ s1, visitNeighbors m k s ds0 = .ok s1 := by
  intro ds0
  induction ds0 with
  | nil => intro s ds _ _; exact ⟨s, rfl⟩
  | cons d ds0 ih =>
    intro s ds hsub hm
    have hd := hsub d (List.mem_cons_self _ _)
    obtain ⟨s2, hs2⟩ := visitNeighbor_total hwf hsz hm hd
    obtain ⟨s1, hs1⟩ := ih s2 (d :: ds) (fun x hx => hsub x (List.mem_cons_of_mem _ hx))
      (Mid_visitNeighbor hm hd hs2)
    exact ⟨s1, by simp only [visitNeighbors, hs2, hs1]⟩

theorem bfsLoop_total {m : Maze} {sr sc : Nat} (hwf : m.WF)
    (hsz : m.rows * m.columns ≤ 2147483647) :
    ∀ (fuel : Nat) (s : Search) (k : Nat), Head m sr sc s k →
      m.rows * m.columns < fuel + k → ∃ r, bfsLoop m fuel s = .ok r := by
  intro fuel
  induction fuel with
  | zero =>
    intro s k hh hlt
    have := Core_length_le hh.core
    have := hh.kle
    omega
  | succ fuel ih =>
    intro s k hh hlt
    simp only [bfsLoop]
    split
    · exact ⟨_, rfl⟩
    · rename_i hemp
      have hne : List.range' k (s.nodes.length - k) ≠ [] :=
        fun e => hemp ((isEmpty_rep hh.queue).mpr e)
      have hpos : 0 < s.nodes.length - k := by
        rcases Nat.eq_zero_or_pos (s.nodes.length - k) with h0 | h0
        · exact absurd (List.range'_eq_nil.mpr h0) hne
        · exact h0
      have hcons : List.range' k (s.nodes.length - k) =
          k :: List.range' (k + 1) (s.nodes.length - (k + 1)) := by
        have e : s.nodes.length - k = (s.nodes.length - (k + 1)) + 1 := by omega
        rw [e, List.range'_succ]
      have hq := hh.queue
      rw [hcons] at hq
      obtain ⟨q1, hde, hq1, _⟩ := deQueue_rep hq
      have hklt : k < s.nodes.length := by omega
      obtain ⟨cur, hcur⟩ : ∃ t, s.nodes[k]? = some t := exists_getElem? hklt
      have hinfo : s.info[k]? = some cur.payload := info_of_nodes hcur
      simp only [hde, getNode, hcur]
      split
      · exact ⟨_, rfl⟩
      · rename_i hgoal
        have hmid : Mid m sr sc { s with queue := q1 } k [] := by
          refine ⟨Core_queue q1 hh.core, hq1, hklt, hh.bound, hh.done, ?_, ?_⟩
          · intro t ht
            have ht1 : s.info[k]? = some t := ht
            rw [hinfo] at ht1
            injection ht1 with ht1
            subst ht1
            exact hgoal
          · intro _ t _ d hd
            cases hd
        obtain ⟨s2, hs2⟩ := visitNeighbors_total hwf hsz offsets _ [] (fun d hd => hd) hmid
        have hm2 := Mid_visitNeighbors offsets _ s2 [] (fun d hd => hd) hmid hs2
        have hh2 : Head m sr sc s2 (k + 1) := Head_of_Mid hm2 (fun d hd => by simp [hd])
        obtain ⟨r, hr⟩ := ih s2 (k + 1) hh2 (by omega)
        exact ⟨r, by simp only [hs2, hr]⟩

theorem initSearch_total {m : Maze} {sr sc : Nat} (hsr : sr < m.rows)
    (hsc : sc < m.columns) : ∃ s0, initSearch m sr sc = .ok s0 := by
  have hin : sr < m.rows ∧ sc < m.columns := ⟨hsr, hsc⟩
  have hpos : 0 < m.rows * m.columns := Nat.mul_pos (by omega) (by omega)
  unfold initSearch
  simp only [setVisited, if_pos hin]
  exact pushNode_total (k := 0)
    (s := { nodes := [], visited := _, queue := createQueue }) (QueueRep_create []) hpos

theorem search_total {m : Maze} {sr sc fuel : Nat} (opt : Bool) (hwf : m.WF)
    (hsz : m.rows * m.columns ≤ 2147483647) (hsr : sr < m.rows) (hsc : sc < m.columns)
    (hstart : m.array sr sc = some '0') (hfuel : m.rows * m.columns < fuel) :
    ∃ r, search fuel m sr sc opt = .ok r := by
  obtain ⟨s0, hs0⟩ := initSearch_total hsr hsc
  obtain ⟨hh, _, _⟩ := Head_init hstart hs0
  obtain ⟨⟨s1, found⟩, hloop⟩ := bfsLoop_total hwf hsz fuel s0 0 hh (by omega)
  obtain ⟨hc, k, _, _, hg⟩ := bfsLoop_final fuel s0 0 hh hloop
  unfold search
  simp only [hs0, hloop]
  cases found with
  | none => exact ⟨_, rfl⟩
  | some g =>
    obtain ⟨_, tg, htg, _⟩ := hg g rfl
    obtain ⟨cur, hcur, _⟩ := nodes_of_info htg
    simp only [getNode, hcur]
    cases opt with
    | false => exact ⟨_, rfl⟩
    | true =>
      have hf : sr ≤ 2147483647 ∧ sc ≤ 2147483647 := by
        have h1 : m.rows ≤ m.rows * m.columns := Nat.le_mul_of_pos_right _ (by omega)
        have h2 : m.columns ≤ m.rows * m.columns := Nat.le_mul_of_pos_left _ (by omega)
        constructor <;> omega
      obtain ⟨L, _, _, _, _, _, l6, l7⟩ := chain_path hc g tg htg (fun _ => hf)
      have lmark : markPath s1.nodes s1.nodes.length m (some g) = .ok (markCells m L) := by
        refine l7 _ m (info_lt htg) ?_
        intro x hx
        obtain ⟨j, tj, _, hj, hxj⟩ := l6 x hx
        rw [hxj]
        show (m.array tj.row tj.column).isSome = true
        rw [(hc.cell j tj hj).1.2.2]; rfl
      simp only [if_true, lmark]
      exact ⟨_, rfl⟩

/-! ## The function stepCount -/

theorem fits_of_size {m : Maze} (hr : 0 < m.rows) (hc : 0 < m.columns)
    (hsz : m.rows * m.columns ≤ 2147483647) : Fits m :=
  ⟨le_trans (Nat.le_mul_of_pos_right _ hc) hsz, le_trans (Nat.le_mul_of_pos_left _ hr) hsz⟩

theorem readCell_ok {m : Maze} {r c : Nat} {ch : Char} (h : readCell m r c = .ok ch) :
    m.array r c = some ch := by
  unfold readCell at h
  split at h
  · rename_i x hx; injection h with h; rw [hx, h]
  · cases h

theorem IsPath_start_open {m : Maze} {a b : Nat × Nat} {q : List (Nat × Nat)}
    (h : IsPath m a b q) : m.array a.1 a.2 = some '0' :=
  (h.2.2.1 a (List.mem_of_mem_head? h.1)).2.2

theorem IsPath_goal_open {m : Maze} {a b : Nat × Nat} {q : List (Nat × Nat)}
    (h : IsPath m a b q) : m.array b.1 b.2 = some '0' :=
  (h.2.2.1 b (List.mem_of_mem_getLast? h.2.1)).2.2

theorem stepCountFuel_correct {m : Maze} {sr sc fuel : Nat} {opt : Bool} {d : Int}
    {m1 : Maze} (hwf : m.WF) (hsr : sr < m.rows) (hsc : sc < m.columns)
    (h : stepCountFuel fuel m sr sc opt = .ok (d, m1)) :
    (d = 0 ∧ m1 = m ∧ ∀ q, ¬ IsPath m (sr, sc) (m.rows - 1, m.columns - 1) q) ∨
      (d = 0 ∧ m1 = m ∧
        (Fits m → ∀ q, ¬ IsPath m (sr, sc) (m.rows - 1, m.columns - 1) q)) ∨
      (∃ L : List (Nat × Nat), (L.length : Int) = d ∧
        IsPath m (sr, sc) (m.rows - 1, m.columns - 1) L ∧ L.Nodup ∧
        m1 = (if opt = true then markCells m L else m) ∧
        (Fits m → ∀ q, IsPath m (sr, sc) (m.rows - 1, m.columns - 1) q →
          L.length ≤ q.length)) := by
  have hr : 1 ≤ m.rows := by omega
  have hcl : 1 ≤ m.columns := by omega
  have e1 : pred64 m.rows = m.rows - 1 := pred64_eq hr hwf.1
  have e2 : pred64 m.columns = m.columns - 1 := pred64_eq hcl hwf.2.1
  unfold stepCountFuel at h
  split at h
  · cases h
  · rename_i startCell hstart
    have hstart1 := readCell_ok hstart
    split at h
    · rename_i hne
      obtain ⟨h1, h2⟩ := Prod.mk.inj (Except.ok.inj h)
      refine Or.inl ⟨h1.symm, h2.symm, ?_⟩
      intro q hq
      have := IsPath_start_open hq
      rw [hstart1] at this
      exact hne (Option.some.inj this)
    · rename_i heq
      have hs0 : startCell = '0' := not_not.mp heq
      rw [hs0] at hstart1
      split at h
      · cases h
      · rename_i goalCell hgoal
        have hgoal1 := readCell_ok hgoal
        rw [e1, e2] at hgoal1
        split at h
        · rename_i hne
          obtain ⟨h1, h2⟩ := Prod.mk.inj (Except.ok.inj h)
          refine Or.inl ⟨h1.symm, h2.symm, ?_⟩
          intro q hq
          have := IsPath_goal_open hq
          rw [hgoal1] at this
          exact hne (Option.some.inj this)
        · exact Or.inr (search_correct hwf hr hcl hstart1 h).2.2

theorem stepCountFuel_total {m : Maze} {sr sc fuel : Nat} (opt : Bool) (hwf : m.WF)
    (hsz : m.rows * m.columns ≤ 2147483647) (hsr : sr < m.rows) (hsc : sc < m.columns)
    (hfuel : m.rows * m.columns < fuel) :
    ∃ r, stepCountFuel fuel m sr sc opt = .ok r := by
  have hr : 1 ≤ m.rows := by omega
  have hcl : 1 ≤ m.columns := by omega
  have e1 : pred64 m.rows = m.rows - 1 := pred64_eq hr hwf.1
  have e2 : pred64 m.columns = m.columns - 1 := pred64_eq hcl hwf.2.1
  obtain ⟨a, ha⟩ := Option.isSome_iff_exists.mp (hwf.2.2 sr hsr sc hsc)
  obtain ⟨b, hb⟩ := Option.isSome_iff_exists.mp
    (hwf.2.2 (m.rows - 1) (by omega) (m.columns - 1) (by omega))
  unfold stepCountFuel
  simp only [readCell, ha, e1, e2, hb]
  split
  · exact ⟨_, rfl⟩
  · rename_i heq
    have ha0 : a = '0' := not_not.mp heq
    split
    · exact ⟨_, rfl⟩
    · exact search_total opt hwf hsz hsr hsc (by rw [ha, ha0]) hfuel

/-- The call `stepCount` returns normally on every well-formed grid whose
number of cells fits an `int`, for every in-range start: no fault occurs and
the bound `rows * columns + 1` on the loop iterations is never reached. -/
theorem stepCount_total (m : Maze) (sr sc : Nat) (opt : Bool) (hwf : m.WF)
    (hsz : m.rows * m.columns ≤ 2147483647) (hsr : sr < m.rows) (hsc : sc < m.columns) :
    ∃ d m1, stepCount m sr sc opt = .ok (d, m1) := by
  obtain ⟨⟨d, m1⟩, h⟩ := @stepCountFuel_total m sr sc (m.rows * m.columns + 1) opt hwf hsz
    hsr hsc (Nat.lt_succ_self _)
  exact ⟨d, m1, h⟩

/-! ## The contract of stepCount -/

/-- C1 as stated fails: on the well-formed grid of `2^31` rows and one column
with every cell open, started at `(2^31 - 2, 0)`, a two-cell open path leads
to the goal `(2^31 - 1, 0)`, yet `stepCount` returns 0: `(int)rows` is
negative, so `validPoint` rejects every neighbour. -/
theorem stepCount_tallMaze_misses_path :
    tallMaze.WF ∧ 1 ≤ tallMaze.rows ∧ 1 ≤ tallMaze.columns ∧
      2147483646 < tallMaze.rows ∧ 0 < tallMaze.columns ∧
      IsPath tallMaze (2147483646, 0) (tallMaze.rows - 1, tallMaze.columns - 1)
        [(2147483646, 0), (2147483647, 0)] ∧
      stepCount tallMaze 2147483646 0 false = .ok (0, tallMaze) := by
  refine ⟨⟨by decide, by decide, ?_⟩, by decide, by decide, by decide, by decide,
    by decide, rfl⟩
  intro r hr c hc
  have h : r < 2147483648 ∧ c < 1 := ⟨hr, hc⟩
  simp only [tallMaze, if_pos h]
  rfl

/-- C1 (amended): for every well-formed grid whose number of cells
`rows * columns` is at most `INT_MAX` and every in-range start, if some
4-directionally connected sequence of open cells leads from the start to the
goal `(rows-1, columns-1)`, then `stepCount` returns exactly the number of
cells of a shortest such sequence: the call returns `L.length` for an open
path `L` from start to goal, and no open path from start to goal has fewer
cells. -/
theorem stepCount_shortest (m : Maze) (sRow sColumn : Nat) (optimalPath : Bool)
    (p : List (Nat × Nat)) (hwf : m.WF) (hsz : m.rows * m.columns ≤ 2147483647)
    (hsr : sRow < m.rows) (hsc : sColumn < m.columns)
    (hp : IsPath m (sRow, sColumn) (m.rows - 1, m.columns - 1) p) :
    ∃ (m1 : Maze) (L : List (Nat × Nat)),
      stepCount m sRow sColumn optimalPath = .ok ((L.length : Int), m1) ∧
      IsPath m (sRow, sColumn) (m.rows - 1, m.columns - 1) L ∧
      ∀ q, IsPath m (sRow, sColumn) (m.rows - 1, m.columns - 1) q → L.length ≤ q.length := by
  obtain ⟨d, m1, h⟩ := stepCount_total m sRow sColumn optimalPath hwf hsz hsr hsc
  have hf : Fits m := fits_of_size (by omega) (by omega) hsz
  rcases stepCountFuel_correct hwf hsr hsc h with ⟨_, _, hno⟩ | ⟨_, _, hno⟩ |
    ⟨L, hL, hpath, _, _, hshort⟩
  · exact absurd hp (hno p)
  · exact absurd hp (hno hf p)
  · refine ⟨m1, L, ?_, hpath, hshort hf⟩
    rw [hL]; exact h

/-- Witness for `stepCount_shortest`: the grid 001 / 101 / 000 from (0, 0). -/
theorem stepCount_shortest_witness :
    ∃ (m1 : Maze) (L : List (Nat × Nat)),
      stepCount demoMaze 0 0 false = .ok ((L.length : Int), m1) ∧
      IsPath demoMaze (0, 0) (demoMaze.rows - 1, demoMaze.columns - 1) L ∧
      ∀ q, IsPath demoMaze (0, 0) (demoMaze.rows - 1, demoMaze.columns - 1) q →
        L.length ≤ q.length :=
  stepCount_shortest demoMaze 0 0 false [(0, 0), (0, 1), (1, 1), (2, 1), (2, 2)]
    (by decide) (by decide) (by decide) (by decide) (by decide)

/-- C2 as stated fails: on the well-formed grid of one row and `2^31` columns
with every cell open, started at `(0, 2^31 - 2)`, `stepCount` returns 0
although an open path from the start to the goal exists. -/
theorem stepCount_wideMaze_zero_with_path :
    wideMaze.WF ∧ 0 < wideMaze.rows ∧ 2147483646 < wideMaze.columns ∧
      stepCount wideMaze 0 2147483646 true = .ok (0, wideMaze) ∧
      ∃ p, IsPath wideMaze (0, 2147483646) (wideMaze.rows - 1, wideMaze.columns - 1) p := by
  refine ⟨⟨by decide, by decide, ?_⟩, by decide, by decide, rfl,
    [(0, 2147483646), (0, 2147483647)], by decide⟩
  intro r hr c hc
  have h : r < 1 ∧ c < 2147483648 := ⟨hr, hc⟩
  simp only [wideMaze, if_pos h]
  rfl

/-- C2 (amended): for every well-formed grid whose number of cells
`rows * columns` is at most `INT_MAX` and every in-range start, `stepCount`
returns 0 if and only if there is no 4-directionally connected path of open
cells from the start to the goal `(rows-1, columns-1)` (in particular when
the start or the goal cell is not open); in every other case the returned
value is at least 1. -/
theorem stepCount_zero_iff (m : Maze) (sRow sColumn : Nat) (optimalPath : Bool)
    (hwf : m.WF) (hsz : m.rows * m.columns ≤ 2147483647)
    (hsr : sRow < m.rows) (hsc : sColumn < m.columns) :
    ∃ (d : Int) (m1 : Maze), stepCount m sRow sColumn optimalPath = .ok (d, m1) ∧
      (d = 0 ↔ ¬ ∃ p, IsPath m (sRow, sColumn) (m.rows - 1, m.columns - 1) p) ∧
      (d ≠ 0 → 1 ≤ d) := by
  obtain ⟨d, m1, h⟩ := stepCount_total m sRow sColumn optimalPath hwf hsz hsr hsc
  have hf : Fits m := fits_of_size (by omega) (by omega) hsz
  refine ⟨d, m1, h, ?_⟩
  rcases stepCountFuel_correct hwf hsr hsc h with ⟨hd, _, hno⟩ | ⟨hd, _, hno⟩ |
    ⟨L, hL, hpath, _, _, _⟩
  · exact ⟨⟨fun _ ⟨p, hp⟩ => hno p hp, fun _ => hd⟩, fun hne => absurd hd hne⟩
  · exact ⟨⟨fun _ ⟨p, hp⟩ => hno hf p hp, fun _ => hd⟩, fun hne => absurd hd hne⟩
  · have hpos : 0 < L.length := by
      cases L with
      | nil => exact absurd hpath.1 (by simp)
      | cons x xs => simp
    refine ⟨⟨fun h0 => ?_, fun hno => absurd ⟨L, hpath⟩ hno⟩, fun _ => by omega⟩
    omega

/-- Witness for `stepCount_zero_iff`: the grid 001 / 101 / 000 from (0, 0). -/
theorem stepCount_zero_iff_witness :
    ∃ (d : Int) (m1 : Maze), stepCount demoMaze 0 0 true = .ok (d, m1) ∧
      (d = 0 ↔ ¬ ∃ p, IsPath demoMaze (0, 0) (demoMaze.rows - 1, demoMaze.columns - 1) p) ∧
      (d ≠ 0 → 1 ≤ d) :=
  stepCount_zero_iff demoMaze 0 0 true (by decide) (by decide) (by decide) (by decide)

theorem markCells_array (m : Maze) (L : List (Nat × Nat)) (r c : Nat) :
    (markCells m L).array r c = if (r, c) ∈ L then some '+' else m.array r c := rfl

/-- C3: for every well-formed grid and in-range start for which `stepCount`
with `optimalPath = true` returns `d > 0`, the cells that the call changed to
the path mark are exactly the members of a list `L` of `d` pairwise distinct
coordinates that begins at the start, ends at the goal `(rows-1, columns-1)`,
has every consecutive pair adjacent (differing by exactly 1 in exactly one
axis), and whose cells were all `0` before the call; every other cell keeps
its value. -/
theorem stepCount_marks_path (m : Maze) (sRow sColumn : Nat) (d : Int) (m1 : Maze)
    (hwf : m.WF) (hsr : sRow < m.rows) (hsc : sColumn < m.columns)
    (h : stepCount m sRow sColumn true = .ok (d, m1)) (hd : 0 < d) :
    ∃ L : List (Nat × Nat), (L.length : Int) = d ∧ L.Nodup ∧
      L.head? = some (sRow, sColumn) ∧ L.getLast? = some (m.rows - 1, m.columns - 1) ∧
      L.Chain' Adj ∧ (∀ x ∈ L, m.array x.1 x.2 = some '0') ∧
      (∀ r c, (m1.array r c = some '+' ∧ m1.array r c ≠ m.array r c) ↔ (r, c) ∈ L) ∧
      (∀ r c, (r, c) ∉ L → m1.array r c = m.array r c) := by
  rcases stepCountFuel_correct hwf hsr hsc h with ⟨h0, _, _⟩ | ⟨h0, _, _⟩ |
    ⟨L, hL, hpath, hnd, hm1, _⟩
  · omega
  · omega
  · have hm2 : m1 = markCells m L := by simpa using hm1
    have hopen : ∀ x ∈ L, m.array x.1 x.2 = some '0' := fun x hx => (hpath.2.2.1 x hx).2.2
    refine ⟨L, hL, hnd, hpath.1, hpath.2.1, hpath.2.2.2, hopen, ?_, ?_⟩
    · intro r c
      rw [hm2, markCells_array]
      constructor
      · intro hch
        by_contra hn
        rw [if_neg hn] at hch
        exact hch.2 rfl
      · intro hin
        rw [if_pos hin]
        refine ⟨rfl, ?_⟩
        rw [hopen (r, c) hin]
        decide
    · intro r c hn
      rw [hm2, markCells_array, if_neg hn]

/-- Witness for `stepCount_marks_path`: the grid 001 / 101 / 000 from (0, 0),
where the call returns 5. -/
theorem stepCount_marks_path_witness :
    ∃ L : List (Nat × Nat), (L.length : Int) = 5 ∧ L.Nodup ∧
      L.head? = some (0, 0) ∧ L.getLast? = some (demoMaze.rows - 1, demoMaze.columns - 1) ∧
      L.Chain' Adj ∧ (∀ x ∈ L, demoMaze.array x.1 x.2 = some '0') ∧
      (∀ r c, (demoMarked.array r c = some '+' ∧
          demoMarked.array r c ≠ demoMaze.array r c) ↔ (r, c) ∈ L) ∧
      (∀ r c, (r, c) ∉ L → demoMarked.array r c = demoMaze.array r c) :=
  stepCount_marks_path demoMaze 0 0 5 demoMarked
    (by decide) (by decide) (by decide) rfl (by decide)

/-- C4: the effect of `stepCount` on the grid is limited to path annotation.
For every well-formed grid and in-range start: with `optimalPath = false` the
grid after the call equals the grid before; with `optimalPath = true` the
dimensions are unchanged, a result of 0 leaves the grid entirely unchanged, no
cell holding `1` is overwritten, and every cell that is not on the
reconstructed start-to-goal path (a list of as many cells as the returned
distance) keeps its value.  The call does return when the number of cells
fits an `int`. -/
theorem stepCount_frame (m : Maze) (sRow sColumn : Nat) (hwf : m.WF)
    (hsr : sRow < m.rows) (hsc : sColumn < m.columns) :
    (∀ d m1, stepCount m sRow sColumn false = .ok (d, m1) → m1 = m) ∧
    (∀ d m1, stepCount m sRow sColumn true = .ok (d, m1) →
      m1.rows = m.rows ∧ m1.columns = m.columns ∧ (d = 0 → m1 = m) ∧
      (∀ r c, m.array r c = some '1' → m1.array r c = some '1') ∧
      ∃ L : List (Nat × Nat), (L.length : Int) = d ∧
        (L = [] ∨ IsPath m (sRow, sColumn) (m.rows - 1, m.columns - 1) L) ∧
        ∀ r c, (r, c) ∉ L → m1.array r c = m.array r c) ∧
    (m.rows * m.columns ≤ 2147483647 →
      ∀ opt, ∃ d m1, stepCount m sRow sColumn opt = .ok (d, m1)) := by
  refine ⟨?_, ?_, fun hsz opt => stepCount_total m sRow sColumn opt hwf hsz hsr hsc⟩
  · intro d m1 h
    rcases stepCountFuel_correct hwf hsr hsc h with ⟨_, h1, _⟩ | ⟨_, h1, _⟩ |
      ⟨L, _, _, _, hm1, _⟩
    · exact h1
    · exact h1
    · simpa using hm1
  · intro d m1 h
    rcases stepCountFuel_correct hwf hsr hsc h with ⟨h0, h1, _⟩ | ⟨h0, h1, _⟩ |
      ⟨L, hL, hpath, _, hm1, _⟩
    · subst h1
      exact ⟨rfl, rfl, fun _ => rfl, fun _ _ h => h, [], by simp [h0], Or.inl rfl,
        fun _ _ _ => rfl⟩
    · subst h1
      exact ⟨rfl, rfl, fun _ => rfl, fun _ _ h => h, [], by simp [h0], Or.inl rfl,
        fun _ _ _ => rfl⟩
    · have hm2 : m1 = markCells m L := by simpa using hm1
      subst hm2
      have hpos : 0 < L.length := by
        cases L with
        | nil => exact absurd hpath.1 (by simp)
        | cons x xs => simp
      refine ⟨rfl, rfl, fun h0 => ?_, ?_, L, hL, Or.inr hpath, ?_⟩
      · omega
      · intro r c h1
        rw [markCells_array]
        by_cases hin : (r, c) ∈ L
        · have := (hpath.2.2.1 (r, c) hin).2.2
          rw [h1] at this
          exact absurd this (by decide)
        · rw [if_neg hin]; exact h1
      · intro r c hn
        rw [markCells_array, if_neg hn]

/-- Witness for `stepCount_frame`: the grid 001 / 101 / 000 from (0, 0). -/
theorem stepCount_frame_witness :
    (∀ d m1, stepCount demoMaze 0 0 false = .ok (d, m1) → m1 = demoMaze) ∧
    (∀ d m1, stepCount demoMaze 0 0 true = .ok (d, m1) →
      m1.rows = demoMaze.rows ∧ m1.columns = demoMaze.columns ∧ (d = 0 → m1 = demoMaze) ∧
      (∀ r c, demoMaze.array r c = some '1' → m1.array r c = some '1') ∧
      ∃ L : List (Nat × Nat), (L.length : Int) = d ∧
        (L = [] ∨ IsPath demoMaze (0, 0) (demoMaze.rows - 1, demoMaze.columns - 1) L) ∧
        ∀ r c, (r, c) ∉ L → m1.array r c = demoMaze.array r c) ∧
    (demoMaze.rows * demoMaze.columns ≤ 2147483647 →
      ∀ opt, ∃ d m1, stepCount demoMaze 0 0 opt = .ok (d, m1)) :=
  stepCount_frame demoMaze 0 0 (by decide) (by decide) (by decide)

/-! ## Concrete scenarios -/

theorem stepCount_unbacked {m : Maze} {sr sc fuel : Nat} {opt : Bool} (d : Int) (m1 : Maze)
    (hwf : m.WF) (hsr : sr < m.rows) (hsc : sc < m.columns)
    (h : stepCountFuel fuel m sr sc opt = .ok (d, m1)) :
    ∀ r c, m.array r c = none → m1.array r c = none := by
  intro r c hn
  rcases stepCountFuel_correct hwf hsr hsc h with ⟨_, h1, _⟩ | ⟨_, h1, _⟩ |
    ⟨L, _, hpath, _, hm1, _⟩
  · rw [h1]; exact hn
  · rw [h1]; exact hn
  · have hnot : (r, c) ∉ L := by
      intro hin
      have := (hpath.2.2.1 (r, c) hin).2.2
      rw [hn] at this
      cases this
    rw [hm1]
    split
    · rw [markCells_array, if_neg hnot]; exact hn
    · exact hn

theorem demoMaze_outside : ∀ r c, ¬ (r < 3 ∧ c < 3) → demoMaze.array r c = none := by
  intro r c h
  match r, c, h with
  | 0, 0, h | 0, 1, h | 0, 2, h | 1, 0, h | 1, 1, h | 1, 2, h | 2, 0, h | 2, 1, h
  | 2, 2, h => exact absurd (by decide) h
  | 0, c + 3, _ | 1, c + 3, _ | 2, c + 3, _ => rfl
  | r + 3, _, _ => rfl

theorem openMaze2_outside : ∀ r c, ¬ (r < 2 ∧ c < 2) → openMaze2.array r c = none := by
  intro r c h
  match r, c, h with
  | 0, 0, h | 0, 1, h | 1, 0, h | 1, 1, h => exact absurd (by decide) h
  | 0, c + 2, _ | 1, c + 2, _ => rfl
  | r + 2, _, _ => rfl

/-- C14: on the 3x3 grid with rows 001, 101, 000, `stepCount` from (0, 0) with
`optimalPath = true` returns 5 and marks exactly the cells (0,0), (0,1),
(1,1), (2,1), (2,2): these hold the path mark afterwards and every other cell
keeps its value; the dimensions stay 3 x 3. -/
theorem stepCount_demoMaze :
    ∃ m1, stepCount demoMaze 0 0 true = .ok (5, m1) ∧ m1.rows = 3 ∧ m1.columns = 3 ∧
      ∀ r c, m1.array r c =
        if (r, c) ∈ [(0, 0), (0, 1), (1, 1), (2, 1), (2, 2)] then some '+'
        else demoMaze.array r c := by
  refine ⟨demoMarked, rfl, rfl, rfl, ?_⟩
  intro r c
  by_cases h : r < 3 ∧ c < 3
  · obtain ⟨hr, hc⟩ := h
    interval_cases r <;> interval_cases c <;> rfl
  · have h1 := demoMaze_outside r c h
    have h2 := stepCount_unbacked 5 demoMarked (by decide) (by decide) (by decide)
      (rfl : stepCountFuel (demoMaze.rows * demoMaze.columns + 1) demoMaze 0 0 true = _)
      r c h1
    have h3 : (r, c) ∉ [(0, 0), (0, 1), (1, 1), (2, 1), (2, 2)] := by
      intro hin
      simp only [List.mem_cons, Prod.mk.injEq, List.mem_singleton,
        List.not_mem_nil, or_false] at hin
      omega
    rw [h2, if_neg h3, h1]

/-- C15: on the fully open 2x2 grid `stepCount` from (0, 0) returns 3, with or
without the path request; the neighbour order is the fixed list up, left,
right, down, and with `optimalPath = true` the call (a function of its
arguments, so the same on every run) marks exactly the cells (0,0), (0,1),
(1,1): the cell (1,0) stays `0` and every other cell keeps its value. -/
theorem stepCount_openMaze2 :
    offsets = [(-1, 0), (0, -1), (0, 1), (1, 0)] ∧
    stepCount openMaze2 0 0 false = .ok (3, openMaze2) ∧
    ∃ m1, stepCount openMaze2 0 0 true = .ok (3, m1) ∧ m1.rows = 2 ∧ m1.columns = 2 ∧
      m1.array 1 0 = some '0' ∧
      ∀ r c, m1.array r c =
        if (r, c) ∈ [(0, 0), (0, 1), (1, 1)] then some '+' else openMaze2.array r c := by
  refine ⟨rfl, rfl, openMarked2, rfl, rfl, rfl, rfl, ?_⟩
  intro r c
  by_cases h : r < 2 ∧ c < 2
  · obtain ⟨hr, hc⟩ := h
    interval_cases r <;> interval_cases c <;> rfl
  · have h1 := openMaze2_outside r c h
    have h2 := stepCount_unbacked 3 openMarked2 (by decide) (by decide) (by decide)
      (rfl : stepCountFuel (openMaze2.rows * openMaze2.columns + 1) openMaze2 0 0 true = _)
      r c h1
    have h3 : (r, c) ∉ [(0, 0), (0, 1), (1, 1)] := by
      intro hin
      simp only [List.mem_cons, Prod.mk.injEq, List.mem_singleton,
        List.not_mem_nil, or_false] at hin
      omega
    rw [h2, if_neg h3, h1]

/-! ## Start on the goal cell, and repeated calls -/

/-- C16: for every well-formed grid with `rows, columns >= 1` whose goal cell
`(rows-1, columns-1)` is open, `stepCount` started at the goal itself returns
1; without the path request the grid is unchanged, and with
`optimalPath = true` exactly that one cell receives the path mark. -/
theorem stepCount_start_at_goal (m : Maze) (optimalPath : Bool) (hwf : m.WF)
    (hr : 1 ≤ m.rows) (hc : 1 ≤ m.columns)
    (hopen : m.array (m.rows - 1) (m.columns - 1) = some '0') :
    stepCount m (m.rows - 1) (m.columns - 1) optimalPath =
      .ok (1, if optimalPath = true then markCells m [(m.rows - 1, m.columns - 1)] else m) := by
  have e1 : pred64 m.rows = m.rows - 1 := pred64_eq hr hwf.1
  have e2 : pred64 m.columns = m.columns - 1 := pred64_eq hc hwf.2.1
  have hin : m.rows - 1 < m.rows ∧ m.columns - 1 < m.columns := by omega
  have hpos : 0 < m.rows * m.columns := Nat.mul_pos hr hc
  have hinit : initSearch m (m.rows - 1) (m.columns - 1) =
      .ok { nodes := [newNode (m.rows - 1) (m.columns - 1) 1 none],
            visited := markVisited (fun _ _ => false) (m.rows - 1) (m.columns - 1),
            queue := { size := 1, front := some 0, rear := some 0 } } := by
    simp only [initSearch, setVisited, if_pos hin, pushNode, List.length_nil, if_pos hpos,
      createNode, enQueue, createQueue, if_true]
    rfl
  have hloop : bfsLoop m (m.rows * m.columns + 1)
      { nodes := [newNode (m.rows - 1) (m.columns - 1) 1 none],
        visited := markVisited (fun _ _ => false) (m.rows - 1) (m.columns - 1),
        queue := { size := 1, front := some 0, rear := some 0 } } =
      .ok ({ nodes := [newNode (m.rows - 1) (m.columns - 1) 1 none],
             visited := markVisited (fun _ _ => false) (m.rows - 1) (m.columns - 1),
             queue := { size := 0, front := none, rear := none } }, some 0) := by
    simp [bfsLoop, isEmpty, deQueue, getNode, newNode, e1, e2]
  have hmark : markPath [newNode (m.rows - 1) (m.columns - 1) 1 none] 1 m (some 0) =
      .ok (markCells m [(m.rows - 1, m.columns - 1)]) := by
    have hn : ([newNode (m.rows - 1) (m.columns - 1) 1 none] : Heap)[0]? =
        some (newNode (m.rows - 1) (m.columns - 1) 1 none) := rfl
    rw [markPath_step hn (by show (m.array (m.rows - 1) (m.columns - 1)).isSome = true
                             rw [hopen]; rfl)]
    show markPath _ 0 _ none = _
    rw [markPath_none]
    exact congrArg Except.ok (markCells_snoc m [] (m.rows - 1) (m.columns - 1) ▸ rfl)
  unfold stepCount stepCountFuel
  simp only [readCell, hopen, e1, e2, ne_eq, not_true_eq_false, if_false, search, hinit, hloop,
    getNode]
  cases optimalPath with
  | false => rfl
  | true =>
    simp only [if_true]
    rw [show ([newNode (m.rows - 1) (m.columns - 1) 1 none] : Heap).length = 1 from rfl, hmark]
    rfl

/-- Witness for `stepCount_start_at_goal`: the 1x1 grid with its single cell
open, start (0, 0), gives distance 1 and the one-cell path [(0, 0)]. -/
theorem stepCount_start_at_goal_witness :
    stepCount (Maze.ofRows [['0']]) ((Maze.ofRows [['0']]).rows - 1)
        ((Maze.ofRows [['0']]).columns - 1) true =
      .ok (1, if true = true then
        markCells (Maze.ofRows [['0']])
          [((Maze.ofRows [['0']]).rows - 1, (Maze.ofRows [['0']]).columns - 1)]
        else Maze.ofRows [['0']]) :=
  stepCount_start_at_goal (Maze.ofRows [['0']]) true (by decide) (by decide) (by decide)
    (by decide)

theorem search_false_grid {fuel : Nat} {m m1 : Maze} {sr sc : Nat} {d : Int}
    (h : search fuel m sr sc false = .ok (d, m1)) : m1 = m := by
  unfold search at h
  split at h
  · cases h
  · split at h
    · cases h
    · exact (Prod.mk.inj (Except.ok.inj h)).2.symm
    · split at h
      · cases h
      · simp only [Bool.false_eq_true, if_false] at h
        exact (Prod.mk.inj (Except.ok.inj h)).2.symm

theorem stepCountFuel_false_grid {fuel : Nat} {m m1 : Maze} {sr sc : Nat} {d : Int}
    (h : stepCountFuel fuel m sr sc false = .ok (d, m1)) : m1 = m := by
  unfold stepCountFuel at h
  split at h
  · cases h
  · split at h
    · exact (Prod.mk.inj (Except.ok.inj h)).2.symm
    · split at h
      · cases h
      · split at h
        · exact (Prod.mk.inj (Except.ok.inj h)).2.symm
        · exact search_false_grid h

/-- C17: idempotence.  Whenever `stepCount` with `optimalPath = false` returns
a distance `d` (on any grid, from any start), the grid it leaves is the grid
it was given, and the same call repeated on that grid returns the same
distance `d`; on a well-formed grid whose number of cells fits an `int` and
with an in-range start, the first call does return. -/
theorem stepCount_idempotent (m : Maze) (sRow sColumn : Nat) :
    (∀ d m1, stepCount m sRow sColumn false = .ok (d, m1) →
      m1 = m ∧ stepCount m1 sRow sColumn false = .ok (d, m1)) ∧
    (m.WF → m.rows * m.columns ≤ 2147483647 → sRow < m.rows → sColumn < m.columns →
      ∃ d, stepCount m sRow sColumn false = .ok (d, m)) := by
  constructor
  · intro d m1 h
    have hm : m1 = m := stepCountFuel_false_grid h
    subst hm
    exact ⟨rfl, h⟩
  · intro hwf hsz hsr hsc
    obtain ⟨d, m1, h⟩ := stepCount_total m sRow sColumn false hwf hsz hsr hsc
    have hm : m1 = m := stepCountFuel_false_grid h
    subst hm
    exact ⟨d, h⟩

/-! ## The representation invariant of the queue -/

theorem Linked_last_of_null {heap : Heap} {p : Nat} {t : Node} (hp : heap[p]? = some t)
    (hnull : t.nextQueue = none) {l : List Nat} :
    ∀ {front : Option Nat}, Linked heap front l → p ∈ l → l.getLast? = some p := by
  induction l with
  | nil => intro front _ hmem; cases hmem
  | cons x rest ih =>
    intro front hl hmem
    obtain ⟨_, tx, htx, hrest⟩ := hl
    cases rest with
    | nil =>
      have : p = x := by simpa using hmem
      rw [this]; rfl
    | cons y r =>
      have hy : tx.nextQueue = some y := hrest.1
      rcases List.mem_cons.mp hmem with rfl | hmem
      · rw [hp] at htx
        injection htx with htx
        rw [htx, hy] at hnull
        cases hnull
      · rw [List.getLast?_cons_cons]
        exact ih hrest hmem

theorem enqOk_spec {heap : Heap} {q : Queue} {node : Nat} (h : enqOk heap q node = true) :
    ∃ t, heap[node]? = some t ∧ t.nextQueue = none ∧ (q.size = 0 ∨ q.rear ≠ some node) := by
  unfold enqOk at h
  split at h
  · cases h
  · rename_i t ht
    simp only [Bool.and_eq_true, Bool.or_eq_true, decide_eq_true_eq, Option.isNone_iff_eq_none] at h
    exact ⟨t, ht, h.1, h.2⟩

theorem deQueue_rear {heap : Heap} {q q1 : Queue} {out : Option Nat}
    (h : deQueue heap q = .ok (q1, out)) (h0 : q1.size = 0) : q1.rear = none := by
  unfold deQueue at h
  split at h
  · split at h
    · split at h
      · cases h
      · have hq := (Prod.mk.inj (Except.ok.inj h)).1
        rw [← hq] at h0 ⊢
        have h1 : q.size - 1 = 0 := h0
        simp only [h1, if_true]
    · have hq := (Prod.mk.inj (Except.ok.inj h)).1
      rw [← hq]
  · cases h

theorem admissible_run : ∀ (ops : List QueueOp) (heap : Heap) (q : Queue) (l : List Nat),
    QueueRep heap q l → (q.size = 0 → q.rear = none) → admissible heap q ops = true →
    ∃ heap1 q1 outs l1, runQueue heap q ops = .ok (heap1, q1, outs) ∧
      QueueRep heap1 q1 l1 ∧ (q1.size = 0 → q1.rear = none) ∧
      q1.size + countDeq ops = q.size + (enqueued ops).length := by
  intro ops
  induction ops with
  | nil =>
    intro heap q l hrep hrear _
    exact ⟨heap, q, [], l, rfl, hrep, hrear, rfl⟩
  | cons op ops ih =>
    intro heap q l hrep hrear hadm
    cases op with
    | enq node =>
      simp only [admissible, Bool.and_eq_true] at hadm
      obtain ⟨hok, hrest⟩ := hadm
      obtain ⟨t, ht, hnull, hnotrear⟩ := enqOk_spec hok
      have hnl : node ∉ l := by
        intro hmem
        have hlast := Linked_last_of_null ht hnull hrep.2.2.1 hmem
        have hne : l ≠ [] := List.ne_nil_of_mem hmem
        have hr := hrep.2.2.2 hne
        rw [hlast] at hr
        have hsz : q.size ≠ 0 := by
          rw [hrep.1]
          exact fun h0 => hne (List.length_eq_zero.mp h0)
        rcases hnotrear with h0 | h0
        · exact hsz h0
        · exact h0 hr
      obtain ⟨heap1, q1, hen, hrep1, _, _⟩ := enQueue_rep hrep hnl ht hnull
      rw [hen] at hrest
      have hsz1 : q1.size = q.size + 1 := by
        rw [hrep1.1, hrep.1]; simp
      obtain ⟨heap2, q2, outs, l2, hrun, hrep2, hrear2, hcount⟩ :=
        ih heap1 q1 (l ++ [node]) hrep1 (fun h0 => by omega) hrest
      refine ⟨heap2, q2, outs, l2, ?_, hrep2, hrear2, ?_⟩
      · simp only [runQueue, hen, hrun]
      · simp only [countDeq, enqueued, List.length_cons]
        omega
    | deq =>
      simp only [admissible, Bool.and_eq_true, decide_eq_true_eq] at hadm
      obtain ⟨hpos, hrest⟩ := hadm
      cases l with
      | nil =>
        have := hrep.1
        simp at this
        omega
      | cons p l =>
        obtain ⟨q1, hde, hrep1, hsz1⟩ := deQueue_rep hrep
        rw [hde] at hrest
        obtain ⟨heap2, q2, outs, l2, hrun, hrep2, hrear2, hcount⟩ :=
          ih heap q1 l hrep1 (deQueue_rear hde) hrest
        refine ⟨heap2, q2, some p :: outs, l2, ?_, hrep2, hrear2, ?_⟩
        · simp only [runQueue, hde, hrun]
        · simp only [countDeq, enqueued]
          omega

/-- C20 as stated fails: the calls enq 0, enq 1, deq, enq 0, deq, deq, every
`deQueue` made while `size > 0` and node 0 queued again only after it was
dequeued, end in a state with `size = 0` whose `front` is node 1 (the stale
`nextQueue` link of node 0), so `isEmpty` returns false although `size == 0`. -/
theorem queue_reuse_breaks_isEmpty :
    ∃ heap q, runQueue demoHeap createQueue reuseOps =
        .ok (heap, q, [some 0, some 1, some 0]) ∧
      guarded 0 reuseOps = true ∧
      q.size = 0 ∧ q.front = some 1 ∧ isEmpty q = false :=
  ⟨_, _, rfl, rfl, rfl, rfl, rfl⟩

/-- C20 (amended): in every state reached from `createQueue()` by a sequence of
`enQueue` calls, each on a valid node whose `nextQueue` link is null and which
is not the rear of a non-empty queue at the time of the call (as holds for
freshly created nodes queued once), and `deQueue` calls made while `size > 0`:
the run succeeds, `size` equals the number of enqueues minus the number of
dequeues, `isEmpty` returns true exactly when `size = 0`, `front` is null
exactly when `size = 0`, and `rear` is null whenever `size = 0`. -/
theorem queue_invariant (heap : Heap) (ops : List QueueOp)
    (hadm : admissible heap createQueue ops = true) :
    ∃ heap1 q1 outs, runQueue heap createQueue ops = .ok (heap1, q1, outs) ∧
      q1.size + countDeq ops = (enqueued ops).length ∧
      (isEmpty q1 = true ↔ q1.size = 0) ∧ (q1.front = none ↔ q1.size = 0) ∧
      (q1.size = 0 → q1.rear = none) := by
  obtain ⟨heap1, q1, outs, l1, hrun, hrep, hrear, hcount⟩ :=
    admissible_run ops heap createQueue [] (QueueRep_create heap) (fun _ => rfl) hadm
  have hcount1 : q1.size + countDeq ops = (enqueued ops).length := by
    have h0 : createQueue.size = 0 := rfl
    omega
  have hnil : l1 = [] ↔ q1.size = 0 := by
    rw [hrep.1]; exact List.length_eq_zero.symm
  refine ⟨heap1, q1, outs, hrun, hcount1, ?_, ?_, hrear⟩
  · rw [isEmpty_rep hrep]; exact hnil
  · rw [← hnil]
    cases l1 with
    | nil =>
      have : q1.front = none := hrep.2.2.1
      simp [this]
    | cons p l =>
      have : q1.front = some p := hrep.2.2.1.1
      simp [this]

/-- Witness for `queue_invariant`: three fresh nodes, calls enq 0, enq 1, deq,
enq 2, deq. -/
theorem queue_invariant_witness :
    ∃ heap1 q1 outs, runQueue demoHeap createQueue demoOps = .ok (heap1, q1, outs) ∧
      q1.size + countDeq demoOps = (enqueued demoOps).length ∧
      (isEmpty q1 = true ↔ q1.size = 0) ∧ (q1.front = none ↔ q1.size = 0) ∧
      (q1.size = 0 → q1.rear = none) :=
  queue_invariant demoHeap demoOps (by decide)

/-! ## The invariants hold at every point of an execution -/

theorem Head_deQueue {m : Maze} {sr sc : Nat} {s : Search} {k : Nat} {q : Queue}
    {out : Option Nat} (hh : Head m sr sc s k) (hemp : isEmpty s.queue = false)
    (hde : deQueue s.nodes s.queue = .ok (q, out)) :
    out = some k ∧ k < s.nodes.length ∧ 0 < s.queue.size ∧
      QueueRep s.nodes q (List.range' (k + 1) (s.nodes.length - (k + 1))) := by
  have hne : List.range' k (s.nodes.length - k) ≠ [] := by
    intro e
    have := (isEmpty_rep hh.queue).mpr e
    rw [hemp] at this
    cases this
  have hpos : 0 < s.nodes.length - k := by
    rcases Nat.eq_zero_or_pos (s.nodes.length - k) with h0 | h0
    · exact absurd (List.range'_eq_nil.mpr h0) hne
    · exact h0
  have hcons : List.range' k (s.nodes.length - k) =
      k :: List.range' (k + 1) (s.nodes.length - (k + 1)) := by
    have e : s.nodes.length - k = (s.nodes.length - (k + 1)) + 1 := by omega
    rw [e, List.range'_succ]
  have hq := hh.queue
  rw [hcons] at hq
  obtain ⟨q1, hde1, hq1, hsz⟩ := deQueue_rep hq
  rw [hde] at hde1
  obtain ⟨e1, e2⟩ := Prod.mk.inj (Except.ok.inj hde1)
  rw [e1, e2]
  exact ⟨rfl, by omega, by omega, hq1⟩

theorem Head_deQueue_total {m : Maze} {sr sc : Nat} {s : Search} {k : Nat}
    (hh : Head m sr sc s k) (hemp : isEmpty s.queue = false) :
    ∃ q, deQueue s.nodes s.queue = .ok (q, some k) := by
  cases hd : deQueue s.nodes s.queue with
  | ok r =>
    obtain ⟨q, out⟩ := r
    obtain ⟨hout, _⟩ := Head_deQueue hh hemp hd
    rw [hout]
    exact ⟨q, rfl⟩
  | error e =>
    exfalso
    have hne : List.range' k (s.nodes.length - k) ≠ [] := by
      intro e1
      have := (isEmpty_rep hh.queue).mpr e1
      rw [hemp] at this
      cases this
    cases hl : List.range' k (s.nodes.length - k) with
    | nil => exact hne hl
    | cons p l =>
      have hq := hh.queue
      rw [hl] at hq
      obtain ⟨q1, hde1, _⟩ := deQueue_rep hq
      rw [hd] at hde1
      cases hde1

theorem Mid_of_Head {m : Maze} {sr sc : Nat} {s : Search} {k : Nat} {q : Queue}
    {cur : Nat} {node : Node} (hh : Head m sr sc s k) (hemp : isEmpty s.queue = false)
    (hde : deQueue s.nodes s.queue = .ok (q, some cur))
    (hnode : getNode s.nodes cur = .ok node) (hgoal : ¬ AtGoal m node) :
    cur = k ∧ Mid m sr sc { s with queue := q } k [] := by
  obtain ⟨hout, hklt, _, hq⟩ := Head_deQueue hh hemp hde
  have hcur : cur = k := Option.some.inj hout
  subst hcur
  have hinfo : s.info[cur]? = some node.payload := info_of_nodes (getNode_ok hnode)
  refine ⟨rfl, Core_queue q hh.core, hq, hklt, hh.bound, hh.done, ?_, ?_⟩
  · intro t ht
    have ht1 : s.info[cur]? = some t := ht
    rw [hinfo] at ht1
    injection ht1 with ht1
    subst ht1
    exact hgoal
  · intro _ t _ d hd
    cases hd

theorem LoopHead_Head {m : Maze} {sr sc : Nat} {k : Nat} {s : Search}
    (h : LoopHead m sr sc k s) : Head m sr sc s k := by
  induction h with
  | init hstart => exact (Head_init hstart.1 hstart.2.2).1
  | iter _ hiter ih =>
    obtain ⟨q, cur, ⟨⟨hemp, hde⟩, node, hnode, hgoal⟩, hvisit⟩ := hiter
    obtain ⟨hcur, hmid⟩ := Mid_of_Head ih hemp hde hnode hgoal
    subst hcur
    have hm2 := Mid_visitNeighbors offsets _ _ [] (fun d hd => hd) hmid hvisit
    exact Head_of_Mid hm2 (fun d hd => by simp [hd])

theorem Point_Core {m : Maze} {sr sc : Nat} {s1 : Search} (h : Point m sr sc s1) :
    Core m sr sc s1 ∧ ∃ k, QueueRep s1.nodes s1.queue
      (List.range' k (s1.nodes.length - k)) ∧ k ≤ s1.nodes.length := by
  obtain ⟨k, s, hl, hcase⟩ := h
  have hh := LoopHead_Head hl
  rcases hcase with rfl | ⟨q, cur, ⟨hemp, hde⟩, rfl⟩ |
    ⟨q, cur, ds, rest, ⟨⟨hemp, hde⟩, node, hnode, hgoal⟩, hds, hvisit⟩
  · exact ⟨hh.core, k, hh.queue, hh.kle⟩
  · obtain ⟨_, hklt, _, hq⟩ := Head_deQueue hh hemp hde
    exact ⟨Core_queue _ hh.core, k + 1, hq, hklt⟩
  · obtain ⟨hcur, hmid⟩ := Mid_of_Head hh hemp hde hnode hgoal
    subst hcur
    have hm2 := Mid_visitNeighbors _ _ _ [] (fun d hd => by
      rw [← hds]; exact List.mem_append_left _ hd) hmid hvisit
    exact ⟨hm2.core, cur + 1, hm2.queue, hm2.klt⟩

/-! ## The faults an execution can end in -/

theorem getNode_error {heap : Heap} {p : Nat} {e : Fault} (h : getNode heap p = .error e) :
    e = .outOfBounds := by
  unfold getNode at h
  split at h
  · cases h
  · exact (Except.error.inj h).symm

theorem addInt_error {a b : Int} {e : Fault} (h : addInt a b = .error e) :
    e = .overflow := by
  unfold addInt at h
  split at h
  · cases h
  · exact (Except.error.inj h).symm

theorem validPoint_error {m : Maze} {row col : Int} {e : Fault}
    (h : validPoint m row col = .error e) : e = .outOfBounds := by
  unfold validPoint at h
  split at h
  · cases h
  · split at h
    · exact (Except.error.inj h).symm
    · cases h

theorem readVisited_error {m : Maze} {v : Nat → Nat → Bool} {r c : Nat} {e : Fault}
    (h : readVisited m v r c = .error e) : e = .outOfBounds := by
  unfold readVisited at h
  split at h
  · cases h
  · exact (Except.error.inj h).symm

theorem setVisited_error {m : Maze} {v : Nat → Nat → Bool} {r c : Nat} {e : Fault}
    (h : setVisited m v r c = .error e) : e = .outOfBounds := by
  unfold setVisited at h
  split at h
  · cases h
  · exact (Except.error.inj h).symm

theorem readCell_error {m : Maze} {r c : Nat} {e : Fault}
    (h : readCell m r c = .error e) : e = .outOfBounds := by
  unfold readCell at h
  split at h
  · cases h
  · exact (Except.error.inj h).symm

theorem pushNode_error {m : Maze} {s : Search} {k r c : Nat} {d : Int} {prev : Option Nat}
    {e : Fault} (hq : QueueRep s.nodes s.queue (List.range' k (s.nodes.length - k)))
    (h : pushNode m s r c d prev = .error e) : e = .outOfBounds := by
  by_cases hlt : s.nodes.length < m.rows * m.columns
  · obtain ⟨s1, hs1⟩ := @pushNode_total m s k r c d prev hq hlt
    rw [hs1] at h
    cases h
  · unfold pushNode at h
    rw [if_neg hlt] at h
    exact (Except.error.inj h).symm

theorem visitNeighbor_error {m : Maze} {sr sc : Nat} {s : Search} {k : Nat}
    {ds : List (Int × Int)} {dr dc : Int} {e : Fault} (hm : Mid m sr sc s k ds)
    (h : visitNeighbor m k s dr dc = .error e) : e = .outOfBounds ∨ e = .overflow := by
  unfold visitNeighbor at h
  split at h
  · rename_i e1 h1
    rw [← Except.error.inj h]
    exact Or.inl (getNode_error h1)
  · split at h
    · rename_i e1 h1
      rw [← Except.error.inj h]
      exact Or.inr (addInt_error h1)
    · split at h
      · rename_i e1 h1
        rw [← Except.error.inj h]
        exact Or.inr (addInt_error h1)
      · split at h
        · rename_i e1 h1
          rw [← Except.error.inj h]
          exact Or.inl (validPoint_error h1)
        · cases h
        · split at h
          · rename_i e1 h1
            rw [← Except.error.inj h]
            exact Or.inl (readVisited_error h1)
          · cases h
          · split at h
            · rename_i e1 h1
              rw [← Except.error.inj h]
              exact Or.inl (setVisited_error h1)
            · rename_i visited _
              split at h
              · rename_i e1 h1
                rw [← Except.error.inj h]
                exact Or.inr (addInt_error h1)
              · exact Or.inl (@pushNode_error m
                  { nodes := s.nodes, visited := visited, queue := s.queue } (k + 1)
                  _ _ _ _ e hm.queue h)

theorem visitNeighbors_error {m : Maze} {sr sc : Nat} {k : Nat} {e : Fault} :
    ∀ (ds0 : List (Int × Int)) (s : Search) (ds : List (Int × Int)),
      (∀ d ∈ ds0, d ∈ offsets) → Mid m sr sc s k ds →
      visitNeighbors m k s ds0 = .error e → e = .outOfBounds ∨ e = .overflow := by
  intro ds0
  induction ds0 with
  | nil => intro s ds _ _ h; cases h
  | cons d ds0 ih =>
    intro s ds hsub hm h
    simp only [visitNeighbors] at h
    split at h
    · rename_i e1 h1
      rw [← Except.error.inj h]
      exact visitNeighbor_error hm h1
    · rename_i s2 hs2
      exact ih s2 (d :: ds) (fun x hx => hsub x (List.mem_cons_of_mem _ hx))
        (Mid_visitNeighbor hm (hsub d (List.mem_cons_self _ _)) hs2) h

theorem bfsLoop_error {m : Maze} {sr sc : Nat} {e : Fault} :
    ∀ (fuel : Nat) (s : Search) (k : Nat), Head m sr sc s k →
      m.rows * m.columns < fuel + k → bfsLoop m fuel s = .error e →
      e = .outOfBounds ∨ e = .overflow := by
  intro fuel
  induction fuel with
  | zero =>
    intro s k hh hlt _
    have := Core_length_le hh.core
    have := hh.kle
    omega
  | succ fuel ih =>
    intro s k hh hlt h
    simp only [bfsLoop] at h
    split at h
    · cases h
    · rename_i hemp
      have hemp1 : isEmpty s.queue = false := by
        cases hq : isEmpty s.queue with
        | false => rfl
        | true => exact absurd hq hemp
      obtain ⟨q, hde⟩ := Head_deQueue_total hh hemp1
      rw [hde] at h
      simp only at h
      split at h
      · rename_i e1 h1
        rw [← Except.error.inj h]
        exact Or.inl (getNode_error h1)
      · rename_i node hnode
        split at h
        · cases h
        · rename_i hgoal
          obtain ⟨_, hmid⟩ := Mid_of_Head hh hemp1 hde hnode hgoal
          split at h
          · rename_i e1 h1
            rw [← Except.error.inj h]
            exact visitNeighbors_error offsets _ [] (fun d hd => hd) hmid h1
          · rename_i s2 hs2
            have hm2 := Mid_visitNeighbors offsets _ s2 [] (fun d hd => hd) hmid hs2
            have hh2 : Head m sr sc s2 (k + 1) :=
              Head_of_Mid hm2 (fun d hd => by simp [hd])
            exact ih s2 (k + 1) hh2 (by omega) h

theorem markPath_total {m : Maze} {sr sc : Nat} {s : Search} (hc : Core m sr sc s) :
    ∀ (i : Nat) (t : Node), s.info[i]? = some t → ∀ (fuel : Nat) (m0 : Maze), i < fuel →
      (∀ (j : Nat) (tj : Node), s.info[j]? = some tj →
        (m0.array tj.row tj.column).isSome = true) →
      ∃ m1, markPath s.nodes fuel m0 (some i) = .ok m1 := by
  intro i
  induction i using Nat.strong_induction_on with
  | _ i ih =>
    intro t ht fuel m0 hf hsome
    obtain ⟨t1, hn, hp⟩ := nodes_of_info ht
    have er : t1.row = t.row := by rw [← hp]; rfl
    have ec : t1.column = t.column := by rw [← hp]; rfl
    have ep : t1.previousPath = t.previousPath := by rw [← hp]; rfl
    obtain ⟨f, rfl⟩ : ∃ f, fuel = f + 1 := ⟨fuel - 1, by omega⟩
    have h1 : (m0.array t1.row t1.column).isSome = true := by
      rw [er, ec]; exact hsome i t ht
    rw [markPath_step hn h1, ep]
    rcases Nat.eq_zero_or_pos i with rfl | hpos
    · have hst := hc.start
      rw [ht] at hst
      injection hst with hst
      subst hst
      exact ⟨_, markPath_none _ _ _⟩
    · obtain ⟨_, _, j, tj, hprev, hji, hj, _⟩ := hc.later i t hpos ht
      rw [hprev]
      refine ih j hji tj hj f _ (by omega) ?_
      intro j1 tj1 hj1
      show (if tj1.row = t1.row ∧ tj1.column = t1.column then some '+'
        else m0.array tj1.row tj1.column).isSome = true
      split
      · rfl
      · exact hsome j1 tj1 hj1

theorem initSearch_error {m : Maze} {sr sc : Nat} {e : Fault}
    (h : initSearch m sr sc = .error e) : e = .outOfBounds := by
  unfold initSearch at h
  split at h
  · rename_i e1 h1
    rw [← Except.error.inj h]
    exact setVisited_error h1
  · rename_i visited _
    exact @pushNode_error m { nodes := [], visited := visited, queue := createQueue } 0
      _ _ _ _ e (QueueRep_create []) h

theorem search_error {m : Maze} {sr sc fuel : Nat} {opt : Bool} {e : Fault}
    (hstart : m.array sr sc = some '0') (hfuel : m.rows * m.columns < fuel)
    (h : search fuel m sr sc opt = .error e) : e = .outOfBounds ∨ e = .overflow := by
  unfold search at h
  split at h
  · rename_i e1 h1
    rw [← Except.error.inj h]
    exact Or.inl (initSearch_error h1)
  · rename_i s0 hs0
    obtain ⟨hh, _, _⟩ := Head_init hstart hs0
    split at h
    · rename_i e1 h1
      rw [← Except.error.inj h]
      exact bfsLoop_error fuel s0 0 hh (by omega) h1
    · cases h
    · rename_i s1 g hloop
      obtain ⟨hc, k, _, _, hg⟩ := bfsLoop_final fuel s0 0 hh hloop
      obtain ⟨_, tg, htg, _⟩ := hg g rfl
      split at h
      · rename_i e1 h1
        rw [← Except.error.inj h]
        exact Or.inl (getNode_error h1)
      · split at h
        · split at h
          · rename_i e1 h1
            exfalso
            obtain ⟨m1, hm1⟩ := markPath_total hc g tg htg s1.nodes.length m (info_lt htg)
              (fun j tj hj => by rw [(hc.cell j tj hj).1.2.2]; rfl)
            rw [hm1] at h1
            cases h1
          · cases h
        · cases h

theorem stepCountFuel_error {m : Maze} {sr sc fuel : Nat} {opt : Bool} {e : Fault}
    (hfuel : m.rows * m.columns < fuel)
    (h : stepCountFuel fuel m sr sc opt = .error e) : e = .outOfBounds ∨ e = .overflow := by
  unfold stepCountFuel at h
  split at h
  · rename_i e1 h1
    rw [← Except.error.inj h]
    exact Or.inl (readCell_error h1)
  · rename_i startCell hstart
    split at h
    · cases h
    · rename_i heq
      have hs0 : startCell = '0' := not_not.mp heq
      split at h
      · rename_i e1 h1
        rw [← Except.error.inj h]
        exact Or.inl (readCell_error h1)
      · split at h
        · cases h
        · exact search_error (by rw [readCell_ok hstart, hs0]) hfuel h

/-! ## Independence of the iteration bound -/

theorem bfsLoop_fuel {m : Maze} {sr sc : Nat} :
    ∀ (f1 f2 : Nat) (s : Search) (k : Nat), Head m sr sc s k →
      m.rows * m.columns < f1 + k → m.rows * m.columns < f2 + k →
      bfsLoop m f1 s = bfsLoop m f2 s := by
  intro f1
  induction f1 with
  | zero =>
    intro f2 s k hh h1 _
    have := Core_length_le hh.core
    have := hh.kle
    omega
  | succ f1 ih =>
    intro f2 s k hh h1 h2
    cases f2 with
    | zero =>
      have := Core_length_le hh.core
      have := hh.kle
      omega
    | succ f2 =>
      simp only [bfsLoop]
      by_cases hemp : isEmpty s.queue = true
      · rw [if_pos hemp, if_pos hemp]
      · rw [if_neg hemp, if_neg hemp]
        have hemp1 : isEmpty s.queue = false := by
          cases hq : isEmpty s.queue with
          | false => rfl
          | true => exact absurd hq hemp
        obtain ⟨q, hde⟩ := Head_deQueue_total hh hemp1
        rw [hde]
        simp only
        cases hnode : getNode s.nodes k with
        | error e => rfl
        | ok node =>
          simp only
          by_cases hgoal : node.row = pred64 m.rows ∧ node.column = pred64 m.columns
          · rw [if_pos hgoal, if_pos hgoal]
          · rw [if_neg hgoal, if_neg hgoal]
            obtain ⟨_, hmid⟩ := Mid_of_Head hh hemp1 hde hnode hgoal
            cases hv : visitNeighbors m k { s with queue := q } offsets with
            | error e => rfl
            | ok s2 =>
              simp only
              have hm2 := Mid_visitNeighbors offsets _ s2 [] (fun d hd => hd) hmid hv
              have hh2 : Head m sr sc s2 (k + 1) :=
                Head_of_Mid hm2 (fun d hd => by simp [hd])
              exact ih f2 s2 (k + 1) hh2 (by omega) (by omega)

theorem search_fuel {m : Maze} {sr sc f1 f2 : Nat} (opt : Bool)
    (hstart : m.array sr sc = some '0') (h1 : m.rows * m.columns < f1)
    (h2 : m.rows * m.columns < f2) :
    search f1 m sr sc opt = search f2 m sr sc opt := by
  unfold search
  cases hs0 : initSearch m sr sc with
  | error e => rfl
  | ok s0 =>
    simp only
    obtain ⟨hh, _, _⟩ := Head_init hstart hs0
    rw [bfsLoop_fuel f1 f2 s0 0 hh (by omega) (by omega)]

theorem stepCountFuel_fuel {m : Maze} {sr sc f1 f2 : Nat} (opt : Bool)
    (h1 : m.rows * m.columns < f1) (h2 : m.rows * m.columns < f2) :
    stepCountFuel f1 m sr sc opt = stepCountFuel f2 m sr sc opt := by
  unfold stepCountFuel
  cases hstart : readCell m sr sc with
  | error e => rfl
  | ok startCell =>
    simp only
    by_cases hne : startCell ≠ '0'
    · rw [if_pos hne, if_pos hne]
    · rw [if_neg hne, if_neg hne]
      have hs0 : startCell = '0' := not_not.mp hne
      rw [search_fuel opt (by rw [readCell_ok hstart, hs0]) h1 h2]

/-! ## The main loop runs through loop heads -/

theorem bfsLoop_trace {m : Maze} {sr sc : Nat} {s1 : Search} {found : Option Nat} :
    ∀ (fuel : Nat) (k : Nat) (s : Search), LoopHead m sr sc k s →
      bfsLoop m fuel s = .ok (s1, found) →
      ∃ k1 s2, LoopHead m sr sc k1 s2 ∧
        (found = none → s1 = s2 ∧ isEmpty s2.queue = true) ∧
        (∀ g, found = some g → ∃ q, Dequeued s2 q g ∧ s1 = { s2 with queue := q }) := by
  intro fuel
  induction fuel with
  | zero => intro k s _ h; simp [bfsLoop] at h
  | succ fuel ih =>
    intro k s hl h
    simp only [bfsLoop] at h
    split at h
    · rename_i hemp
      obtain ⟨e1, e2⟩ := Prod.mk.inj (Except.ok.inj h)
      subst e1; subst e2
      exact ⟨k, s, hl, fun _ => ⟨rfl, hemp⟩, fun g hg => by cases hg⟩
    · rename_i hemp
      have hemp1 : isEmpty s.queue = false := by
        cases hq : isEmpty s.queue with
        | false => rfl
        | true => exact absurd hq hemp
      split at h
      · cases h
      · cases h
      · rename_i q cur hde
        split at h
        · cases h
        · rename_i node hnode
          split at h
          · obtain ⟨e1, e2⟩ := Prod.mk.inj (Except.ok.inj h)
            subst e1; subst e2
            refine ⟨k, s, hl, fun hn => (by cases hn), fun g hg => ⟨q, ?_, rfl⟩⟩
            rw [← Option.some.inj hg]
            exact ⟨hemp1, hde⟩
          · rename_i hgoal
            split at h
            · cases h
            · rename_i s3 hs3
              exact ih (k + 1) s3
                (LoopHead.iter hl ⟨q, cur, ⟨⟨hemp1, hde⟩, node, hnode, hgoal⟩, hs3⟩) h

/-! ## Safety of the dequeue, the visited-once invariant, termination -/

theorem visitNeighbor_visited {m : Maze} {cur : Nat} {s s1 : Search} {dr dc : Int}
    (h : visitNeighbor m cur s dr dc = .ok s1) :
    ∀ r c, s.visited r c = true → s1.visited r c = true := by
  intro r c hv
  obtain ⟨t, row, col, _, _, _, hcases⟩ := visitNeighbor_ok h
  rcases hcases with ⟨_, rfl⟩ | ⟨_, _, _, _, rfl⟩ | ⟨_, _, _, _, dist, _, hpush⟩
  · exact hv
  · exact hv
  · obtain ⟨_, hvis, _, _⟩ := pushNode_ok hpush
    rw [hvis]
    show markVisited s.visited row.toNat col.toNat r c = true
    unfold markVisited
    split
    · rfl
    · exact hv

theorem visitNeighbors_visited {m : Maze} {cur : Nat} :
    ∀ (ds : List (Int × Int)) (s s1 : Search), visitNeighbors m cur s ds = .ok s1 →
      ∀ r c, s.visited r c = true → s1.visited r c = true := by
  intro ds
  induction ds with
  | nil =>
    intro s s1 h r c hv
    simp only [visitNeighbors] at h
    rw [← Except.ok.inj h]; exact hv
  | cons d ds ih =>
    intro s s1 h r c hv
    simp only [visitNeighbors] at h
    split at h
    · cases h
    · rename_i s2 hs2
      exact ih s2 s1 h r c (visitNeighbor_visited hs2 r c hv)

/-- C11: in every execution of `stepCount`, at every head of the main loop
where the guard `isEmpty(queue) == false` holds, the queue has `size > 0` and
`deQueue` succeeds and returns a node, not a null pointer; the main loop, run
from the state in which `stepCount` enters it, makes its dequeues at such
loop heads only; accordingly `stepCount` never ends in a failed assertion or
a null dereference, on any grid and from any start. -/
theorem deQueue_safe_in_search (m : Maze) (sRow sColumn : Nat) :
    (∀ k s, LoopHead m sRow sColumn k s → isEmpty s.queue = false →
      0 < s.queue.size ∧ ∃ q cur, deQueue s.nodes s.queue = .ok (q, some cur)) ∧
    (∀ fuel s0 s1 found, Started m sRow sColumn s0 → bfsLoop m fuel s0 = .ok (s1, found) →
      ∃ k s, LoopHead m sRow sColumn k s ∧
        (found = none → s1 = s ∧ isEmpty s.queue = true) ∧
        (∀ g, found = some g → ∃ q, Dequeued s q g ∧ s1 = { s with queue := q })) ∧
    (∀ optimalPath, stepCount m sRow sColumn optimalPath ≠ .error .assertion ∧
      stepCount m sRow sColumn optimalPath ≠ .error .nullDeref) := by
  refine ⟨?_, ?_, ?_⟩
  · intro k s hl hemp
    have hh := LoopHead_Head hl
    obtain ⟨q, hde⟩ := Head_deQueue_total hh hemp
    exact ⟨(Head_deQueue hh hemp hde).2.2.1, q, k, hde⟩
  · intro fuel s0 s1 found hstart hloop
    exact bfsLoop_trace fuel 0 s0 (LoopHead.init hstart) hloop
  · intro opt
    constructor
    · intro h
      rcases stepCountFuel_error (Nat.lt_succ_self _) h with h1 | h1 <;> cases h1
    · intro h
      rcases stepCountFuel_error (Nat.lt_succ_self _) h with h1 | h1 <;> cases h1

/-- C12: the visited-once invariant.  A step of the search never resets a
visited flag (one neighbour visit, the whole neighbour loop, and so a whole
iteration keep every flag that is set).  At every point of an execution no two
created nodes have the same (row, column), every created node lies on an
in-range open cell whose flag is set, the number of created nodes is at most
`rows * columns`, and whenever an in-range cell is still unvisited the number
of nodes is below `rows * columns`, so the write `nodes[nodesCreated]` for
its node stays inside the table of `rows * columns` entries. -/
theorem visited_once (m : Maze) (sRow sColumn : Nat) :
    (∀ cur s s1 dr dc, visitNeighbor m cur s dr dc = .ok s1 →
      ∀ r c, s.visited r c = true → s1.visited r c = true) ∧
    (∀ s s1, Iteration m s s1 → ∀ r c, s.visited r c = true → s1.visited r c = true) ∧
    (∀ s, Point m sRow sColumn s →
      (∀ (i j : Nat) (ti tj : Node), s.nodes[i]? = some ti → s.nodes[j]? = some tj →
        ti.row = tj.row → ti.column = tj.column → i = j) ∧
      (∀ (i : Nat) (t : Node), s.nodes[i]? = some t →
        m.OpenAt t.row t.column ∧ s.visited t.row t.column = true) ∧
      s.nodes.length ≤ m.rows * m.columns ∧
      (∀ r c, r < m.rows → c < m.columns → s.visited r c = false →
        s.nodes.length < m.rows * m.columns)) := by
  refine ⟨fun cur s s1 dr dc h => visitNeighbor_visited h, ?_, ?_⟩
  · intro s s1 hiter r c hv
    obtain ⟨q, cur, _, hvisit⟩ := hiter
    exact visitNeighbors_visited offsets _ s1 hvisit r c hv
  · intro s hp
    obtain ⟨hc, _⟩ := Point_Core hp
    refine ⟨?_, ?_, Core_length_le hc, fun r c hr hcl hv => Core_length_lt hc hr hcl hv⟩
    · intro i j ti tj hi hj hrow hcol
      exact hc.inj i j ti.payload tj.payload (info_of_nodes hi) (info_of_nodes hj) hrow hcol
    · intro i t hi
      obtain ⟨h1, h2, _⟩ := hc.cell i t.payload (info_of_nodes hi)
      exact ⟨h1, h2⟩

/-- C13: `stepCount` terminates.  On every grid and from every start the call
never exhausts its bound of `rows * columns + 1` loop iterations, and any
larger bound gives the same result.  At the head of the main loop after `k`
iterations at most `rows * columns` nodes exist and `k` of them have been
dequeued; if the queue is not empty the next dequeue is at most the
`rows * columns`-th.  From every node of every point the path-marking loop
ends within as many steps as there are nodes.  On a well-formed grid whose
number of cells fits an `int`, with an in-range start, the call returns,
also when the goal is unreachable. -/
theorem stepCount_terminates (m : Maze) (sRow sColumn : Nat) :
    (∀ optimalPath, stepCount m sRow sColumn optimalPath ≠ .error .fuel) ∧
    (∀ optimalPath fuel, m.rows * m.columns < fuel →
      stepCountFuel fuel m sRow sColumn optimalPath = stepCount m sRow sColumn optimalPath) ∧
    (∀ k s, LoopHead m sRow sColumn k s →
      k ≤ s.nodes.length ∧ s.nodes.length ≤ m.rows * m.columns ∧
        (isEmpty s.queue = false → k + 1 ≤ m.rows * m.columns)) ∧
    (∀ s g t, Point m sRow sColumn s → s.nodes[g]? = some t →
      ∃ m1, markPath s.nodes s.nodes.length m (some g) = .ok m1) ∧
    (m.WF → m.rows * m.columns ≤ 2147483647 → sRow < m.rows → sColumn < m.columns →
      ∀ optimalPath, ∃ d m1, stepCount m sRow sColumn optimalPath = .ok (d, m1)) := by
  refine ⟨?_, ?_, ?_, ?_, ?_⟩
  · intro opt h
    rcases stepCountFuel_error (Nat.lt_succ_self _) h with h1 | h1 <;> cases h1
  · intro opt fuel hfuel
    exact stepCountFuel_fuel opt hfuel (Nat.lt_succ_self _)
  · intro k s hl
    have hh := LoopHead_Head hl
    have hle := Core_length_le hh.core
    refine ⟨hh.kle, hle, fun hemp => ?_⟩
    obtain ⟨q, hde⟩ := Head_deQueue_total hh hemp
    have := (Head_deQueue hh hemp hde).2.1
    omega
  · intro s g t hp hg
    obtain ⟨hc, _⟩ := Point_Core hp
    have hinfo := info_of_nodes hg
    exact markPath_total hc g t.payload hinfo s.nodes.length m (info_lt hinfo)
      (fun j tj hj => by rw [(hc.cell j tj hj).1.2.2]; rfl)
  · intro hwf hsz hsr hsc opt
    exact stepCount_total m sRow sColumn opt hwf hsz hsr hsc

/-! ## The predecessor tree -/

theorem demoState_head : LoopHead demoMaze 0 0 2 demoState := by
  have h0 : LoopHead demoMaze 0 0 0 _ := LoopHead.init ⟨rfl, rfl, rfl⟩
  have h1 : LoopHead demoMaze 0 0 1 _ :=
    LoopHead.iter h0 ⟨_, 0, ⟨⟨rfl, rfl⟩, _, rfl, fun h => absurd h.1 (by decide)⟩, rfl⟩
  exact LoopHead.iter h1 ⟨_, 1, ⟨⟨rfl, rfl⟩, _, rfl, fun h => absurd h.1 (by decide)⟩, rfl⟩

theorem hugeState_point : Point hugeMaze 4294967297 0 hugeState :=
  ⟨0, _, LoopHead.init ⟨rfl, rfl, rfl⟩, Or.inr (Or.inr
    ⟨_, 0, [(-1, 0)], [(0, -1), (0, 1), (1, 0)],
      ⟨⟨rfl, rfl⟩, _, rfl, fun h => absurd h.1 (by decide)⟩, rfl, rfl⟩)⟩

theorem followLinks_add (nodes : Heap) : ∀ (a b i : Nat),
    followLinks nodes (a + b) i = (followLinks nodes a i).bind (followLinks nodes b) := by
  intro a
  induction a with
  | zero => intro b i; simp [followLinks]
  | succ a ih =>
    intro b i
    have e : a + 1 + b = (a + b) + 1 := by omega
    rw [e]
    simp only [followLinks]
    cases hn : nodes[i]? with
    | none => rfl
    | some t =>
      simp only
      cases hp : t.previousPath with
      | none => rfl
      | some j => exact ih b j

theorem followLinks_chain {m : Maze} {sr sc : Nat} {s : Search} (hc : Core m sr sc s) :
    ∀ (n i : Nat) (t : Node), s.info[i]? = some t → (n : Int) + 1 ≤ t.distance →
      ∃ (j : Nat) (tj : Node), followLinks s.nodes n i = some j ∧ s.info[j]? = some tj ∧
        tj.distance = t.distance - n ∧ j + n ≤ i := by
  intro n
  induction n with
  | zero =>
    intro i t ht _
    exact ⟨i, t, rfl, ht, by simp, by omega⟩
  | succ n ih =>
    intro i t ht hd
    have hpos : 0 < i := by
      rcases Nat.eq_zero_or_pos i with rfl | h
      · have hst := hc.start
        rw [ht] at hst
        injection hst with hst
        subst hst
        have : (newNode sr sc 1 none).distance = 1 := rfl
        rw [this] at hd
        push_cast at hd
        omega
      · exact h
    obtain ⟨_, _, j0, tj0, hprev, hj0, htj0, hdist, _⟩ := hc.later i t hpos ht
    obtain ⟨t1, hn, hp⟩ := nodes_of_info ht
    have ep : t1.previousPath = t.previousPath := by rw [← hp]; rfl
    obtain ⟨j, tj, h1, h2, h3, h4⟩ := ih j0 tj0 htj0 (by push_cast at hd; omega)
    refine ⟨j, tj, ?_, h2, by push_cast; omega, by omega⟩
    simp only [followLinks, hn, ep, hprev]
    exact h1

theorem distance_one_is_start {m : Maze} {sr sc : Nat} {s : Search} (hc : Core m sr sc s)
    {j : Nat} {tj : Node} (hj : s.info[j]? = some tj) (hd : tj.distance = 1) : j = 0 := by
  rcases Nat.eq_zero_or_pos j with h | h
  · exact h
  · obtain ⟨_, _, j0, tj0, _, _, htj0, hdist, _⟩ := hc.later j tj h hj
    have := (hc.cell j0 tj0 htj0).2.2.1
    omega

/-- C19 as stated fails: on the well-formed grid of `2^32 + 3` rows and one
column, started at the in-range cell `(2^32 + 1, 0)`, the search creates for
the cell (0, 0) a node whose predecessor is the start node, and the two cells
are not 4-adjacent: `(int)current->row` is 1 for the start row. -/
theorem hugeMaze_predecessor_not_adjacent :
    hugeMaze.WF ∧ 4294967297 < hugeMaze.rows ∧ 0 < hugeMaze.columns ∧
      Point hugeMaze 4294967297 0 hugeState ∧
      ∃ node pred, hugeState.nodes[1]? = some node ∧ node.previousPath = some 0 ∧
        hugeState.nodes[0]? = some pred ∧
        (pred.row, pred.column) = (4294967297, 0) ∧ (node.row, node.column) = (0, 0) ∧
        ¬ Adj (pred.row, pred.column) (node.row, node.column) := by
  refine ⟨⟨by decide, by decide, ?_⟩, by decide, by decide, hugeState_point,
    _, _, rfl, rfl, rfl, rfl, rfl, by decide⟩
  intro r hr c hc
  have h : r < 4294967299 ∧ c < 1 := ⟨hr, hc⟩
  simp only [hugeMaze, if_pos h]
  rfl

/-- C19 (amended): the predecessor-tree invariant, for a start whose
coordinates are at most `INT_MAX` (as is every in-range start of a grid with
`rows, columns <= INT_MAX`).  At every point of the search the start node is
node 0, with distance 1 and no predecessor; every other created node has a
predecessor that was created earlier, whose cell is 4-adjacent to the node's
cell, with `distance = predecessor.distance + 1`; and following
`previousPath` links from any node reaches the start node after exactly
`distance - 1` links, through nodes created ever earlier, hence without
cycles. -/
theorem predecessor_tree (m : Maze) (sRow sColumn : Nat) (s : Search)
    (hs : sRow ≤ 2147483647 ∧ sColumn ≤ 2147483647) (hp : Point m sRow sColumn s) :
    (∃ t0, s.nodes[0]? = some t0 ∧ t0.row = sRow ∧ t0.column = sColumn ∧
      t0.distance = 1 ∧ t0.previousPath = none) ∧
    (∀ (i : Nat) (t : Node), 0 < i → s.nodes[i]? = some t →
      ∃ (j : Nat) (tj : Node), t.previousPath = some j ∧ j < i ∧ s.nodes[j]? = some tj ∧
        Adj (tj.row, tj.column) (t.row, t.column) ∧ t.distance = tj.distance + 1) ∧
    (∀ (i : Nat) (t : Node), s.nodes[i]? = some t →
      1 ≤ t.distance ∧ followLinks s.nodes (t.distance - 1).toNat i = some 0 ∧
      ∀ n1 n2, n1 < n2 → n2 ≤ (t.distance - 1).toNat →
        ∃ j1 j2, followLinks s.nodes n1 i = some j1 ∧ followLinks s.nodes n2 i = some j2 ∧
          j2 < j1) := by
  obtain ⟨hc, _⟩ := Point_Core hp
  refine ⟨?_, ?_, ?_⟩
  · obtain ⟨t0, h0, hp0⟩ := nodes_of_info hc.start
    refine ⟨t0, h0, ?_, ?_, ?_, ?_⟩
    · show t0.payload.row = sRow
      rw [hp0]; rfl
    · show t0.payload.column = sColumn
      rw [hp0]; rfl
    · show t0.payload.distance = 1
      rw [hp0]; rfl
    · show t0.payload.previousPath = none
      rw [hp0]; rfl
  · intro i t hpos hi
    obtain ⟨_, _, j, tj, hprev, hji, hj, hdist, hadj⟩ :=
      hc.later i t.payload hpos (info_of_nodes hi)
    obtain ⟨tj1, hn, hpj⟩ := nodes_of_info hj
    have hfit : tj.row ≤ 2147483647 ∧ tj.column ≤ 2147483647 := by
      rcases Nat.eq_zero_or_pos j with rfl | hjpos
      · have hst := hc.start
        rw [hj] at hst
        injection hst with hst
        subst hst
        exact hs
      · obtain ⟨g1, g2, _⟩ := hc.later j tj hjpos hj
        have := toInt_le_max m.rows
        have := toInt_le_max m.columns
        constructor <;> omega
    refine ⟨j, tj1, hprev, hji, hn, ?_, ?_⟩
    · have := hadj hfit.1 hfit.2
      rw [← hpj] at this
      exact this
    · rw [← hpj] at hdist
      exact hdist
  · intro i t hi
    have hinfo := info_of_nodes hi
    have hd1 : 1 ≤ t.distance := (hc.cell i t.payload hinfo).2.2.1
    have hnat : (((t.distance - 1).toNat : Nat) : Int) = t.distance - 1 :=
      Int.toNat_of_nonneg (by omega)
    refine ⟨hd1, ?_, ?_⟩
    · obtain ⟨j, tj, h1, h2, h3, _⟩ :=
        followLinks_chain hc (t.distance - 1).toNat i t.payload hinfo
          (by rw [hnat]; show t.distance - 1 + 1 ≤ t.distance; omega)
      have hj0 : j = 0 := distance_one_is_start hc h2
        (by rw [h3, hnat]; show t.distance - (t.distance - 1) = 1; omega)
      rw [h1, hj0]
    · intro n1 n2 hlt hle
      have hle1 : (n2 : Int) ≤ t.distance - 1 := by rw [← hnat]; exact_mod_cast hle
      obtain ⟨j1, tj1, a1, a2, a3, _⟩ := followLinks_chain hc n1 i t.payload hinfo
        (by show (n1 : Int) + 1 ≤ t.distance; omega)
      obtain ⟨j2, tj2, b1, b2, b3, b4⟩ := followLinks_chain hc (n2 - n1) j1 tj1 a2
        (by rw [a3]; show ((n2 - n1 : Nat) : Int) + 1 ≤ t.distance - n1; omega)
      refine ⟨j1, j2, a1, ?_, by omega⟩
      have e : n2 = n1 + (n2 - n1) := by omega
      rw [e, followLinks_add, a1]
      exact b1

/-- Witness for `predecessor_tree`: the search on the grid 001 / 101 / 000
from (0, 0), at the loop head after two iterations. -/
theorem predecessor_tree_witness :
    (∃ t0, demoState.nodes[0]? = some t0 ∧ t0.row = 0 ∧ t0.column = 0 ∧
      t0.distance = 1 ∧ t0.previousPath = none) ∧
    (∀ (i : Nat) (t : Node), 0 < i → demoState.nodes[i]? = some t →
      ∃ (j : Nat) (tj : Node), t.previousPath = some j ∧ j < i ∧
        demoState.nodes[j]? = some tj ∧
        Adj (tj.row, tj.column) (t.row, t.column) ∧ t.distance = tj.distance + 1) ∧
    (∀ (i : Nat) (t : Node), demoState.nodes[i]? = some t →
      1 ≤ t.distance ∧ followLinks demoState.nodes (t.distance - 1).toNat i = some 0 ∧
      ∀ n1 n2, n1 < n2 → n2 ≤ (t.distance - 1).toNat →
        ∃ j1 j2, followLinks demoState.nodes n1 i = some j1 ∧
          followLinks demoState.nodes n2 i = some j2 ∧ j2 < j1) :=
  predecessor_tree demoMaze 0 0 demoState (by decide)
    ⟨2, demoState, demoState_head, Or.inl rfl⟩

/-- Witness for `deQueue_safe_in_search` (C11): the loop head after two
iterations on the grid 001 / 101 / 000 has a non-empty queue. -/
theorem deQueue_safe_in_search_witness :
    0 < demoState.queue.size ∧
      ∃ q cur, deQueue demoState.nodes demoState.queue = .ok (q, some cur) :=
  (deQueue_safe_in_search demoMaze 0 0).1 2 demoState demoState_head rfl

/-- Witness for `visited_once` (C12): the same loop head is a point of the
search. -/
theorem visited_once_witness :
    (∀ (i j : Nat) (ti tj : Node), demoState.nodes[i]? = some ti →
        demoState.nodes[j]? = some tj → ti.row = tj.row → ti.column = tj.column → i = j) ∧
      (∀ (i : Nat) (t : Node), demoState.nodes[i]? = some t →
        demoMaze.OpenAt t.row t.column ∧ demoState.visited t.row t.column = true) ∧
      demoState.nodes.length ≤ demoMaze.rows * demoMaze.columns ∧
      (∀ r c, r < demoMaze.rows → c < demoMaze.columns → demoState.visited r c = false →
        demoState.nodes.length < demoMaze.rows * demoMaze.columns) :=
  (visited_once demoMaze 0 0).2.2 demoState ⟨2, demoState, demoState_head, Or.inl rfl⟩

/-- Witness for `stepCount_terminates` (C13): the same loop head. -/
theorem stepCount_terminates_witness :
    2 ≤ demoState.nodes.length ∧ demoState.nodes.length ≤ demoMaze.rows * demoMaze.columns ∧
      (isEmpty demoState.queue = false → 2 + 1 ≤ demoMaze.rows * demoMaze.columns) :=
  (stepCount_terminates demoMaze 0 0).2.2.1 2 demoState demoState_head

/-- Witness for `stepCount_idempotent` (C17): the grid 001 / 101 / 000. -/
theorem stepCount_idempotent_witness :
    demoMaze = demoMaze ∧ stepCount demoMaze 0 0 false = .ok (5, demoMaze) :=
  (stepCount_idempotent demoMaze 0 0).1 5 demoMaze rfl

/-! ## parseMaze -/

/-- C18 (the code departs from the claim): on the input of two lines with one
digit each (`r = 2`, `c = 1`), whatever the content of fresh memory,
`parseMaze` does not return a 2 x 1 maze: the row table has `columns = 1`
entries, and the digit of the second line is stored through `array[1]`,
outside the table. -/
theorem parseMaze_tall_input_faults (junk : Nat → Nat → Char) :
    parseMaze junk [['0', '\n'], ['0', '\n']] = .error .outOfBounds :=
  rfl

theorem scanLine_exact {cur c : Nat} : ∀ (line : List Char) (A : Storage) (column : Nat),
    (∀ col, col < c → (A cur col).isSome = true) → column < c →
    column + countDigits line = c →
    ∃ A1, scanLine cur c A column line = .ok A1 ∧
      (∀ r col, (A1 r col).isSome = (A r col).isSome) ∧
      (∀ r col, r ≠ cur → A1 r col = A r col) ∧
      (∀ col, col < column → A1 cur col = A cur col) ∧
      (∀ j, j < countDigits line → A1 cur (column + j) = (line.filter Char.isDigit)[j]?) := by
  intro line
  induction line with
  | nil =>
    intro A column _ hlt hsum
    simp only [countDigits, List.filter_nil, List.length_nil] at hsum
    omega
  | cons ch rest ih =>
    intro A column halloc hlt hsum
    by_cases hd : ch.isDigit = true
    · have hf : (ch :: rest).filter Char.isDigit = ch :: rest.filter Char.isDigit :=
        List.filter_cons_of_pos hd
      have hcount : countDigits (ch :: rest) = countDigits rest + 1 := by
        simp only [countDigits, hf, List.length_cons]
      obtain ⟨x, hx⟩ := Option.isSome_iff_exists.mp (halloc column hlt)
      have hw : ∀ r col, ((fun r col => if r = cur ∧ col = column then some ch
          else A r col : Storage) r col).isSome = (A r col).isSome := by
        intro r col
        show (if r = cur ∧ col = column then some ch else A r col).isSome = _
        split
        · rename_i h; rw [h.1, h.2, hx]; rfl
        · rfl
      by_cases hend : column + 1 = c
      · refine ⟨_, by simp only [scanLine, hd, if_true, hx, if_pos hend], hw, ?_, ?_, ?_⟩
        · intro r col hr
          show (if r = cur ∧ col = column then some ch else A r col) = _
          rw [if_neg (fun h => hr h.1)]
        · intro col hcol
          show (if cur = cur ∧ col = column then some ch else A cur col) = _
          rw [if_neg (fun h => by omega)]
        · intro j hj
          have hj0 : j = 0 := by omega
          subst hj0
          show (if cur = cur ∧ column + 0 = column then some ch else A cur (column + 0)) = _
          rw [if_pos ⟨rfl, rfl⟩, hf]
          exact List.getElem?_cons_zero.symm
      · obtain ⟨A1, h1, h2, h3, h4, h5⟩ := ih
          (fun r col => if r = cur ∧ col = column then some ch else A r col) (column + 1)
          (fun col hcol => by rw [hw]; exact halloc col hcol) (by omega) (by omega)
        refine ⟨A1, by simp only [scanLine, hd, if_true, hx, if_neg hend]; exact h1, ?_, ?_,
          ?_, ?_⟩
        · intro r col; rw [h2, hw]
        · intro r col hr
          rw [h3 r col hr]
          show (if r = cur ∧ col = column then some ch else A r col) = _
          rw [if_neg (fun h => hr h.1)]
        · intro col hcol
          rw [h4 col (by omega)]
          show (if cur = cur ∧ col = column then some ch else A cur col) = _
          rw [if_neg (fun h => by omega)]
        · intro j hj
          rw [hf]
          cases j with
          | zero =>
            show A1 cur column = _
            rw [h4 column (by omega), if_pos ⟨rfl, rfl⟩]
            exact List.getElem?_cons_zero.symm
          | succ j =>
            have := h5 j (by omega)
            rw [List.getElem?_cons_succ, ← this]
            congr 1
            omega
    · have hf : (ch :: rest).filter Char.isDigit = rest.filter Char.isDigit :=
        List.filter_cons_of_neg hd
      have hcount : countDigits (ch :: rest) = countDigits rest := by
        simp only [countDigits, hf]
      obtain ⟨A1, h1, h2, h3, h4, h5⟩ := ih A column halloc hlt (by omega)
      refine ⟨A1, ?_, h2, h3, h4, ?_⟩
      · have hne : ¬ column = c := by omega
        simp only [scanLine, hd, if_neg hne]
        exact h1
      · intro j hj
        rw [hf]
        exact h5 j (by omega)

theorem scanLine_fault {cur c : Nat} : ∀ (line : List Char) (A : Storage) (column : Nat),
    (∀ col, A cur col = none) → column < c → 0 < countDigits line →
    scanLine cur c A column line = .error .outOfBounds := by
  intro line
  induction line with
  | nil =>
    intro A column _ _ hpos
    simp [countDigits] at hpos
  | cons ch rest ih =>
    intro A column hnone hlt hpos
    by_cases hd : ch.isDigit = true
    · simp only [scanLine, hd, if_true, hnone]
    · have hf : (ch :: rest).filter Char.isDigit = rest.filter Char.isDigit :=
        List.filter_cons_of_neg hd
      have hne : ¬ column = c := by omega
      simp only [scanLine, hd, if_neg hne]
      exact ih A column hnone hlt (by simpa only [countDigits, hf] using hpos)

theorem readLines_spec {junk : Nat → Nat → Char} {c : Nat} :
    ∀ (rest : List (List Char)) (k : Nat) (A : Storage), 1 ≤ k → k ≤ c →
      (∀ r, r < c → ∀ col, col < c → (A r col).isSome = true) →
      (∀ r, c ≤ r → ∀ col, A r col = none) →
      (∀ line ∈ rest, countDigits line = c) → 1 ≤ c →
      (k + rest.length ≤ c →
        ∃ A1, readLines junk k c A rest = .ok (k + rest.length, c, A1) ∧
          (∀ i, i < k → ∀ col, A1 i col = A i col) ∧
          (∀ i, i < rest.length → ∀ j, j < c →
            A1 (k + i) j = ((rest.getD i []).filter Char.isDigit)[j]?)) ∧
      (c < k + rest.length → readLines junk k c A rest = .error .outOfBounds) := by
  intro rest
  induction rest with
  | nil =>
    intro k A _ hkc _ _ _ _
    refine ⟨fun _ => ⟨A, rfl, fun _ _ _ => rfl, fun i hi => ?_⟩, fun h => ?_⟩
    · simp at hi
    · simp at h; omega
  | cons line rest ih =>
    intro k A hk hkc hin hout hdig hc
    have hk0 : ¬ k = 0 := by omega
    have hline : countDigits line = c := hdig line (List.mem_cons_self _ _)
    have hrest : ∀ l ∈ rest, countDigits l = c := fun l hl => hdig l (List.mem_cons_of_mem _ hl)
    rcases Nat.lt_or_ge k c with hlt | hge
    · obtain ⟨A0, h1, h2, h3, _, h5⟩ := @scanLine_exact k c line A 0
        (hin k hlt) (by omega) (by omega)
      have hin0 : ∀ r, r < c → ∀ col, col < c → (A0 r col).isSome = true := by
        intro r hr col hcol
        rw [h2]; exact hin r hr col hcol
      have hout0 : ∀ r, c ≤ r → ∀ col, A0 r col = none := by
        intro r hr col
        have := h2 r col
        rw [hout r hr col] at this
        exact Option.not_isSome_iff_eq_none.mp (by rw [this]; simp)
      obtain ⟨ih1, ih2⟩ := ih (k + 1) A0 (by omega) hlt hin0 hout0 hrest hc
      have hstep : readLines junk k c A (line :: rest) = readLines junk (k + 1) c A0 rest := by
        simp only [readLines, if_neg hk0, h1]
      constructor
      · intro hle
        simp only [List.length_cons] at hle
        obtain ⟨A1, g1, g2, g3⟩ := ih1 (by omega)
        refine ⟨A1, ?_, ?_, ?_⟩
        · rw [hstep, g1]
          simp only [List.length_cons]
          congr 2
          omega
        · intro i hi col
          rw [g2 i (by omega) col]
          exact h3 i col (by omega)
        · intro i hi j hj
          cases i with
          | zero =>
            show A1 k j = _
            rw [g2 k (by omega) j]
            have := h5 j (by omega)
            rw [Nat.zero_add] at this
            exact this
          | succ i =>
            simp only [List.length_cons] at hi
            have := g3 i (by omega) j hj
            have e : k + (i + 1) = k + 1 + i := by omega
            rw [e, this]
            rfl
      · intro hgt
        simp only [List.length_cons] at hgt
        rw [hstep]
        exact ih2 (by omega)
    · have hkc1 : k = c := by omega
      constructor
      · intro hle
        simp only [List.length_cons] at hle
        omega
      · intro _
        have hf := @scanLine_fault k c line A 0 (hout k (by omega)) (by omega)
          (by omega)
        simp only [readLines, if_neg hk0, hf]

/-- The behaviour of `parseMaze` on an input of `r >= 1` lines that each hold
exactly `c >= 1` digit characters: when `r <= c` the result is the maze with
`rows = r`, `columns = c` whose cell `(i, j)` is the `j`-th digit of line `i`;
when `r > c` the call faults, storing line `c` outside the row table. -/
theorem parseMaze_spec (junk : Nat → Nat → Char) (lines : List (List Char)) (c : Nat)
    (hc : 1 ≤ c) (hne : lines ≠ []) (hdig : ∀ line ∈ lines, countDigits line = c) :
    (lines.length ≤ c →
      ∃ m, parseMaze junk lines = .ok m ∧ m.rows = lines.length ∧ m.columns = c ∧
        ∀ i j, i < lines.length → j < c →
          m.array i j = ((lines.getD i []).filter Char.isDigit)[j]?) ∧
    (c < lines.length → parseMaze junk lines = .error .outOfBounds) := by
  cases lines with
  | nil => exact absurd rfl hne
  | cons first rest =>
    have hfirst : countDigits first = c := hdig first (List.mem_cons_self _ _)
    have hrest : ∀ l ∈ rest, countDigits l = c :=
      fun l hl => hdig l (List.mem_cons_of_mem _ hl)
    have halloc : ∀ r, r < c → ∀ col, col < c → (allocArray junk c r col).isSome = true := by
      intro r hr col hcol
      have h : r < c ∧ col < c * 8 := ⟨hr, by omega⟩
      simp only [allocArray, if_pos h]
      rfl
    have hnone : ∀ r, c ≤ r → ∀ col, allocArray junk c r col = none := by
      intro r hr col
      have h : ¬ (r < c ∧ col < c * 8) := fun h => by omega
      simp only [allocArray, if_neg h]
    obtain ⟨A0, h1, h2, _, _, h5⟩ := @scanLine_exact 0 c first
      (allocArray junk c) 0 (halloc 0 (by omega)) (by omega) (by omega)
    have hin0 : ∀ r, r < c → ∀ col, col < c → (A0 r col).isSome = true := by
      intro r hr col hcol
      rw [h2]; exact halloc r hr col hcol
    have hout0 : ∀ r, c ≤ r → ∀ col, A0 r col = none := by
      intro r hr col
      have := h2 r col
      rw [hnone r hr col] at this
      exact Option.not_isSome_iff_eq_none.mp (by rw [this]; simp)
    obtain ⟨r1, r2⟩ := @readLines_spec junk c rest 1 A0 (le_refl 1) hc hin0 hout0 hrest hc
    have hstep : readLines junk 0 0 (fun _ _ => none) (first :: rest) =
        readLines junk 1 c A0 rest := by
      simp only [readLines, if_true, Nat.zero_add, hfirst, h1]
    constructor
    · intro hle
      simp only [List.length_cons] at hle
      obtain ⟨A1, g1, g2, g3⟩ := r1 (by omega)
      refine ⟨{ rows := 1 + rest.length, columns := c, array := A1 }, ?_, ?_, rfl, ?_⟩
      · simp only [parseMaze, hstep, g1]
      · simp only [List.length_cons]; omega
      · intro i j hi hj
        simp only [List.length_cons] at hi
        cases i with
        | zero =>
          show A1 0 j = _
          rw [g2 0 (by omega) j]
          have := h5 j (by omega)
          rw [Nat.zero_add] at this
          exact this
        | succ i =>
          have g := g3 i (by omega) j hj
          rw [show 1 + i = i + 1 from by omega] at g
          show A1 (i + 1) j = _
          rw [g]
          rfl
    · intro hgt
      simp only [List.length_cons] at hgt
      simp only [parseMaze, hstep, r2 (by omega)]

end Mopsolver
